import Mathlib

/-!
The FQL lexer, tree builder and SQL generator of funnel

A shallow embedding of `lex/lex.go` and `sql.go`.

Modelling conventions.
* A Go `string` is modelled by the list of its runes (`Str`), so the inputs are
  the valid UTF-8 strings, and every statement below is about such inputs. A
  Go string may also hold a byte that does not decode; there
  `utf8.DecodeRuneInString` returns `(utf8.RuneError, 1)`, which the lexer takes
  for the end of the input as it does the rune U+FFFD. That case has no
  counterpart here. Offsets into the input count runes: every decoded rune has
  width 1, and the end of the input decodes to `(utf8.RuneError, 0)` exactly as
  `utf8.DecodeRuneInString` does on the empty string. The rune U+FFFD itself
  may occur in an input. The function `len`, used on the comparator of a
  predicate, counts bytes.
* `position -= width` is a subtraction of naturals; `width` is the width of the
  rune read last, which never exceeds `position`.
* The buffered channel `items` is a FIFO list; it never holds more than one
  item.
* A method that changes its receiver returns the new receiver.
* Go loops without a syntactic bound take a fuel argument. The fuel handed in
  by the callers is sufficient: `lexTextLoop_spec`, `NextItemLoop_fuel`,
  `ToSql_fuel_sufficient`.
-/

namespace Funnel

/-- Go strings that are valid UTF-8, as sequences of runes. -/
abbrev Str := List Char

/-- The builtin `len` of a string: the number of bytes of its UTF-8 encoding. -/
def len (s : Str) : Nat := (s.map Char.utf8Size).sum

/-! ## lex/lex.go -/

namespace lex

def Or : Str := "||".toList
def And : Str := "&&".toList

/-- The rune `utf8.RuneError` (U+FFFD), which the lexer uses as its end-of-input mark. -/
def eof : Char := Char.ofNat 0xFFFD
def upperalpha : Str := "ABCDEFGHIJKLMNOPQRSTUVWXYZ".toList
def loweralpha : Str := "abcdefghijklmopqrstuvwxyz".toList
def digits : Str := "0123456789".toList
def alphanumeric : Str := upperalpha ++ loweralpha ++ digits

inductive ItemType where
  | ErrorType
  | OpenPrecedenceType
  | ClosePrecedenceType
  | BooleanType
  | LiteralType
  | FieldType
  | ComparatorType
deriving DecidableEq, Repr

/-- The integer value of an item type (`iota` numbering). -/
def ItemType.toNat : ItemType → Nat
  | .ErrorType => 0
  | .OpenPrecedenceType => 1
  | .ClosePrecedenceType => 2
  | .BooleanType => 3
  | .LiteralType => 4
  | .FieldType => 5
  | .ComparatorType => 6

structure Item where
  Typ : ItemType
  Value : Str
deriving DecidableEq, Repr

def openPrecedence : Char := Char.ofNat 40
def closePrecedence : Char := Char.ofNat 41
def quoteLiteral : Char := Char.ofNat 34
def and : Char := Char.ofNat 38
def or : Char := Char.ofNat 124
def space : Char := Char.ofNat 32
def chLt : Char := Char.ofNat 60
def chGt : Char := Char.ofNat 62
def chEq : Char := Char.ofNat 61
def chBang : Char := Char.ofNat 33
def chDot : Char := Char.ofNat 46
def chBackslash : Char := Char.ofNat 92

/-- The state functions that are ever stored in `Lexer.state`; `nil` is `none`. -/
inductive stateFunc where
  | lexText
deriving DecidableEq, Repr

structure Lexer where
  input : Str
  position : Nat
  width : Nat
  start : Nat
  items : List Item
  state : Option stateFunc
  dict : List Str
deriving DecidableEq, Repr

/-- The key set of the map built from the allowed fields. -/
def buildDict (strs : List Str) : List Str := strs

def NewLexer (input : Str) (allowedFields : List Str) : Lexer :=
  { input := input, position := 0, width := 0, start := 0, items := [],
    state := some stateFunc.lexText, dict := buildDict allowedFields }

/-- The function `utf8.DecodeRuneInString` on a string of runes: the first rune with
width 1, or `(utf8.RuneError, 0)` on the empty string. The third case of the Go
function, `(utf8.RuneError, 1)` on a byte that does not decode, cannot arise on a valid
UTF-8 string. -/
def DecodeRuneInString : Str → Char × Nat
  | [] => (eof, 0)
  | c :: _ => (c, 1)

def Lexer.next (l : Lexer) : Char × Lexer :=
  if l.position > l.input.length then
    (eof, { l with width := 0 })
  else
    let d := DecodeRuneInString (l.input.drop l.position)
    (d.1, { l with width := d.2, position := l.position + d.2 })

def Lexer.backup (l : Lexer) : Lexer :=
  { l with position := l.position - l.width }

def Lexer.peek (l : Lexer) : Char × Lexer :=
  ((l.next).1, (l.next).2.backup)

def Lexer.ignore (l : Lexer) : Lexer :=
  { l with start := l.position }

def Lexer.buf (l : Lexer) : Str :=
  (l.input.drop l.start).take (l.position - l.start)

def Lexer.emit (l : Lexer) (itemType : ItemType) : Lexer :=
  let buf := l.buf
  let buf := if itemType = ItemType.LiteralType then buf.filter (fun c => c != quoteLiteral) else buf
  { l with items := l.items ++ [{ Typ := itemType, Value := buf }], start := l.position }

def Lexer.accept (l : Lexer) (valid : Str) : Bool × Lexer :=
  if valid.contains (l.next).1 then (true, (l.next).2) else (false, (l.next).2.backup)

def Lexer.acceptRunLoop (valid : Str) : Nat → Lexer → Lexer
  | 0, l => l
  | n + 1, l => if valid.contains (l.next).1 then Lexer.acceptRunLoop valid n (l.next).2 else (l.next).2

def Lexer.acceptRun (l : Lexer) (valid : Str) : Lexer :=
  (Lexer.acceptRunLoop valid (l.input.length + 1) l).backup

def inRunes (r : Char) (rs : List Char) : Bool :=
  match rs with
  | [] => false
  | c :: cs => if c = r then true else inRunes r cs

def Lexer.acceptUntilLoop (r : List Char) : Nat → Lexer → Lexer
  | 0, l => l
  | n + 1, l => if inRunes (l.next).1 (r ++ [eof]) then (l.next).2 else Lexer.acceptUntilLoop r n (l.next).2

def Lexer.acceptUntil (l : Lexer) (r : List Char) : Lexer :=
  Lexer.acceptUntilLoop r (l.input.length + 1) l

/-- Hexadecimal digit used by the escapes of `%q`. -/
def hexDigit (n : Nat) : Char :=
  if n < 10 then Char.ofNat (48 + n) else Char.ofNat (87 + n)

/-- One rune under `strconv.Quote`: quote and backslash are escaped, ASCII control
characters are written as escapes, every other rune is taken as printable. Go also
escapes the runes beyond ASCII that `unicode.IsPrint` rejects (U+00A0 is written
`\u00a0`); on those runes this definition differs from the code. -/
def quoteRune (c : Char) : Str :=
  if c = quoteLiteral then [chBackslash, quoteLiteral]
  else if c = chBackslash then [chBackslash, chBackslash]
  else if c.toNat = 7 then "\\a".toList
  else if c.toNat = 8 then "\\b".toList
  else if c.toNat = 12 then "\\f".toList
  else if c.toNat = 10 then "\\n".toList
  else if c.toNat = 13 then "\\r".toList
  else if c.toNat = 9 then "\\t".toList
  else if c.toNat = 11 then "\\v".toList
  else if c.toNat < 32 ∨ c.toNat = 127 then
    [chBackslash, Char.ofNat 120, hexDigit (c.toNat / 16), hexDigit (c.toNat % 16)]
  else [c]

/-- The verb `%q` of `fmt` on a string. -/
def fmtQ (s : Str) : Str :=
  [quoteLiteral] ++ (s.map quoteRune).flatten ++ [quoteLiteral]

def Lexer.errorf (l : Lexer) (msg : Str) : Lexer × Option stateFunc :=
  ({ l with items := l.items ++ [{ Typ := ItemType.ErrorType, Value := msg }] }, none)

def inOpenPrecedence (l : Lexer) : Lexer × Option stateFunc :=
  (l.emit ItemType.OpenPrecedenceType, some stateFunc.lexText)

def inClosePrecedence (l : Lexer) : Lexer × Option stateFunc :=
  (l.emit ItemType.ClosePrecedenceType, some stateFunc.lexText)

def inLiteral (l : Lexer) : Lexer × Option stateFunc :=
  ((l.acceptUntil [quoteLiteral]).emit ItemType.LiteralType, some stateFunc.lexText)

def inKeyDef (l : Lexer) (dict : List Str) : Lexer × Option stateFunc :=
  let l1 := l.acceptRun (alphanumeric ++ [chDot])
  let buf := l1.buf
  if dict.contains buf then
    (l1.emit ItemType.FieldType, some stateFunc.lexText)
  else
    l1.errorf (fmtQ buf ++ " isn't a valid field".toList)

def inBoolean (l : Lexer) : Lexer × Option stateFunc :=
  let l0 := l.backup
  let f := (l0.next).1
  let l1 := (l0.next).2
  let s := (l1.next).1
  let l2 := (l1.next).2
  if f ≠ s then
    l2.errorf ("invalid boolean expression, ".toList ++ [f, s])
  else
    (l2.emit ItemType.BooleanType, some stateFunc.lexText)

def inComp (l : Lexer) : Lexer × Option stateFunc :=
  let l0 := l.backup
  let l1 := (l0.next).2
  let l2 := (l1.peek).2
  let p := (l2.peek).1
  let l3 := (l2.peek).2
  let l4 := if p = chEq then (l3.next).2 else l3
  (l4.emit ItemType.ComparatorType, some stateFunc.lexText)

def lexTextLoop : Nat → Lexer → Lexer × Option stateFunc
  | 0, l => (l, none)
  | n + 1, l =>
    let r := (l.next).1
    let l1 := (l.next).2
    if r = eof then (l1, none)
    else if r = openPrecedence then inOpenPrecedence l1
    else if r = closePrecedence then inClosePrecedence l1
    else if r = quoteLiteral then inLiteral l1
    else if r = and ∨ r = or then inBoolean l1
    else if r = chLt ∨ r = chGt ∨ r = chEq ∨ r = chBang then inComp l1
    else if r = space then lexTextLoop n l1.ignore
    else inKeyDef l1 l1.dict

def lexText (l : Lexer) : Lexer × Option stateFunc :=
  lexTextLoop (l.input.length + 1) l

def stateFunc.run : stateFunc → Lexer → Lexer × Option stateFunc
  | .lexText, l => Funnel.lex.lexText l

def Lexer.NextItemLoop : Nat → Lexer → Option Item × Lexer
  | 0, l => (none, l)
  | n + 1, l =>
    match l.items with
    | item :: rest => (some item, { l with items := rest })
    | [] =>
      match l.state with
      | none => (none, l)
      | some f => Lexer.NextItemLoop n { (f.run l).1 with state := (f.run l).2 }

def Lexer.NextItem (l : Lexer) : Option Item × Lexer :=
  Lexer.NextItemLoop 2 l

/-- The items returned by calling `NextItem` until it returns nil, at most `n` times. -/
def Lexer.itemsUpTo : Nat → Lexer → List Item
  | 0, _ => []
  | n + 1, l =>
    match (l.NextItem).1 with
    | none => []
    | some item => item :: Lexer.itemsUpTo n (l.NextItem).2

end lex

/-! ## sql.go -/

abbrev BoolOp := Str

def And : BoolOp := "AND".toList
def Or : BoolOp := "OR".toList
def Invalid : BoolOp := "INVALID".toList

/-- What a Go function returns: a value, an `error`, or no return at all
because of a `panic`; `outOfFuel` marks a run cut short by the fuel bound. -/
inductive Outcome (α : Type) where
  | ok : α → Outcome α
  | error : Str → Outcome α
  | panic : Outcome α
  | outOfFuel : Outcome α
deriving DecidableEq, Repr

set_option linter.dupNamespace false in
structure field where
  field : Str
  comp : Str
  val : Str
deriving DecidableEq, Repr

/-- The implementations of the interface `sqler`: `*field` and `*boolean`. -/
inductive sqler where
  | ofField : field → sqler
  | ofBoolean : BoolOp → List sqler → sqler

structure boolean where
  operation : BoolOp
  children : List sqler

/-- The pointer `&b` of a `boolean` seen as a `sqler`. -/
def boolean.toSqler (b : boolean) : sqler := sqler.ofBoolean b.operation b.children

structure root where
  sqler : sqler

def toBoolOp (b : Str) : BoolOp :=
  if b = And then And
  else if b = Or then Or
  else if b = lex.Or then Or
  else if b = lex.And then And
  else Invalid

/-- The method `field.ToSql`; `none` is the panic on a comparator longer than two. -/
def field.ToSql (f : Funnel.field) : Option (Str × List Str) :=
  if len f.comp > 2 then none
  else some (f.field ++ " ".toList ++ f.comp ++ " ?".toList, [f.val])

mutual
/-- The method `ToSql` of a `sqler`, dispatched on the implementation. -/
def sqler.ToSql : sqler → Option (Str × List Str)
  | .ofField f => f.ToSql
  | .ofBoolean op cs =>
    match sqler.childrenLoop op cs 0 "(".toList [] with
    | none => none
    | some (sql, args) => some (sql ++ " )".toList, args)
/-- The loop `for i, c := range b.children` of `boolean.ToSql`, from index `i` on. -/
def sqler.childrenLoop (op : BoolOp) : List sqler → Nat → Str → List Str → Option (Str × List Str)
  | [], _, sql, args => some (sql, args)
  | c :: cs, i, sql, args =>
    match c.ToSql with
    | none => none
    | some (cSql, cArgs) =>
      sqler.childrenLoop op cs (i + 1)
        (if i > 0 then sql ++ " ".toList ++ op ++ " ".toList ++ cSql else sql ++ " ".toList ++ cSql)
        (args ++ cArgs)
end

def boolean.ToSql (b : boolean) : Option (Str × List Str) := b.toSqler.ToSql

def root.ToSql (r : root) : Option (Str × List Str) := r.sqler.ToSql

def field.set (f : Funnel.field) (item : lex.Item) : Except Str Funnel.field :=
  match item.Typ with
  | .ComparatorType => .ok { f with comp := item.Value }
  | .FieldType => .ok { f with field := item.Value }
  | .LiteralType => .ok { f with val := item.Value }
  | _ => .error ("error parsing ".toList ++ (Nat.repr item.Typ.toNat).toList)

/-- The loop `for i := 0; i < 2; i++` of `field.build`, with `k` rounds left. -/
def field.buildLoop : Nat → Funnel.field → lex.Lexer → Outcome (Funnel.field × lex.Lexer)
  | 0, f, l => .ok (f, l)
  | k + 1, f, l =>
    match (l.NextItem).1 with
    | none => .error "unexpected eof".toList
    | some item =>
      match f.set item with
      | .error e => .error e
      | .ok f1 => field.buildLoop k f1 (l.NextItem).2

def field.build (f : Funnel.field) (l : lex.Lexer) : Outcome (Funnel.field × lex.Lexer) :=
  field.buildLoop 2 f l

/-- The method `boolean.build`: each round of its loop and each nested call takes one
unit of fuel. -/
def boolean.build : Nat → boolean → lex.Lexer → Outcome (boolean × lex.Lexer)
  | 0, _, _ => .outOfFuel
  | n + 1, b, l =>
    match (l.NextItem).1 with
    | none => .ok (b, (l.NextItem).2)
    | some item =>
      match item.Typ with
      | .BooleanType =>
        if toBoolOp item.Value = Invalid then
          .error (lex.fmtQ item.Value ++ " is an invalid operation".toList)
        else boolean.build n { b with operation := toBoolOp item.Value } (l.NextItem).2
      | .OpenPrecedenceType =>
        match boolean.build n { operation := [], children := [] } (l.NextItem).2 with
        | .ok (newBool, l2) =>
          boolean.build n { b with children := b.children ++ [newBool.toSqler] } l2
        | .error e => .error e
        | .panic => .panic
        | .outOfFuel => .outOfFuel
      | .ClosePrecedenceType => .ok (b, (l.NextItem).2)
      | .LiteralType | .FieldType =>
        match ({ field := [], comp := [], val := [] } : field).set item with
        | .error e => .error e
        | .ok newField =>
          match newField.build (l.NextItem).2 with
          | .ok (newField, l2) =>
            boolean.build n { b with children := b.children ++ [sqler.ofField newField] } l2
          | .error e => .error e
          | .panic => .panic
          | .outOfFuel => .outOfFuel
      | _ => .error "invalid syntax".toList

def buildTree (l : lex.Lexer) : Outcome root :=
  match boolean.build (l.input.length + 1) { operation := [], children := [] } l with
  | .ok (b, _) => .ok { sqler := b.toSqler }
  | .error e => .error e
  | .panic => .panic
  | .outOfFuel => .outOfFuel

def ToSql (input : Str) (fieldDict : List Str) : Outcome (Str × List Str) :=
  match buildTree (lex.NewLexer input fieldDict) with
  | .ok root =>
    match root.ToSql with
    | some (sql, args) => .ok (sql, args)
    | none => .panic
  | .error e => .error e
  | .panic => .panic
  | .outOfFuel => .outOfFuel


/-! ## One call of `NextItem`, described on the remaining input -/

namespace lex

/-- What one call of `NextItem` does to a lexer that has nothing queued: it
returns nil (`done`), an item and goes on with the remaining input (`tok`),
or an Error item after which it returns nil (`fail`). -/
inductive Scan where
  | done : Scan
  | tok : Item → Str → Scan
  | fail : Item → Scan
deriving DecidableEq, Repr

/-- The runes `acceptUntil` steps over before it stops. -/
def notStop (r : List Char) (c : Char) : Bool := !inRunes c (r ++ [eof])

def scanLiteral (c : Char) (cs : Str) : Scan :=
  match cs.dropWhile (notStop [quoteLiteral]) with
  | [] => .tok ⟨.LiteralType, (c :: cs.takeWhile (notStop [quoteLiteral])).filter (fun x => x != quoteLiteral)⟩ []
  | d :: r =>
    .tok ⟨.LiteralType, (c :: (cs.takeWhile (notStop [quoteLiteral]) ++ [d])).filter (fun x => x != quoteLiteral)⟩ r

def scanBoolean (c : Char) (cs : Str) : Scan :=
  if c ≠ cs.head?.getD eof then
    .fail ⟨.ErrorType, "invalid boolean expression, ".toList ++ [c, cs.head?.getD eof]⟩
  else .tok ⟨.BooleanType, [c, cs.head?.getD eof]⟩ cs.tail

def scanComp (c : Char) (cs : Str) : Scan :=
  if cs.head?.getD eof = chEq then .tok ⟨.ComparatorType, [c, chEq]⟩ cs.tail
  else .tok ⟨.ComparatorType, [c]⟩ cs

def scanKeyDef (dict : List Str) (c : Char) (cs : Str) : Scan :=
  if dict.contains (c :: cs.takeWhile (alphanumeric ++ [chDot]).contains) then
    .tok ⟨.FieldType, c :: cs.takeWhile (alphanumeric ++ [chDot]).contains⟩
      (cs.dropWhile (alphanumeric ++ [chDot]).contains)
  else
    .fail ⟨.ErrorType, fmtQ (c :: cs.takeWhile (alphanumeric ++ [chDot]).contains) ++
      " isn't a valid field".toList⟩

def scan (dict : List Str) : Str → Scan
  | [] => .done
  | c :: cs =>
    if c = eof then .done
    else if c = openPrecedence then .tok ⟨.OpenPrecedenceType, [c]⟩ cs
    else if c = closePrecedence then .tok ⟨.ClosePrecedenceType, [c]⟩ cs
    else if c = quoteLiteral then scanLiteral c cs
    else if c = and ∨ c = or then scanBoolean c cs
    else if c = chLt ∨ c = chGt ∨ c = chEq ∨ c = chBang then scanComp c cs
    else if c = space then scan dict cs
    else scanKeyDef dict c cs

/-- How many runes `acceptUntil` consumes on the remaining input `rest`. -/
def untilLen (r : List Char) (rest : Str) : Nat :=
  (rest.takeWhile (notStop r)).length + (if rest.dropWhile (notStop r) = [] then 0 else 1)

/-- The outcome `res` of running a state function agrees with the scan `sc` of the
remaining input: the same item is queued and the lexer is left at the start of what
remains, or has no state function any more. -/
def StepRel (input : Str) (dict : List Str) (res : Lexer × Option stateFunc) (sc : Scan) : Prop :=
  res.1.input = input ∧ res.1.dict = dict ∧
  match sc with
  | .done => res.1.items = [] ∧ res.2 = none
  | .tok it r => res.1.items = [it] ∧ res.2 = some stateFunc.lexText ∧
      res.1.start = res.1.position ∧ res.1.input.drop res.1.position = r
  | .fail it => res.1.items = [it] ∧ res.2 = none

/-- A lexer between two calls of `NextItem`: nothing is queued, and either it stands
at the start of the remaining input `r` (`some r`) or it has no state function left
(`none`). -/
def Rel (l : Lexer) (a : Option Str) : Prop :=
  l.items = [] ∧
  match a with
  | some r => l.state = some stateFunc.lexText ∧ l.start = l.position ∧ l.input.drop l.position = r
  | none => l.state = none

/-- The item returned by `NextItem`, on the remaining input. -/
def nextItemA (dict : List Str) : Option Str → Option Item
  | none => none
  | some r =>
    match scan dict r with
    | .done => none
    | .tok it _ => some it
    | .fail it => some it

/-- The remaining input after `NextItem`. -/
def nextRestA (dict : List Str) : Option Str → Option Str
  | none => none
  | some r =>
    match scan dict r with
    | .done => none
    | .tok _ r1 => some r1
    | .fail _ => none

end lex

/-! ## The tree builder, described on the remaining input -/

/-- The loop of `field.build`, reading from the remaining input. -/
def fieldBuildLoopA (dict : List Str) : Nat → Funnel.field → Option Str →
    Outcome (Funnel.field × Option Str)
  | 0, f, a => .ok (f, a)
  | k + 1, f, a =>
    match lex.nextItemA dict a with
    | none => .error "unexpected eof".toList
    | some item =>
      match f.set item with
      | .error e => .error e
      | .ok f1 => fieldBuildLoopA dict k f1 (lex.nextRestA dict a)

/-- The method `boolean.build`, reading from the remaining input. -/
def buildA (dict : List Str) : Nat → boolean → Option Str → Outcome (boolean × Option Str)
  | 0, _, _ => .outOfFuel
  | n + 1, b, a =>
    match lex.nextItemA dict a with
    | none => .ok (b, lex.nextRestA dict a)
    | some item =>
      match item.Typ with
      | .BooleanType =>
        if toBoolOp item.Value = Invalid then
          .error (lex.fmtQ item.Value ++ " is an invalid operation".toList)
        else buildA dict n { b with operation := toBoolOp item.Value } (lex.nextRestA dict a)
      | .OpenPrecedenceType =>
        match buildA dict n { operation := [], children := [] } (lex.nextRestA dict a) with
        | .ok (newBool, a2) =>
          buildA dict n { b with children := b.children ++ [newBool.toSqler] } a2
        | .error e => .error e
        | .panic => .panic
        | .outOfFuel => .outOfFuel
      | .ClosePrecedenceType => .ok (b, lex.nextRestA dict a)
      | .LiteralType | .FieldType =>
        match ({ field := [], comp := [], val := [] } : Funnel.field).set item with
        | .error e => .error e
        | .ok newField =>
          match fieldBuildLoopA dict 2 newField (lex.nextRestA dict a) with
          | .ok (newField, a2) =>
            buildA dict n { b with children := b.children ++ [sqler.ofField newField] } a2
          | .error e => .error e
          | .panic => .panic
          | .outOfFuel => .outOfFuel
      | _ => .error "invalid syntax".toList

/-- The function `ToSql`, reading from the remaining input. -/
def ToSqlA (input : Str) (fieldDict : List Str) : Outcome (Str × List Str) :=
  match buildA fieldDict (input.length + 1) { operation := [], children := [] } (some input) with
  | .ok (b, _) =>
    match b.toSqler.ToSql with
    | some (sql, args) => .ok (sql, args)
    | none => .panic
  | .error e => .error e
  | .panic => .panic
  | .outOfFuel => .outOfFuel

/-- Two outcomes agree: equal values with related lexers, or the same failure. -/
def OutRel {α : Type} (input : Str) (dict : List Str) (x : Outcome (α × lex.Lexer))
    (y : Outcome (α × Option Str)) : Prop :=
  (∃ b l a, x = .ok (b, l) ∧ y = .ok (b, a) ∧ lex.Rel l a ∧ l.input = input ∧ l.dict = dict) ∨
  (∃ e, x = .error e ∧ y = .error e) ∨ (x = .panic ∧ y = .panic) ∨
  (x = .outOfFuel ∧ y = .outOfFuel)

/-! ## Vocabulary of the statements -/

namespace lex

/-- The lexer after `k` calls of `NextItem`. -/
def Lexer.afterCalls (l : Lexer) : Nat → Lexer
  | 0 => l
  | k + 1 => ((l.afterCalls k).NextItem).2

/-- The comparator spellings: one of `<`, `>`, `=`, `!`, optionally followed by `=`. -/
def comparators : List Str :=
  [[chLt], [chGt], [chEq], [chBang], [chLt, chEq], [chGt, chEq], [chEq, chEq], [chBang, chEq]]

/-- What the lexer guarantees about an item of a given kind. -/
def GoodItem (dict : List Str) (it : Item) : Prop :=
  match it.Typ with
  | .FieldType => it.Value ∈ dict
  | .ComparatorType => it.Value ∈ comparators
  | .BooleanType => it.Value = And ∨ it.Value = Or
  | _ => True

end lex

def placeholder : Char := Char.ofNat 63

/-- The pieces a condition text may be assembled from: parentheses, a single space,
the words AND and OR, the placeholder, a comparator, an allow-listed field name. -/
def SafePiece (dict : List Str) (p : Str) : Prop :=
  p = "(".toList ∨ p = ")".toList ∨ p = " ".toList ∨ p = And ∨ p = Or ∨ p = [placeholder] ∨
    p ∈ lex.comparators ∨ p ∈ dict

/-- A text that is a concatenation of safe pieces. -/
def SafeText (dict : List Str) (s : Str) : Prop :=
  ∃ ps : List Str, s = ps.flatten ∧ ∀ p ∈ ps, SafePiece dict p

mutual
/-- The tree with every literal value `v` replaced by `g v`. -/
def sqler.mapVal (g : Str → Str) : sqler → sqler
  | .ofField f => .ofField { f with val := g f.val }
  | .ofBoolean op cs => .ofBoolean op (sqler.mapValList g cs)
/-- The list of trees with every literal value `v` replaced by `g v`. -/
def sqler.mapValList (g : Str → Str) : List sqler → List sqler
  | [] => []
  | c :: cs => c.mapVal g :: sqler.mapValList g cs
end

/-- A predicate node whose field name and comparator, when set, came from a Field
and a Comparator item of the lexer. -/
def field.Safe (dict : List Str) (f : Funnel.field) : Prop :=
  (f.field = [] ∨ f.field ∈ dict) ∧ (f.comp = [] ∨ f.comp ∈ lex.comparators)

mutual
/-- A tree all of whose field names, comparators and operators are unset or came from
Field, Comparator and Boolean items of the lexer. -/
def sqler.Safe (dict : List Str) : sqler → Prop
  | .ofField f => f.Safe dict
  | .ofBoolean op cs => (op = [] ∨ op = And ∨ op = Or) ∧ sqler.SafeList dict cs
/-- Every tree of the list is `Safe`. -/
def sqler.SafeList (dict : List Str) : List sqler → Prop
  | [] => True
  | c :: cs => c.Safe dict ∧ sqler.SafeList dict cs
end

mutual
/-- The reference rendering of a tree, as the specification words it: a predicate
node gives `f c ?` and `[v]`; a boolean node gives `( ` followed by the texts of its
children separated by ` op ` and then ` )`, with the argument lists concatenated. -/
def refToSql : sqler → Str × List Str
  | .ofField f => (f.field ++ " ".toList ++ f.comp ++ " ?".toList, [f.val])
  | .ofBoolean op cs =>
    ("( ".toList ++ (" ".toList ++ op ++ " ".toList).intercalate ((refList cs).map Prod.fst) ++
      " )".toList, ((refList cs).map Prod.snd).flatten)
/-- The reference renderings of a list of trees. -/
def refList : List sqler → List (Str × List Str)
  | [] => []
  | c :: cs => refToSql c :: refList cs
end

mutual
/-- A tree in which every comparator has at most two characters, counted as `len`
counts them, and every boolean node has at least one child. -/
def sqler.WellFormed : sqler → Prop
  | .ofField f => len f.comp ≤ 2
  | .ofBoolean _ cs => cs ≠ [] ∧ sqler.WellFormedList cs
/-- Every tree of the list is `WellFormed`. -/
def sqler.WellFormedList : List sqler → Prop
  | [] => True
  | c :: cs => c.WellFormed ∧ sqler.WellFormedList cs
end

namespace lex

/-- A rune with which `lexText` starts an identifier: any rune none of its other
cases takes. -/
def isIdentStart (c : Char) : Bool :=
  c != eof && c != openPrecedence && c != closePrecedence && c != quoteLiteral && c != and &&
    c != or && c != chLt && c != chGt && c != chEq && c != chBang && c != space

/-- A name that the lexer reads as one identifier: a start rune followed by runes of
`alphanumeric` or `.`. -/
def isIdent : Str → Bool
  | [] => false
  | c :: cs => isIdentStart c && cs.all (alphanumeric ++ [chDot]).contains

/-- A literal text in which `acceptUntil` does not stop: no `"` and no U+FFFD. -/
def cleanLit (v : Str) : Bool := v.all (fun x => x != quoteLiteral && x != eof)

/-- The remaining input does not go on with a rune of an identifier. -/
def endsIdent : Str → Bool
  | [] => true
  | d :: _ => !(alphanumeric ++ [chDot]).contains d

end lex

/-- A predicate as written in the input: field name, comparator, literal text, and
whether the literal is written first. -/
structure Pred where
  f : Str
  c : Str
  v : Str
  literalFirst : Bool

/-- The input text of a predicate: `f c "v"`, or `"v" c f` when the literal is first. -/
def Pred.text (p : Pred) : Str :=
  if p.literalFirst then
    [lex.quoteLiteral] ++ p.v ++ [lex.quoteLiteral] ++ " ".toList ++ p.c ++ " ".toList ++ p.f
  else
    p.f ++ " ".toList ++ p.c ++ " ".toList ++ [lex.quoteLiteral] ++ p.v ++ [lex.quoteLiteral]

/-- The condition text of a predicate: `f c ?`. -/
def Pred.sql (p : Pred) : Str := p.f ++ " ".toList ++ p.c ++ " ?".toList

/-- The predicate is made of an allow-listed name the lexer reads as one identifier,
a comparator, and a literal text without `"` and U+FFFD. -/
def Pred.ok (dict : List Str) (p : Pred) : Prop :=
  lex.isIdent p.f = true ∧ p.f ∈ dict ∧ p.c ∈ lex.comparators ∧ lex.cleanLit p.v = true

/-- What follows a literal text in the input: the closing quote and the rest `r` of the
input (`some r`), or nothing, the literal being unterminated (`none`). -/
def literalTail : Option Str → Str
  | some r => lex.quoteLiteral :: r
  | none => []

/-- The fuel that suffices to build from the remaining input: one more than the
number of runes left. -/
def fuelFor : Option Str → Nat
  | some r => r.length + 1
  | none => 1

/-- The remaining input after `k` calls of `NextItem`. -/
def restAfter (dict : List Str) (a : Option Str) : Nat → Option Str
  | 0 => a
  | k + 1 => lex.nextRestA dict (restAfter dict a k)

/-! ## The placeholder rewriter -/

/-- Modelled from the spec: the package `internal/squirrel`, whose
`ReplacePlaceholders` the function `Replace` calls, is not among the sources. The
text is scanned left to right and each generic placeholder `?` is replaced by the
styled marker `mark` followed by its number in encounter order; `i` markers have been
written so far. -/
def squirrel.replaceLoop (mark : Str) : Nat → Str → Str
  | _, [] => []
  | i, c :: cs =>
    if c = placeholder then mark ++ (Nat.repr (i + 1)).toList ++ squirrel.replaceLoop mark (i + 1) cs
    else c :: squirrel.replaceLoop mark i cs

/-- Modelled from the spec: the sequential style `$1`, `$2`, ... of the missing package
`internal/squirrel`; the numbering starts at 1 and no error is returned. -/
def squirrel.Dollar.ReplacePlaceholders (sql : Str) : Except Str Str :=
  .ok (squirrel.replaceLoop "$".toList 0 sql)

/-- Modelled from the spec: the indexed style `:1`, `:2`, ... of the missing package
`internal/squirrel`. -/
def squirrel.Colon.ReplacePlaceholders (sql : Str) : Except Str Str :=
  .ok (squirrel.replaceLoop ":".toList 0 sql)

abbrev Format := Int

def Dollar : Format := 0
def Colon : Format := 1

def Replace (sql : Str) (format : Format) : Outcome Str :=
  if format = Dollar then
    match squirrel.Dollar.ReplacePlaceholders sql with
    | .ok s => .ok s
    | .error e => .error e
  else if format = Colon then
    match squirrel.Colon.ReplacePlaceholders sql with
    | .ok s => .ok s
    | .error e => .error e
  else .panic

/-- The text made of the segments `segs`, each followed by a `?`, and of `last`. -/
def withPlaceholders (segs : List Str) (last : Str) : Str :=
  (segs.map (fun s => s ++ [placeholder])).flatten ++ last

/-- The text made of the segments `segs`, the one of index `j` followed by `$` and the
number `i + j + 1`, and of `last`. -/
def withDollars (i : Nat) : List Str → Str → Str
  | [], last => last
  | s :: segs, last => s ++ "$".toList ++ (Nat.repr (i + 1)).toList ++ withDollars (i + 1) segs last

/-! ## Items and the nodes built from them -/

/-- The item returned by call `k + 1` of `NextItem` on the input, nil being `none`. -/
def itemAt (input : Str) (dict : List Str) (k : Nat) : Option lex.Item :=
  (((lex.NewLexer input dict).afterCalls k).NextItem).1

/-- The kinds of item that `field.set` accepts. -/
def predKind (t : lex.ItemType) : Bool :=
  decide (t = lex.ItemType.FieldType) || decide (t = lex.ItemType.ComparatorType) ||
    decide (t = lex.ItemType.LiteralType)

/-- The predicate node `f` after an item of one of the three kinds has set, or
overwritten, the slot of its kind. -/
def field.put (f : Funnel.field) (it : lex.Item) : Funnel.field :=
  match it.Typ with
  | .ComparatorType => { f with comp := it.Value }
  | .FieldType => { f with field := it.Value }
  | .LiteralType => { f with val := it.Value }
  | _ => f

/-- The predicate node was built from three consecutive items of the input: a Field or
Literal item and two items that are each a Field, Comparator or Literal item, every
item setting the slot of its kind. -/
def field.FromRun (input : Str) (dict : List Str) (f : Funnel.field) : Prop :=
  ∃ (k : Nat) (it1 it2 it3 : lex.Item),
    itemAt input dict k = some it1 ∧ itemAt input dict (k + 1) = some it2 ∧
    itemAt input dict (k + 2) = some it3 ∧
    (it1.Typ = lex.ItemType.FieldType ∨ it1.Typ = lex.ItemType.LiteralType) ∧
    predKind it2.Typ = true ∧ predKind it3.Typ = true ∧
    f = ((({ field := [], comp := [], val := [] } : Funnel.field).put it1).put it2).put it3

mutual
/-- Every predicate node of the tree was built from a run of three items. -/
def sqler.FromRuns (input : Str) (dict : List Str) : sqler → Prop
  | .ofField f => f.FromRun input dict
  | .ofBoolean _ cs => sqler.FromRunsList input dict cs
/-- Every predicate node of the trees of the list was built from a run of three items. -/
def sqler.FromRunsList (input : Str) (dict : List Str) : List sqler → Prop
  | [] => True
  | c :: cs => c.FromRuns input dict ∧ sqler.FromRunsList input dict cs
end

/-- The item after `l.NextItem` is missing or of a kind that `field.set` rejects. -/
def badItem (t : Option lex.Item) : Bool :=
  match t with
  | none => true
  | some it => !predKind it.Typ

/-- The item is a Boolean item. -/
def isBooleanItem (t : Option lex.Item) : Bool :=
  match t with
  | some it => decide (it.Typ = lex.ItemType.BooleanType)
  | none => false

/-- The item is the Open item `(`. -/
def isOpenItem (t : Option lex.Item) : Bool :=
  match t with
  | some it => decide (it.Typ = lex.ItemType.OpenPrecedenceType)
  | none => false

/-- The item makes `boolean.build` add a child: a Field or Literal item, which starts a
predicate, or an Open item, which starts a group. -/
def opensChild (t : Option lex.Item) : Bool :=
  match t with
  | some it => decide (it.Typ = lex.ItemType.FieldType) ||
      decide (it.Typ = lex.ItemType.LiteralType) ||
      decide (it.Typ = lex.ItemType.OpenPrecedenceType)
  | none => false

/-- From item `k` on, after at most `fuel - 1` Boolean items, comes an item that adds a
child. -/
def startsChildFrom (input : Str) (dict : List Str) : Nat → Nat → Bool
  | 0, _ => false
  | fuel + 1, k =>
    opensChild (itemAt input dict k) ||
      (isBooleanItem (itemAt input dict k) && startsChildFrom input dict fuel (k + 1))

mutual
/-- Every boolean node of the tree has at least one child. -/
def sqler.NonEmpty : sqler → Prop
  | .ofField _ => True
  | .ofBoolean _ cs => cs ≠ [] ∧ sqler.NonEmptyList cs
/-- Every boolean node of the trees of the list has at least one child. -/
def sqler.NonEmptyList : List sqler → Prop
  | [] => True
  | c :: cs => c.NonEmpty ∧ sqler.NonEmptyList cs
end

/-! ## Inputs closed at their end -/

/-- The literal at the start of the remaining input `x`, if one starts there, is ended
within `x`: after the spaces and the opening `"` comes a rune at which `acceptUntil`
stops. -/
def litClosed (x : Str) : Bool :=
  match x.dropWhile (fun c => c == lex.space) with
  | [] => true
  | c :: cs =>
    if c = lex.quoteLiteral then cs.any (fun d => !lex.notStop [lex.quoteLiteral] d) else true

/-- The literal that the lexer `l` is about to read, if any, is ended within the input. -/
def lex.Lexer.litClosed (l : lex.Lexer) : Bool :=
  match l.state with
  | none => true
  | some _ => Funnel.litClosed (l.input.drop l.position)

/-- From the lexer `l` on, at nesting depth `d`: every literal is ended within the
input, no Close item comes at depth 0, and the depth is 0 when `NextItem` returns
nil. -/
def lex.Lexer.closedFrom : Nat → Nat → lex.Lexer → Bool
  | 0, _, _ => false
  | n + 1, d, l =>
    l.litClosed &&
    match (l.NextItem).1 with
    | none => d == 0
    | some it =>
      match it.Typ with
      | .OpenPrecedenceType => lex.Lexer.closedFrom n (d + 1) (l.NextItem).2
      | .ClosePrecedenceType => d != 0 && lex.Lexer.closedFrom n (d - 1) (l.NextItem).2
      | _ => lex.Lexer.closedFrom n d (l.NextItem).2

/-- The input has balanced parentheses, counted over its items, and every literal of
it is ended within it. -/
def wellClosed (p : Str) (dict : List Str) : Bool :=
  (lex.NewLexer p dict).closedFrom (p.length + 1) 0

/-- The function `Lexer.litClosed`, on the remaining input. -/
def litClosedA : Option Str → Bool
  | none => true
  | some x => litClosed x

/-- The function `closedFrom`, on the remaining input. -/
def closedA (dict : List Str) : Nat → Nat → Option Str → Bool
  | 0, _, _ => false
  | n + 1, d, a =>
    litClosedA a &&
    match lex.nextItemA dict a with
    | none => d == 0
    | some it =>
      match it.Typ with
      | .OpenPrecedenceType => closedA dict n (d + 1) (lex.nextRestA dict a)
      | .ClosePrecedenceType => d != 0 && closedA dict n (d - 1) (lex.nextRestA dict a)
      | _ => closedA dict n d (lex.nextRestA dict a)

/-- The scan of `x` followed by `)` and `r`, from the scan of `x`. -/
def ScanAppend (dict : List Str) (r x : Str) : Prop :=
  match lex.scan dict x with
  | .tok it x1 => lex.scan dict (x ++ lex.closePrecedence :: r) =
      .tok it (x1 ++ lex.closePrecedence :: r)
  | .done => lex.scan dict (x ++ lex.closePrecedence :: r) = .done ∨
      lex.scan dict (x ++ lex.closePrecedence :: r) =
        .tok ⟨.ClosePrecedenceType, [lex.closePrecedence]⟩ r
  | .fail _ => ∃ it1, lex.scan dict (x ++ lex.closePrecedence :: r) = .fail it1

/-! ## The package `parse` -/

namespace parse

/-- A channel of items that has been filled and closed, as `Fill` of the test file
leaves it: the items not yet received, in order. Receiving from it never blocks. -/
abbrev Chan := List lex.Item

/-- The receive `<-items` on a closed channel: the next buffered item, or the zero
`Item` once the buffer is empty. -/
def recv : Chan → lex.Item × Chan
  | [] => ({ Typ := lex.ItemType.ErrorType, Value := [] }, [])
  | item :: items => (item, items)

structure FieldNode where
  Field : Str
  Comp : Str
  Value : Str
deriving DecidableEq, Repr

/-- The implementations of the interface `Criteria`: `*FieldNode` and `*BooleanNode`. -/
inductive Criteria where
  | ofField : FieldNode → Criteria
  | ofBoolean : Str → List Criteria → Criteria

structure BooleanNode where
  Operation : Str
  Children : List Criteria

/-- The pointer `&b` of a `BooleanNode` seen as a `Criteria`. -/
def BooleanNode.toCriteria (b : BooleanNode) : Criteria := .ofBoolean b.Operation b.Children

def FieldNode.set (f : FieldNode) (item : lex.Item) : Outcome FieldNode :=
  match item.Typ with
  | .FieldType => .ok { f with Field := item.Value }
  | .ComparatorType => .ok { f with Comp := item.Value }
  | .LiteralType => .ok { f with Value := item.Value.filter (fun c => c != lex.quoteLiteral) }
  | _ => .error "invalid type for field node".toList

/-- The loop of `FieldNode.build` with `k` rounds left. On a closed channel the receive
of the `select` is always ready, so its `default` branch is never taken. -/
def FieldNode.buildLoop : Nat → FieldNode → Chan → Outcome (FieldNode × Chan)
  | 0, f, items => .ok (f, items)
  | k + 1, f, items =>
    match f.set (recv items).1 with
    | .error e => .error e
    | .ok f1 => FieldNode.buildLoop k f1 (recv items).2
    | .panic => .panic
    | .outOfFuel => .outOfFuel

def FieldNode.build (f : FieldNode) (items : Chan) : Outcome (FieldNode × Chan) :=
  FieldNode.buildLoop 2 f items

/-- The method `BooleanNode.build`; the loop `for item := range items` ends when the
closed channel is empty. One unit of fuel is spent for each item received by the loop. -/
def BooleanNode.build : Nat → BooleanNode → Chan → Outcome (BooleanNode × Chan)
  | 0, _, _ => .outOfFuel
  | _ + 1, b, [] => .ok (b, [])
  | n + 1, b, item :: items =>
    match item.Typ with
    | .BooleanType => BooleanNode.build n { b with Operation := item.Value } items
    | .OpenPrecedenceType =>
      match BooleanNode.build n { Operation := [], Children := [] } items with
      | .ok (newBool, items2) =>
        BooleanNode.build n { b with Children := b.Children ++ [newBool.toCriteria] } items2
      | .error e => .error e
      | .panic => .panic
      | .outOfFuel => .outOfFuel
    | .ClosePrecedenceType => .ok (b, items)
    | .LiteralType | .FieldType =>
      match ({ Field := [], Comp := [], Value := [] } : FieldNode).set item with
      | .error e => .error e
      | .ok newField =>
        match newField.build items with
        | .ok (newField, items2) =>
          BooleanNode.build n { b with Children := b.Children ++ [Criteria.ofField newField] }
            items2
        | .error e => .error e
        | .panic => .panic
        | .outOfFuel => .outOfFuel
      | .panic => .panic
      | .outOfFuel => .outOfFuel
    | _ => .error "invalid syntax".toList

/-- The function `Parse` on a filled and closed channel. -/
def Parse (items : Chan) : Outcome Criteria :=
  match BooleanNode.build (items.length + 1) { Operation := "&&".toList, Children := [] } items with
  | .ok (root, _) => .ok root.toCriteria
  | .error e => .error e
  | .panic => .panic
  | .outOfFuel => .outOfFuel

/-- One element of the item sequence of a group: a Boolean item, the three items of a
predicate in field-first or literal-first order, or a parenthesized group. -/
inductive Elem where
  | op : Str → Elem
  | pred : Str → Str → Str → Bool → Elem
  | group : List Elem → Elem

mutual
/-- The items of an element, in order. -/
def Elem.items : Elem → List lex.Item
  | .op v => [⟨.BooleanType, v⟩]
  | .pred f c v literalFirst =>
    if literalFirst then [⟨.LiteralType, v⟩, ⟨.ComparatorType, c⟩, ⟨.FieldType, f⟩]
    else [⟨.FieldType, f⟩, ⟨.ComparatorType, c⟩, ⟨.LiteralType, v⟩]
  | .group es =>
    ⟨.OpenPrecedenceType, "(".toList⟩ :: (Elem.itemsList es ++ [⟨.ClosePrecedenceType, ")".toList⟩])
/-- The items of a sequence of elements, in order. -/
def Elem.itemsList : List Elem → List lex.Item
  | [] => []
  | e :: es => e.items ++ Elem.itemsList es
end

/-- The value of the last Boolean item that stands directly in the sequence, `init`
when there is none. -/
def lastOp (init : Str) : List Elem → Str
  | [] => init
  | .op v :: es => lastOp v es
  | _ :: es => lastOp init es

mutual
/-- The nodes of a sequence of elements, in order: a predicate gives a `FieldNode` with
the quotes removed from its value, a group gives a `BooleanNode` with the value of the
last Boolean item directly inside it and the nodes of its elements, a Boolean item
gives no node. -/
def Elem.nodesList : List Elem → List Criteria
  | [] => []
  | e :: es => e.nodes ++ Elem.nodesList es
/-- The nodes of one element: none or one. -/
def Elem.nodes : Elem → List Criteria
  | .op _ => []
  | .pred f c v _ =>
    [.ofField { Field := f, Comp := c, Value := v.filter (fun x => x != lex.quoteLiteral) }]
  | .group es => [.ofBoolean (lastOp [] es) (Elem.nodesList es)]
end

end parse

/-! ## Auxiliary lemmas -/

namespace lex

theorem next_cons (l : Lexer) (c : Char) (cs : Str) (h : l.input.drop l.position = c :: cs) :
    l.next = (c, { l with width := 1, position := l.position + 1 }) := by
  have hlt : l.position < l.input.length := by
    by_contra hge
    rw [List.drop_eq_nil_of_le (by omega)] at h
    cases h
  unfold Lexer.next
  rw [if_neg (by omega), h]
  rfl

theorem next_nil (l : Lexer) (h : l.input.drop l.position = []) :
    l.next = (eof, { l with width := 0 }) := by
  unfold Lexer.next
  split
  · rfl
  · rw [h]; rfl

theorem drop_succ_of_cons {α : Type} (xs : List α) (p : Nat) (c : α) (cs : List α)
    (h : xs.drop p = c :: cs) : xs.drop (p + 1) = cs := by
  have : xs.drop (p + 1) = (xs.drop p).drop 1 := by rw [List.drop_drop]
  rw [this, h]; rfl

theorem drop_add_of_append {α : Type} (xs : List α) (p : Nat) (w r : List α)
    (h : xs.drop p = w ++ r) : xs.drop (p + w.length) = r := by
  have : xs.drop (p + w.length) = (xs.drop p).drop w.length := by
    rw [List.drop_drop]
  rw [this, h, List.drop_left]


theorem acceptRunLoop_spec (valid : Str) (hv : valid.contains eof = false) :
    ∀ (rest : Str) (n : Nat) (l : Lexer), l.input.drop l.position = rest → rest.length < n →
      ∃ wd, (Lexer.acceptRunLoop valid n l).backup =
        { l with position := l.position + (rest.takeWhile valid.contains).length, width := wd } := by
  intro rest
  induction rest with
  | nil =>
    intro n l h hn
    obtain ⟨m, rfl⟩ : ∃ m, n = m + 1 := ⟨n - 1, by simp at hn; omega⟩
    refine ⟨0, ?_⟩
    simp only [Lexer.acceptRunLoop, next_nil l h, hv, Lexer.backup]
    simp
  | cons c cs ih =>
    intro n l h hn
    obtain ⟨m, rfl⟩ : ∃ m, n = m + 1 := ⟨n - 1, by simp at hn; omega⟩
    simp only [Lexer.acceptRunLoop, next_cons l c cs h]
    by_cases hc : valid.contains c = true
    · rw [if_pos hc]
      have h1 := drop_succ_of_cons _ _ _ _ h
      obtain ⟨wd, hwd⟩ := ih m { l with width := 1, position := l.position + 1 } h1
        (by simp at hn; omega)
      refine ⟨wd, ?_⟩
      rw [hwd, List.takeWhile_cons, if_pos hc]
      simp [Nat.add_assoc, Nat.add_comm]
    · rw [if_neg hc]
      refine ⟨1, ?_⟩
      rw [List.takeWhile_cons, if_neg hc]
      simp [Lexer.backup]

theorem acceptRun_spec (valid : Str) (hv : valid.contains eof = false) (l : Lexer) :
    ∃ wd, l.acceptRun valid =
      { l with position := l.position + ((l.input.drop l.position).takeWhile valid.contains).length,
               width := wd } := by
  unfold Lexer.acceptRun
  apply acceptRunLoop_spec valid hv _ _ l rfl
  simp; omega

theorem inRunes_eof (r : List Char) : inRunes eof (r ++ [eof]) = true := by
  induction r with
  | nil => simp [inRunes]
  | cons a as ih => simp only [List.cons_append, inRunes]; split <;> simp [ih]

theorem acceptUntilLoop_spec (r : List Char) :
    ∀ (rest : Str) (n : Nat) (l : Lexer), l.input.drop l.position = rest → rest.length < n →
      ∃ wd, Lexer.acceptUntilLoop r n l =
        { l with position := l.position + untilLen r rest, width := wd } := by
  intro rest
  induction rest with
  | nil =>
    intro n l h hn
    obtain ⟨m, rfl⟩ : ∃ m, n = m + 1 := ⟨n - 1, by simp at hn; omega⟩
    refine ⟨0, ?_⟩
    simp only [Lexer.acceptUntilLoop, next_nil l h, inRunes_eof, untilLen]
    simp
  | cons c cs ih =>
    intro n l h hn
    obtain ⟨m, rfl⟩ : ∃ m, n = m + 1 := ⟨n - 1, by simp at hn; omega⟩
    simp only [Lexer.acceptUntilLoop, next_cons l c cs h]
    by_cases hc : inRunes c (r ++ [eof]) = true
    · rw [if_pos hc]
      refine ⟨1, ?_⟩
      simp [untilLen, notStop, hc]
    · rw [if_neg hc]
      have h1 := drop_succ_of_cons _ _ _ _ h
      obtain ⟨wd, hwd⟩ := ih m { l with width := 1, position := l.position + 1 } h1
        (by simp at hn; omega)
      refine ⟨wd, ?_⟩
      rw [hwd]
      simp [untilLen, notStop, hc, Nat.add_assoc, Nat.add_comm, Nat.add_left_comm]

theorem acceptUntil_spec (r : List Char) (l : Lexer) :
    ∃ wd, l.acceptUntil r =
      { l with position := l.position + untilLen r (l.input.drop l.position), width := wd } := by
  unfold Lexer.acceptUntil
  apply acceptUntilLoop_spec r _ _ l rfl
  simp; omega


theorem buf_eq (l : Lexer) (w r : Str) (h : l.input.drop l.start = w ++ r)
    (hp : l.position = l.start + w.length) : l.buf = w := by
  unfold Lexer.buf
  rw [h, hp, Nat.add_sub_cancel_left, List.take_left]

theorem emit_spec (l : Lexer) (t : ItemType) (w r : Str) (hi : l.items = [])
    (h : l.input.drop l.start = w ++ r) (hp : l.position = l.start + w.length) :
    StepRel l.input l.dict (l.emit t, some stateFunc.lexText)
      (.tok ⟨t, if t = ItemType.LiteralType then w.filter (fun x => x != quoteLiteral) else w⟩ r) := by
  have hb := buf_eq l w r h hp
  have hd := drop_add_of_append _ _ _ _ h
  refine ⟨rfl, rfl, ?_, rfl, rfl, ?_⟩
  · simp only [Lexer.emit, hb, hi, List.nil_append]
  · simp only [Lexer.emit]; rw [hp]; exact hd

theorem inOpenPrecedence_spec (l : Lexer) (c : Char) (cs : Str) (hi : l.items = [])
    (h : l.input.drop l.start = c :: cs) (hp : l.position = l.start + 1) :
    StepRel l.input l.dict (inOpenPrecedence l) (.tok ⟨.OpenPrecedenceType, [c]⟩ cs) := by
  have := emit_spec l .OpenPrecedenceType [c] cs hi h hp
  simpa [inOpenPrecedence] using this

theorem inClosePrecedence_spec (l : Lexer) (c : Char) (cs : Str) (hi : l.items = [])
    (h : l.input.drop l.start = c :: cs) (hp : l.position = l.start + 1) :
    StepRel l.input l.dict (inClosePrecedence l) (.tok ⟨.ClosePrecedenceType, [c]⟩ cs) := by
  have := emit_spec l .ClosePrecedenceType [c] cs hi h hp
  simpa [inClosePrecedence] using this

theorem inLiteral_spec (l : Lexer) (c : Char) (cs : Str) (hi : l.items = [])
    (h : l.input.drop l.start = c :: cs) (hp : l.position = l.start + 1) :
    StepRel l.input l.dict (inLiteral l) (scanLiteral c cs) := by
  have hcs : l.input.drop l.position = cs := by rw [hp]; exact drop_succ_of_cons _ _ _ _ h
  obtain ⟨wd, hwd⟩ := acceptUntil_spec [quoteLiteral] l
  rw [hcs] at hwd
  have hsplit := List.takeWhile_append_dropWhile (notStop [quoteLiteral]) cs
  unfold inLiteral scanLiteral
  rw [hwd]
  cases hdw : cs.dropWhile (notStop [quoteLiteral]) with
  | nil =>
    rw [hdw, List.append_nil] at hsplit
    have := emit_spec { l with position := l.position + untilLen [quoteLiteral] cs, width := wd }
      .LiteralType (c :: cs.takeWhile (notStop [quoteLiteral])) [] hi
      (by simp only [List.append_nil]; rw [h, hsplit])
      (by simp [untilLen, hdw, hp]; omega)
    simpa using this
  | cons d r =>
    rw [hdw] at hsplit
    have := emit_spec { l with position := l.position + untilLen [quoteLiteral] cs, width := wd }
      .LiteralType (c :: (cs.takeWhile (notStop [quoteLiteral]) ++ [d])) r hi
      (by simp only [List.cons_append, List.append_assoc, List.singleton_append, List.nil_append]; rw [h, hsplit])
      (by simp [untilLen, hdw, hp]; omega)
    simpa using this


theorem errorf_spec (l : Lexer) (msg : Str) (hi : l.items = []) :
    StepRel l.input l.dict (l.errorf msg) (.fail ⟨.ErrorType, msg⟩) := by
  refine ⟨rfl, rfl, ?_, rfl⟩
  simp [Lexer.errorf, hi]

theorem inBoolean_spec (l : Lexer) (c : Char) (cs : Str) (hi : l.items = [])
    (h : l.input.drop l.start = c :: cs) (hp : l.position = l.start + 1) (hw : l.width = 1)
    (hc : c ≠ eof) :
    StepRel l.input l.dict (inBoolean l) (scanBoolean c cs) := by
  obtain ⟨input, position, width, start, items, state, dict⟩ := l
  simp only at hi h hp hw
  subst hi hp hw
  have h0 : (Lexer.mk input (start + 1) 1 start [] state dict).backup =
      Lexer.mk input start 1 start [] state dict := by simp [Lexer.backup]
  have h1 := next_cons (Lexer.mk input start 1 start [] state dict) c cs h
  simp only at h1
  unfold inBoolean scanBoolean
  simp only [h0, h1]
  cases cs with
  | nil =>
    have h2 := next_nil (Lexer.mk input (start + 1) 1 start [] state dict)
      (drop_succ_of_cons _ _ _ _ h)
    simp only at h2
    simp only [h2, List.head?_nil, Option.getD_none, ne_eq, hc, not_false_eq_true, if_true]
    exact errorf_spec _ _ rfl
  | cons d r =>
    have h2 := next_cons (Lexer.mk input (start + 1) 1 start [] state dict) d r
      (drop_succ_of_cons _ _ _ _ h)
    simp only at h2
    simp only [h2, List.head?_cons, Option.getD_some, List.tail_cons]
    by_cases hcd : c = d
    · subst hcd
      simp only [ne_eq, not_true_eq_false, if_false]
      have := emit_spec (Lexer.mk input (start + 1 + 1) 1 start [] state dict) .BooleanType
        [c, c] r rfl h (by simp)
      simpa using this
    · simp only [ne_eq, hcd, not_false_eq_true, if_true]
      exact errorf_spec _ _ rfl

theorem peek_cons (l : Lexer) (c : Char) (cs : Str) (h : l.input.drop l.position = c :: cs) :
    l.peek = (c, { l with width := 1 }) := by
  simp [Lexer.peek, next_cons l c cs h, Lexer.backup]

theorem peek_nil (l : Lexer) (h : l.input.drop l.position = []) :
    l.peek = (eof, { l with width := 0 }) := by
  simp [Lexer.peek, next_nil l h, Lexer.backup]

theorem inComp_spec (l : Lexer) (c : Char) (cs : Str) (hi : l.items = [])
    (h : l.input.drop l.start = c :: cs) (hp : l.position = l.start + 1) (hw : l.width = 1) :
    StepRel l.input l.dict (inComp l) (scanComp c cs) := by
  obtain ⟨input, position, width, start, items, state, dict⟩ := l
  simp only at hi h hp hw
  subst hi hp hw
  have h0 : (Lexer.mk input (start + 1) 1 start [] state dict).backup =
      Lexer.mk input start 1 start [] state dict := by simp [Lexer.backup]
  have h1 := next_cons (Lexer.mk input start 1 start [] state dict) c cs h
  simp only at h1
  have hcs := drop_succ_of_cons _ _ _ _ h
  unfold inComp scanComp
  simp only [h0, h1]
  cases cs with
  | nil =>
    have h2 := peek_nil (Lexer.mk input (start + 1) 1 start [] state dict) hcs
    simp only at h2
    have h3 := peek_nil (Lexer.mk input (start + 1) 0 start [] state dict) hcs
    simp only at h3
    have hne : eof ≠ chEq := by decide
    simp only [h2, h3, List.head?_nil, Option.getD_none, hne, if_false]
    have := emit_spec (Lexer.mk input (start + 1) 0 start [] state dict) .ComparatorType
      [c] [] rfl h (by simp)
    simpa using this
  | cons d r =>
    have h2 := peek_cons (Lexer.mk input (start + 1) 1 start [] state dict) d r hcs
    simp only at h2
    simp only [h2, List.head?_cons, Option.getD_some, List.tail_cons]
    by_cases hd : d = chEq
    · subst hd
      have h4 := next_cons (Lexer.mk input (start + 1) 1 start [] state dict) chEq r hcs
      simp only at h4
      simp only [if_true, h4]
      have := emit_spec (Lexer.mk input (start + 1 + 1) 1 start [] state dict) .ComparatorType
        [c, chEq] r rfl h (by simp)
      simpa using this
    · simp only [hd, if_false]
      have := emit_spec (Lexer.mk input (start + 1) 1 start [] state dict) .ComparatorType
        [c] (d :: r) rfl h (by simp)
      simpa using this

theorem valid_eof : (alphanumeric ++ [chDot]).contains eof = false := by decide

theorem inKeyDef_spec (l : Lexer) (c : Char) (cs : Str) (hi : l.items = [])
    (h : l.input.drop l.start = c :: cs) (hp : l.position = l.start + 1) :
    StepRel l.input l.dict (inKeyDef l l.dict) (scanKeyDef l.dict c cs) := by
  have hcs : l.input.drop l.position = cs := by rw [hp]; exact drop_succ_of_cons _ _ _ _ h
  obtain ⟨wd, hwd⟩ := acceptRun_spec (alphanumeric ++ [chDot]) valid_eof l
  rw [hcs] at hwd
  have hsplit := List.takeWhile_append_dropWhile (alphanumeric ++ [chDot]).contains cs
  have hb := buf_eq
    { l with position := l.position + (cs.takeWhile (alphanumeric ++ [chDot]).contains).length,
             width := wd }
    (c :: cs.takeWhile (alphanumeric ++ [chDot]).contains)
    (cs.dropWhile (alphanumeric ++ [chDot]).contains)
    (by simp only [List.cons_append]; rw [h, hsplit])
    (by simp [hp]; omega)
  unfold inKeyDef scanKeyDef
  simp only [hwd, hb]
  split
  · have := emit_spec
      { l with position := l.position + (cs.takeWhile (alphanumeric ++ [chDot]).contains).length,
               width := wd }
      .FieldType (c :: cs.takeWhile (alphanumeric ++ [chDot]).contains)
      (cs.dropWhile (alphanumeric ++ [chDot]).contains) hi
      (by simp only [List.cons_append]; rw [h, hsplit])
      (by simp [hp]; omega)
    simpa using this
  · exact errorf_spec _ _ hi


theorem lexTextLoop_spec :
    ∀ (rest : Str) (n : Nat) (l : Lexer), l.items = [] → l.start = l.position →
      l.input.drop l.position = rest → rest.length < n →
      StepRel l.input l.dict (lexTextLoop n l) (scan l.dict rest) := by
  intro rest
  induction rest with
  | nil =>
    intro n l hi _ h hn
    obtain ⟨m, rfl⟩ : ∃ m, n = m + 1 := ⟨n - 1, by simp at hn; omega⟩
    simp only [lexTextLoop, next_nil l h, if_true, scan]
    exact ⟨rfl, rfl, hi, rfl⟩
  | cons c cs ih =>
    intro n l hi hs h hn
    obtain ⟨m, rfl⟩ : ∃ m, n = m + 1 := ⟨n - 1, by simp at hn; omega⟩
    obtain ⟨input, position, width, start, items, state, dict⟩ := l
    simp only at hi hs h
    subst hi hs
    have h1 := next_cons (Lexer.mk input start width start [] state dict) c cs h
    simp only at h1
    simp only [lexTextLoop, h1, scan]
    by_cases c1 : c = eof
    · simp only [c1, if_true]
      exact ⟨rfl, rfl, rfl, rfl⟩
    · simp only [c1, if_false]
      by_cases c2 : c = openPrecedence
      · simp only [c2, if_true]
        exact inOpenPrecedence_spec (Lexer.mk input (start + 1) 1 start [] state dict) _ cs rfl
          (c2 ▸ h) rfl
      · simp only [c2, if_false]
        by_cases c3 : c = closePrecedence
        · simp only [c3, if_true]
          exact inClosePrecedence_spec (Lexer.mk input (start + 1) 1 start [] state dict) _ cs rfl
            (c3 ▸ h) rfl
        · simp only [c3, if_false]
          by_cases c4 : c = quoteLiteral
          · simp only [c4, if_true]
            exact inLiteral_spec (Lexer.mk input (start + 1) 1 start [] state dict) _ cs rfl
              (c4 ▸ h) rfl
          · simp only [c4, if_false]
            by_cases c5 : c = and ∨ c = or
            · simp only [c5, if_true]
              exact inBoolean_spec (Lexer.mk input (start + 1) 1 start [] state dict) c cs rfl
                h rfl rfl c1
            · simp only [c5, if_false]
              by_cases c6 : c = chLt ∨ c = chGt ∨ c = chEq ∨ c = chBang
              · simp only [c6, if_true]
                exact inComp_spec (Lexer.mk input (start + 1) 1 start [] state dict) c cs rfl
                  h rfl rfl
              · simp only [c6, if_false]
                by_cases c7 : c = space
                · simp only [c7, if_true]
                  exact ih m (Lexer.mk input (start + 1) 1 (start + 1) [] state dict) rfl rfl
                    (drop_succ_of_cons _ _ _ _ h) (by simp at hn; omega)
                · simp only [c7, if_false]
                  exact inKeyDef_spec (Lexer.mk input (start + 1) 1 start [] state dict) c cs rfl
                    h rfl

theorem NextItem_spec (l : Lexer) (a : Option Str) (h : Rel l a) :
    (l.NextItem).1 = nextItemA l.dict a ∧ Rel (l.NextItem).2 (nextRestA l.dict a) ∧
      (l.NextItem).2.input = l.input ∧ (l.NextItem).2.dict = l.dict := by
  obtain ⟨hi, ha⟩ := h
  cases a with
  | none =>
    simp only at ha
    simp [Lexer.NextItem, Lexer.NextItemLoop, hi, ha, nextItemA, nextRestA, Rel]
  | some r =>
    simp only at ha
    obtain ⟨hst, hs, hr⟩ := ha
    have hspec := lexTextLoop_spec r (l.input.length + 1) l hi hs hr
      (by rw [← hr]; simp; omega)
    obtain ⟨h1, h2, h3⟩ := hspec
    simp only [Lexer.NextItem, Lexer.NextItemLoop, hi, hst, stateFunc.run, lexText, nextItemA,
      nextRestA]
    cases hsc : scan l.dict r with
    | done =>
      rw [hsc] at h3
      simp only at h3
      simp [h3.1, h3.2, h1, h2, Rel]
    | tok it r1 =>
      rw [hsc] at h3
      simp only at h3
      have h4 := h3.2.2.2
      rw [h1] at h4
      simp [h3.1, h3.2.1, h3.2.2.1, h4, h1, h2, Rel]
    | fail it =>
      rw [hsc] at h3
      simp only at h3
      simp [h3.1, h3.2, h1, h2, Rel]

theorem NewLexer_Rel (input : Str) (dict : List Str) : Rel (NewLexer input dict) (some input) := by
  simp [Rel, NewLexer]

end lex

theorem fieldBuildLoop_refines : ∀ (k : Nat) (f : Funnel.field) (l : lex.Lexer) (a : Option Str),
    lex.Rel l a → OutRel l.input l.dict (field.buildLoop k f l) (fieldBuildLoopA l.dict k f a) := by
  intro k
  induction k with
  | zero =>
    intro f l a h
    exact Or.inl ⟨f, l, a, rfl, rfl, h, rfl, rfl⟩
  | succ k ih =>
    intro f l a h
    obtain ⟨h1, h2, h3, h4⟩ := lex.NextItem_spec l a h
    simp only [field.buildLoop, fieldBuildLoopA, h1]
    cases lex.nextItemA l.dict a with
    | none => exact Or.inr (Or.inl ⟨_, rfl, rfl⟩)
    | some item =>
      simp only
      cases f.set item with
      | error e => exact Or.inr (Or.inl ⟨_, rfl, rfl⟩)
      | ok f1 =>
        simp only
        have := ih f1 _ _ h2
        rw [h3, h4] at this
        exact this

theorem build_refines : ∀ (n : Nat) (b : boolean) (l : lex.Lexer) (a : Option Str),
    lex.Rel l a → OutRel l.input l.dict (boolean.build n b l) (buildA l.dict n b a) := by
  intro n
  induction n with
  | zero =>
    intro b l a _
    exact Or.inr (Or.inr (Or.inr ⟨rfl, rfl⟩))
  | succ n ih =>
    intro b l a h
    obtain ⟨h1, h2, h3, h4⟩ := lex.NextItem_spec l a h
    simp only [boolean.build, buildA, h1]
    cases lex.nextItemA l.dict a with
    | none => exact Or.inl ⟨_, _, _, rfl, rfl, h2, h3, h4⟩
    | some item =>
      obtain ⟨ty, v⟩ := item
      cases ty with
      | ErrorType => exact Or.inr (Or.inl ⟨_, rfl, rfl⟩)
      | ComparatorType => exact Or.inr (Or.inl ⟨_, rfl, rfl⟩)
      | ClosePrecedenceType => exact Or.inl ⟨_, _, _, rfl, rfl, h2, h3, h4⟩
      | BooleanType =>
        simp only
        split
        · exact Or.inr (Or.inl ⟨_, rfl, rfl⟩)
        · have := ih { b with operation := toBoolOp v } _ _ h2
          rw [h3, h4] at this
          exact this
      | OpenPrecedenceType =>
        simp only
        have hn := ih { operation := [], children := [] } _ _ h2
        rw [h3, h4] at hn
        rcases hn with ⟨b1, l1, a1, hx, hy, hr, hin, hd⟩ | ⟨e, hx, hy⟩ | ⟨hx, hy⟩ | ⟨hx, hy⟩
        · rw [hx, hy]
          simp only
          have := ih { b with children := b.children ++ [b1.toSqler] } _ _ hr
          rw [hin, hd] at this
          exact this
        · rw [hx, hy]; exact Or.inr (Or.inl ⟨_, rfl, rfl⟩)
        · rw [hx, hy]; exact Or.inr (Or.inr (Or.inl ⟨rfl, rfl⟩))
        · rw [hx, hy]; exact Or.inr (Or.inr (Or.inr ⟨rfl, rfl⟩))
      | LiteralType =>
        simp only [field.set, field.build]
        have hn := fieldBuildLoop_refines 2 { field := [], comp := [], val := v } _ _ h2
        rw [h3, h4] at hn
        rcases hn with ⟨b1, l1, a1, hx, hy, hr, hin, hd⟩ | ⟨e, hx, hy⟩ | ⟨hx, hy⟩ | ⟨hx, hy⟩
        · rw [hx, hy]
          simp only
          have := ih { b with children := b.children ++ [sqler.ofField b1] } _ _ hr
          rw [hin, hd] at this
          exact this
        · rw [hx, hy]; exact Or.inr (Or.inl ⟨_, rfl, rfl⟩)
        · rw [hx, hy]; exact Or.inr (Or.inr (Or.inl ⟨rfl, rfl⟩))
        · rw [hx, hy]; exact Or.inr (Or.inr (Or.inr ⟨rfl, rfl⟩))
      | FieldType =>
        simp only [field.set, field.build]
        have hn := fieldBuildLoop_refines 2 { field := v, comp := [], val := [] } _ _ h2
        rw [h3, h4] at hn
        rcases hn with ⟨b1, l1, a1, hx, hy, hr, hin, hd⟩ | ⟨e, hx, hy⟩ | ⟨hx, hy⟩ | ⟨hx, hy⟩
        · rw [hx, hy]
          simp only
          have := ih { b with children := b.children ++ [sqler.ofField b1] } _ _ hr
          rw [hin, hd] at this
          exact this
        · rw [hx, hy]; exact Or.inr (Or.inl ⟨_, rfl, rfl⟩)
        · rw [hx, hy]; exact Or.inr (Or.inr (Or.inl ⟨rfl, rfl⟩))
        · rw [hx, hy]; exact Or.inr (Or.inr (Or.inr ⟨rfl, rfl⟩))

/-- The function `ToSql` reads its input exactly as the scan of the remaining input says. -/
theorem ToSql_eq_ToSqlA (input : Str) (dict : List Str) : ToSql input dict = ToSqlA input dict := by
  have h := build_refines (input.length + 1) { operation := [], children := [] }
    (lex.NewLexer input dict) (some input) (lex.NewLexer_Rel input dict)
  have hd : (lex.NewLexer input dict).dict = dict := rfl
  have hin : (lex.NewLexer input dict).input = input := rfl
  rw [hd, hin] at h
  unfold ToSql ToSqlA buildTree
  rw [hin]
  rcases h with ⟨b1, l1, a1, hx, hy, _, _, _⟩ | ⟨e, hx, hy⟩ | ⟨hx, hy⟩ | ⟨hx, hy⟩
  · rw [hx, hy]; rfl
  · rw [hx, hy]
  · rw [hx, hy]
  · rw [hx, hy]

namespace lex

theorem scanLiteral_good (dict : List Str) (c : Char) (cs : Str) :
    (∀ it r, scanLiteral c cs = .tok it r → GoodItem dict it) ∧
      (∀ it, scanLiteral c cs ≠ .fail it) := by
  unfold scanLiteral
  split
  · refine ⟨?_, by intro it h; cases h⟩
    intro it r h
    cases h
    simp [GoodItem]
  · refine ⟨?_, by intro it h; cases h⟩
    intro it r h
    cases h
    simp [GoodItem]

theorem scanBoolean_good (dict : List Str) (c : Char) (cs : Str) (hc : c = and ∨ c = or) :
    ∀ it r, scanBoolean c cs = .tok it r → GoodItem dict it := by
  intro it r h
  unfold scanBoolean at h
  split at h
  · cases h
  · rename_i heq
    simp only [ne_eq, not_not] at heq
    cases h
    rw [← heq]
    rcases hc with rfl | rfl
    · left; rfl
    · right; rfl

theorem scanComp_good (dict : List Str) (c : Char) (cs : Str)
    (hc : c = chLt ∨ c = chGt ∨ c = chEq ∨ c = chBang) :
    ∀ it r, scanComp c cs = .tok it r → GoodItem dict it := by
  intro it r h
  unfold scanComp at h
  split at h <;> cases h <;> rcases hc with rfl | rfl | rfl | rfl <;> simp [GoodItem, comparators]

theorem scanKeyDef_good (dict : List Str) (c : Char) (cs : Str) :
    ∀ it r, scanKeyDef dict c cs = .tok it r → GoodItem dict it := by
  intro it r h
  unfold scanKeyDef at h
  split at h
  · rename_i hmem
    cases h
    simpa [GoodItem] using hmem
  · cases h

theorem scan_good (dict : List Str) :
    ∀ (rest : Str) (it : Item) (r : Str), scan dict rest = .tok it r → GoodItem dict it := by
  intro rest
  induction rest with
  | nil => intro it r h; simp [scan] at h
  | cons c cs ih =>
    intro it r h
    simp only [scan] at h
    split at h
    · cases h
    · split at h
      · cases h; simp [GoodItem]
      · split at h
        · cases h; simp [GoodItem]
        · split at h
          · exact (scanLiteral_good dict c cs).1 it r h
          · split at h
            · rename_i hc
              exact scanBoolean_good dict c cs hc it r h
            · split at h
              · rename_i hc
                exact scanComp_good dict c cs hc it r h
              · split at h
                · exact ih it r h
                · exact scanKeyDef_good dict c cs it r h

theorem scan_fail_error (dict : List Str) :
    ∀ (rest : Str) (it : Item), scan dict rest = .fail it → it.Typ = ItemType.ErrorType := by
  intro rest
  induction rest with
  | nil => intro it h; simp [scan] at h
  | cons c cs ih =>
    intro it h
    simp only [scan] at h
    split at h
    · cases h
    · split at h
      · cases h
      · split at h
        · cases h
        · split at h
          · exact absurd h ((scanLiteral_good dict c cs).2 it)
          · split at h
            · unfold scanBoolean at h
              split at h
              · cases h; rfl
              · cases h
            · split at h
              · unfold scanComp at h
                split at h <;> cases h
              · split at h
                · exact ih it h
                · unfold scanKeyDef at h
                  split at h
                  · cases h
                  · cases h; rfl

theorem nextItemA_good (dict : List Str) (a : Option Str) (it : Item)
    (h : nextItemA dict a = some it) : GoodItem dict it := by
  cases a with
  | none => simp [nextItemA] at h
  | some r =>
    simp only [nextItemA] at h
    split at h
    · cases h
    · rename_i it1 r1 hs
      cases h
      exact scan_good dict r _ _ hs
    · rename_i it1 hs
      cases h
      have := scan_fail_error dict r _ hs
      simp [GoodItem, this]

theorem afterCalls_Rel (input : Str) (dict : List Str) :
    ∀ k, ∃ a, Rel ((NewLexer input dict).afterCalls k) a ∧
      ((NewLexer input dict).afterCalls k).dict = dict ∧
      ((NewLexer input dict).afterCalls k).input = input := by
  intro k
  induction k with
  | zero => exact ⟨some input, NewLexer_Rel input dict, rfl, rfl⟩
  | succ k ih =>
    obtain ⟨a, ha, hd, hin⟩ := ih
    obtain ⟨_, h2, h3, h4⟩ := NextItem_spec _ a ha
    exact ⟨_, h2, by rw [Lexer.afterCalls, h4, hd], by rw [Lexer.afterCalls, h3, hin]⟩

end lex

/-! ### The code generator on trees -/

theorem SafeText.nil (dict : List Str) : SafeText dict [] := ⟨[], rfl, by simp⟩

theorem SafeText.piece (dict : List Str) (p : Str) (h : SafePiece dict p) : SafeText dict p :=
  ⟨[p], by simp, by simpa using h⟩

theorem SafeText.append (dict : List Str) (s t : Str) (hs : SafeText dict s)
    (ht : SafeText dict t) : SafeText dict (s ++ t) := by
  obtain ⟨ps, rfl, hps⟩ := hs
  obtain ⟨qs, rfl, hqs⟩ := ht
  refine ⟨ps ++ qs, by simp, ?_⟩
  intro p hp
  rcases List.mem_append.1 hp with h | h
  · exact hps p h
  · exact hqs p h

theorem SafeText.space (dict : List Str) : SafeText dict " ".toList :=
  SafeText.piece dict _ (Or.inr (Or.inr (Or.inl rfl)))

theorem SafeText.spaceQ (dict : List Str) : SafeText dict " ?".toList :=
  SafeText.append dict " ".toList [placeholder] (SafeText.space dict)
    (SafeText.piece dict _ (Or.inr (Or.inr (Or.inr (Or.inr (Or.inr (Or.inl rfl)))))))

theorem SafeText.op (dict : List Str) (op : BoolOp) (h : op = [] ∨ op = And ∨ op = Or) :
    SafeText dict op := by
  rcases h with rfl | rfl | rfl
  · exact SafeText.nil dict
  · exact SafeText.piece dict _ (Or.inr (Or.inr (Or.inr (Or.inl rfl))))
  · exact SafeText.piece dict _ (Or.inr (Or.inr (Or.inr (Or.inr (Or.inl rfl)))))

theorem field_ToSql_safe (dict : List Str) (f : Funnel.field) (hf : f.Safe dict) (sql : Str)
    (args : List Str) (h : f.ToSql = some (sql, args)) : SafeText dict sql := by
  unfold field.ToSql at h
  split at h
  · cases h
  · cases h
    obtain ⟨h1, h2⟩ := hf
    have t1 : SafeText dict f.field := by
      rcases h1 with h1 | h1
      · rw [h1]; exact SafeText.nil dict
      · exact SafeText.piece dict _ (Or.inr (Or.inr (Or.inr (Or.inr (Or.inr (Or.inr (Or.inr h1)))))))
    have t2 : SafeText dict f.comp := by
      rcases h2 with h2 | h2
      · rw [h2]; exact SafeText.nil dict
      · exact SafeText.piece dict _ (Or.inr (Or.inr (Or.inr (Or.inr (Or.inr (Or.inr (Or.inl h2)))))))
    exact SafeText.append dict _ _ (SafeText.append dict _ _ (SafeText.append dict _ _ t1
      (SafeText.space dict)) t2) (SafeText.spaceQ dict)

mutual
theorem sqler_ToSql_safe (dict : List Str) : ∀ (t : sqler) (sql : Str) (args : List Str),
    t.Safe dict → t.ToSql = some (sql, args) → SafeText dict sql
  | .ofField f, sql, args, hs, h => by
    simp only [sqler.Safe] at hs
    simp only [sqler.ToSql] at h
    exact field_ToSql_safe dict f hs sql args h
  | .ofBoolean op cs, sql, args, hs, h => by
    simp only [sqler.Safe] at hs
    simp only [sqler.ToSql] at h
    split at h
    · cases h
    · rename_i sql1 args1 hl
      have := childrenLoop_safe dict op hs.1 cs 0 _ [] sql1 args1 hs.2
        (SafeText.piece dict _ (Or.inl rfl)) hl
      cases h
      exact SafeText.append dict _ _ this (SafeText.append dict " ".toList ")".toList
        (SafeText.space dict) (SafeText.piece dict _ (Or.inr (Or.inl rfl))))
theorem childrenLoop_safe (dict : List Str) (op : BoolOp) (hop : op = [] ∨ op = And ∨ op = Or) :
    ∀ (cs : List sqler) (i : Nat) (sql : Str) (args : List Str) (sql1 : Str) (args1 : List Str),
    sqler.SafeList dict cs → SafeText dict sql →
    sqler.childrenLoop op cs i sql args = some (sql1, args1) → SafeText dict sql1
  | [], i, sql, args, sql1, args1, _, ht, h => by
    simp only [sqler.childrenLoop] at h
    cases h
    exact ht
  | c :: cs, i, sql, args, sql1, args1, hs, ht, h => by
    simp only [sqler.SafeList] at hs
    simp only [sqler.childrenLoop] at h
    split at h
    · cases h
    · rename_i cSql cArgs hc
      have hcs := sqler_ToSql_safe dict c cSql cArgs hs.1 hc
      refine childrenLoop_safe dict op hop cs _ _ _ sql1 args1 hs.2 ?_ h
      split
      · exact SafeText.append dict _ _ (SafeText.append dict _ _ (SafeText.append dict _ _
          (SafeText.append dict _ _ ht (SafeText.space dict)) (SafeText.op dict op hop))
          (SafeText.space dict)) hcs
      · exact SafeText.append dict _ _ (SafeText.append dict _ _ ht (SafeText.space dict)) hcs
end

mutual
theorem sqler_ToSql_mapVal (g : Str → Str) : ∀ (t : sqler) (sql : Str) (args : List Str),
    t.ToSql = some (sql, args) → (t.mapVal g).ToSql = some (sql, args.map g)
  | .ofField f, sql, args, h => by
    simp only [sqler.ToSql, field.ToSql] at h
    simp only [sqler.mapVal, sqler.ToSql, field.ToSql]
    split at h
    · cases h
    · rename_i hlen
      cases h
      rw [if_neg hlen]
      rfl
  | .ofBoolean op cs, sql, args, h => by
    simp only [sqler.ToSql] at h
    simp only [sqler.mapVal, sqler.ToSql]
    split at h
    · cases h
    · rename_i sql1 args1 hl
      obtain ⟨extra, he, hall⟩ := childrenLoop_mapVal g op cs 0 _ [] sql1 args1 hl
      cases h
      rw [hall []]
      simp only [List.nil_append] at he
      simp [he]
theorem childrenLoop_mapVal (g : Str → Str) (op : BoolOp) :
    ∀ (cs : List sqler) (i : Nat) (sql : Str) (args : List Str) (sql1 : Str) (args1 : List Str),
    sqler.childrenLoop op cs i sql args = some (sql1, args1) →
    ∃ extra, args1 = args ++ extra ∧
      ∀ args0, sqler.childrenLoop op (sqler.mapValList g cs) i sql args0 =
        some (sql1, args0 ++ extra.map g)
  | [], i, sql, args, sql1, args1, h => by
    simp only [sqler.childrenLoop] at h
    cases h
    exact ⟨[], by simp, by intro args0; simp [sqler.mapValList, sqler.childrenLoop]⟩
  | c :: cs, i, sql, args, sql1, args1, h => by
    simp only [sqler.childrenLoop] at h
    split at h
    · cases h
    · rename_i cSql cArgs hc
      have hcm := sqler_ToSql_mapVal g c cSql cArgs hc
      obtain ⟨extra, he, hall⟩ := childrenLoop_mapVal g op cs _ _ _ sql1 args1 h
      refine ⟨cArgs ++ extra, by rw [he, List.append_assoc], ?_⟩
      intro args0
      simp only [sqler.mapValList, sqler.childrenLoop, hcm]
      rw [hall]
      simp
end

/-! ### What the builder puts into the tree -/

theorem SafeList_append (dict : List Str) (c : sqler) :
    ∀ cs : List sqler, sqler.SafeList dict cs → c.Safe dict → sqler.SafeList dict (cs ++ [c])
  | [], _, hc => by simp only [List.nil_append, sqler.SafeList]; exact ⟨hc, trivial⟩
  | d :: ds, hs, hc => by
    simp only [sqler.SafeList] at hs
    simp only [List.cons_append, sqler.SafeList]
    exact ⟨hs.1, SafeList_append dict c ds hs.2 hc⟩

theorem field_set_safe (dict : List Str) (f f1 : Funnel.field) (it : lex.Item)
    (hf : f.Safe dict) (hg : lex.GoodItem dict it) (h : f.set it = .ok f1) : f1.Safe dict := by
  obtain ⟨ty, v⟩ := it
  cases ty <;> simp only [field.set] at h <;> cases h
  · exact hf
  · exact ⟨Or.inr (by simpa [lex.GoodItem] using hg), hf.2⟩
  · exact ⟨hf.1, Or.inr (by simpa [lex.GoodItem] using hg)⟩

theorem fieldBuildLoopA_safe (dict : List Str) :
    ∀ (k : Nat) (f : Funnel.field) (a : Option Str) (f1 : Funnel.field) (a1 : Option Str),
    f.Safe dict → fieldBuildLoopA dict k f a = .ok (f1, a1) → f1.Safe dict := by
  intro k
  induction k with
  | zero =>
    intro f a f1 a1 hf h
    simp only [fieldBuildLoopA] at h
    cases h
    exact hf
  | succ k ih =>
    intro f a f1 a1 hf h
    simp only [fieldBuildLoopA] at h
    cases hit : lex.nextItemA dict a with
    | none => rw [hit] at h; cases h
    | some item =>
      rw [hit] at h
      simp only at h
      cases hset : f.set item with
      | error e => rw [hset] at h; cases h
      | ok f2 =>
        rw [hset] at h
        exact ih f2 _ f1 a1 (field_set_safe dict f f2 item hf (lex.nextItemA_good dict a item hit) hset) h

theorem toBoolOp_good (v : Str) (h : v = lex.And ∨ v = lex.Or) :
    toBoolOp v ≠ Invalid ∧ (toBoolOp v = And ∨ toBoolOp v = Or) := by
  rcases h with rfl | rfl
  · exact ⟨by decide, Or.inl (by decide)⟩
  · exact ⟨by decide, Or.inr (by decide)⟩

theorem buildA_safe (dict : List Str) :
    ∀ (n : Nat) (b : boolean) (a : Option Str) (b1 : boolean) (a1 : Option Str),
    b.toSqler.Safe dict → buildA dict n b a = .ok (b1, a1) → b1.toSqler.Safe dict := by
  intro n
  induction n with
  | zero => intro b a b1 a1 _ h; cases h
  | succ n ih =>
    intro b a b1 a1 hs h
    simp only [buildA] at h
    cases hit : lex.nextItemA dict a with
    | none => rw [hit] at h; cases h; exact hs
    | some item =>
      rw [hit] at h
      have hg := lex.nextItemA_good dict a item hit
      obtain ⟨ty, v⟩ := item
      simp only [boolean.toSqler, sqler.Safe] at hs
      cases ty with
      | ErrorType => cases h
      | ComparatorType => cases h
      | ClosePrecedenceType => cases h; exact hs
      | BooleanType =>
        simp only at h
        have hb := toBoolOp_good v (by simpa [lex.GoodItem] using hg)
        rw [if_neg hb.1] at h
        refine ih _ _ b1 a1 ?_ h
        simp only [boolean.toSqler, sqler.Safe]
        exact ⟨Or.inr hb.2, hs.2⟩
      | OpenPrecedenceType =>
        simp only at h
        cases hn : buildA dict n { operation := [], children := [] } (lex.nextRestA dict a) with
        | error e => rw [hn] at h; cases h
        | panic => rw [hn] at h; cases h
        | outOfFuel => rw [hn] at h; cases h
        | ok res =>
          obtain ⟨nb, a2⟩ := res
          rw [hn] at h
          simp only at h
          have hnb := ih _ _ nb a2 (by simp [boolean.toSqler, sqler.Safe, sqler.SafeList]) hn
          refine ih _ _ b1 a1 ?_ h
          simp only [boolean.toSqler, sqler.Safe]
          exact ⟨hs.1, SafeList_append dict _ _ hs.2 hnb⟩
      | LiteralType =>
        simp only [field.set] at h
        cases hn : fieldBuildLoopA dict 2 { field := [], comp := [], val := v }
            (lex.nextRestA dict a) with
        | error e => rw [hn] at h; cases h
        | panic => rw [hn] at h; cases h
        | outOfFuel => rw [hn] at h; cases h
        | ok res =>
          obtain ⟨nf, a2⟩ := res
          rw [hn] at h
          simp only at h
          have hnf := fieldBuildLoopA_safe dict 2 _ _ nf a2
            (by simp [field.Safe]) hn
          refine ih _ _ b1 a1 ?_ h
          simp only [boolean.toSqler, sqler.Safe]
          exact ⟨hs.1, SafeList_append dict _ _ hs.2 (by simpa [sqler.Safe] using hnf)⟩
      | FieldType =>
        simp only [field.set] at h
        cases hn : fieldBuildLoopA dict 2 { field := v, comp := [], val := [] }
            (lex.nextRestA dict a) with
        | error e => rw [hn] at h; cases h
        | panic => rw [hn] at h; cases h
        | outOfFuel => rw [hn] at h; cases h
        | ok res =>
          obtain ⟨nf, a2⟩ := res
          rw [hn] at h
          simp only at h
          have hnf := fieldBuildLoopA_safe dict 2 _ _ nf a2
            ⟨Or.inr (by simpa [lex.GoodItem] using hg), Or.inl rfl⟩ hn
          refine ih _ _ b1 a1 ?_ h
          simp only [boolean.toSqler, sqler.Safe]
          exact ⟨hs.1, SafeList_append dict _ _ hs.2 (by simpa [sqler.Safe] using hnf)⟩

/-- A successful `ToSql` comes from a tree built by `buildTree`, all of whose names,
comparators and operators came from lexer items. -/
theorem ToSql_ok_tree (input : Str) (dict : List Str) (sql : Str) (args : List Str)
    (h : ToSql input dict = .ok (sql, args)) :
    ∃ r : root, buildTree (lex.NewLexer input dict) = .ok r ∧ r.sqler.ToSql = some (sql, args) ∧
      r.sqler.Safe dict := by
  have hA := ToSql_eq_ToSqlA input dict
  have h0 := h
  rw [hA] at h
  unfold ToSqlA at h
  unfold ToSql at h0
  cases hb : buildTree (lex.NewLexer input dict) with
  | error e => rw [hb] at h0; cases h0
  | panic => rw [hb] at h0; cases h0
  | outOfFuel => rw [hb] at h0; cases h0
  | ok r =>
    rw [hb] at h0
    simp only [root.ToSql] at h0
    cases hr : r.sqler.ToSql with
    | none => rw [hr] at h0; cases h0
    | some p =>
      obtain ⟨s1, a1⟩ := p
      rw [hr] at h0
      simp only at h0
      cases h0
      refine ⟨r, rfl, hr, ?_⟩
      cases hn : buildA dict (input.length + 1) { operation := [], children := [] } (some input) with
      | error e => rw [hn] at h; cases h
      | panic => rw [hn] at h; cases h
      | outOfFuel => rw [hn] at h; cases h
      | ok res =>
        obtain ⟨b1, a2⟩ := res
        have hsafe := buildA_safe dict _ _ _ b1 a2
          (by simp [boolean.toSqler, sqler.Safe, sqler.SafeList]) hn
        have href := build_refines (input.length + 1) { operation := [], children := [] }
          (lex.NewLexer input dict) (some input) (lex.NewLexer_Rel input dict)
        have hd : (lex.NewLexer input dict).dict = dict := rfl
        have hin : (lex.NewLexer input dict).input = input := rfl
        rw [hd, hin, hn] at href
        unfold buildTree at hb
        rw [hin] at hb
        rcases href with ⟨b2, l2, a3, hx, hy, _, _, _⟩ | ⟨e, _, hy⟩ | ⟨_, hy⟩ | ⟨_, hy⟩
        · rw [hx] at hb
          cases hy
          cases hb
          exact hsafe
        · cases hy
        · cases hy
        · cases hy

/-! ### Counting placeholders -/

theorem comparators_count (c : Str) (h : c ∈ lex.comparators) : c.count placeholder = 0 := by
  simp only [lex.comparators, List.mem_cons, List.mem_singleton, List.not_mem_nil, or_false] at h
  rcases h with rfl | rfl | rfl | rfl | rfl | rfl | rfl | rfl <;> decide

theorem op_count (op : BoolOp) (h : op = [] ∨ op = And ∨ op = Or) : op.count placeholder = 0 := by
  rcases h with rfl | rfl | rfl <;> decide

theorem field_ToSql_count (dict : List Str) (hd : ∀ x ∈ dict, placeholder ∉ x) (f : Funnel.field)
    (hf : f.Safe dict) (sql : Str) (args : List Str) (h : f.ToSql = some (sql, args)) :
    sql.count placeholder = args.length := by
  unfold field.ToSql at h
  split at h
  · cases h
  · cases h
    obtain ⟨h1, h2⟩ := hf
    have c1 : f.field.count placeholder = 0 := by
      rcases h1 with h1 | h1
      · rw [h1]; rfl
      · exact List.count_eq_zero_of_not_mem (hd _ h1)
    have c2 : f.comp.count placeholder = 0 := by
      rcases h2 with h2 | h2
      · rw [h2]; rfl
      · exact comparators_count _ h2
    have c3 : " ".toList.count placeholder = 0 := by decide
    have c4 : " ?".toList.count placeholder = 1 := by decide
    simp only [List.count_append, c1, c2, c3, c4, List.length_singleton]

mutual
theorem sqler_ToSql_count (dict : List Str) (hd : ∀ x ∈ dict, placeholder ∉ x) :
    ∀ (t : sqler) (sql : Str) (args : List Str),
    t.Safe dict → t.ToSql = some (sql, args) → sql.count placeholder = args.length
  | .ofField f, sql, args, hs, h => by
    simp only [sqler.Safe] at hs
    simp only [sqler.ToSql] at h
    exact field_ToSql_count dict hd f hs sql args h
  | .ofBoolean op cs, sql, args, hs, h => by
    simp only [sqler.Safe] at hs
    simp only [sqler.ToSql] at h
    split at h
    · cases h
    · rename_i sql1 args1 hl
      have := childrenLoop_count dict hd op hs.1 cs 0 _ [] sql1 args1 hs.2 hl
      cases h
      have c0 : "(".toList.count placeholder = 0 := by decide
      have c1 : " )".toList.count placeholder = 0 := by decide
      simp only [List.length_nil, c0] at this
      simp only [List.count_append, c1]
      omega
theorem childrenLoop_count (dict : List Str) (hd : ∀ x ∈ dict, placeholder ∉ x) (op : BoolOp)
    (hop : op = [] ∨ op = And ∨ op = Or) :
    ∀ (cs : List sqler) (i : Nat) (sql : Str) (args : List Str) (sql1 : Str) (args1 : List Str),
    sqler.SafeList dict cs → sqler.childrenLoop op cs i sql args = some (sql1, args1) →
    sql1.count placeholder + args.length = sql.count placeholder + args1.length
  | [], i, sql, args, sql1, args1, _, h => by
    simp only [sqler.childrenLoop] at h
    cases h
    rfl
  | c :: cs, i, sql, args, sql1, args1, hs, h => by
    simp only [sqler.SafeList] at hs
    simp only [sqler.childrenLoop] at h
    split at h
    · cases h
    · rename_i cSql cArgs hc
      have hcs := sqler_ToSql_count dict hd c cSql cArgs hs.1 hc
      have := childrenLoop_count dict hd op hop cs _ _ _ sql1 args1 hs.2 h
      have c3 : " ".toList.count placeholder = 0 := by decide
      have c4 := op_count op hop
      split at this <;>
        simp only [List.count_append, List.length_append, c3, c4] at this <;> omega
end

/-! ### The reference rendering -/

theorem intercalate_cons {α : Type} (sep : List α) :
    ∀ (ts : List (List α)) (t : List α),
      sep.intercalate (t :: ts) = t ++ (ts.map (fun x => sep ++ x)).flatten
  | [], t => by simp [List.intercalate, List.intersperse]
  | u :: us, t => by
    have ih := intercalate_cons sep us u
    simp only [List.intercalate] at ih ⊢
    simp only [List.intersperse, List.flatten_cons, ih, List.map_cons, List.append_assoc]

mutual
theorem sqler_ToSql_ref : ∀ (t : sqler), t.WellFormed → t.ToSql = some (refToSql t)
  | .ofField f, h => by
    simp only [sqler.WellFormed] at h
    simp only [sqler.ToSql, field.ToSql, refToSql]
    rw [if_neg (by omega)]
  | .ofBoolean op [], h => by
    simp only [sqler.WellFormed] at h
    exact absurd rfl h.1
  | .ofBoolean op (c :: cs), h => by
    simp only [sqler.WellFormed, sqler.WellFormedList] at h
    have hc := sqler_ToSql_ref c h.2.1
    have hl := childrenLoop_ref op cs 1 (by omega) ("(".toList ++ " ".toList ++ (refToSql c).1)
      ([] ++ (refToSql c).2) h.2.2
    simp only [sqler.ToSql, sqler.childrenLoop, hc, Nat.lt_irrefl, if_false, Nat.zero_add, hl,
      refToSql, refList, List.map_cons, intercalate_cons, List.flatten_cons]
    simp
theorem childrenLoop_ref (op : BoolOp) :
    ∀ (cs : List sqler) (i : Nat), 0 < i → ∀ (sql : Str) (args : List Str),
    sqler.WellFormedList cs →
    sqler.childrenLoop op cs i sql args =
      some (sql ++ (((refList cs).map Prod.fst).map
          (fun x => (" ".toList ++ op ++ " ".toList) ++ x)).flatten,
        args ++ ((refList cs).map Prod.snd).flatten)
  | [], i, _, sql, args, _ => by
    simp [sqler.childrenLoop, refList]
  | c :: cs, i, hi, sql, args, h => by
    simp only [sqler.WellFormedList] at h
    have hc := sqler_ToSql_ref c h.1
    have hl := childrenLoop_ref op cs (i + 1) (by omega)
      (sql ++ " ".toList ++ op ++ " ".toList ++ (refToSql c).1) (args ++ (refToSql c).2) h.2
    simp only [sqler.childrenLoop, hc, hi, if_true, hl, refList, List.map_cons, List.flatten_cons]
    simp
end

/-! ### Scanning known input -/

namespace lex

theorem scan_space (dict : List Str) (r : Str) : scan dict (space :: r) = scan dict r := by
  have h1 : space ≠ eof := by decide
  have h2 : space ≠ openPrecedence := by decide
  have h3 : space ≠ closePrecedence := by decide
  have h4 : space ≠ quoteLiteral := by decide
  have h5 : ¬ (space = and ∨ space = or) := by decide
  have h6 : ¬ (space = chLt ∨ space = chGt ∨ space = chEq ∨ space = chBang) := by decide
  simp only [scan, h1, h2, h3, h4, h5, h6, if_false, if_true]

theorem scan_open (dict : List Str) (r : Str) :
    scan dict (openPrecedence :: r) = .tok ⟨.OpenPrecedenceType, [openPrecedence]⟩ r := by
  have h1 : openPrecedence ≠ eof := by decide
  simp only [scan, h1, if_false, if_true]

theorem scan_close (dict : List Str) (r : Str) :
    scan dict (closePrecedence :: r) = .tok ⟨.ClosePrecedenceType, [closePrecedence]⟩ r := by
  have h1 : closePrecedence ≠ eof := by decide
  have h2 : closePrecedence ≠ openPrecedence := by decide
  simp only [scan, h1, h2, if_false, if_true]

theorem scan_and (dict : List Str) (r : Str) :
    scan dict (and :: and :: r) = .tok ⟨.BooleanType, And⟩ r := by
  have h1 : and ≠ eof := by decide
  have h2 : and ≠ openPrecedence := by decide
  have h3 : and ≠ closePrecedence := by decide
  have h4 : and ≠ quoteLiteral := by decide
  simp only [scan, h1, h2, h3, h4, if_false, true_or, if_true, scanBoolean, List.head?_cons,
    Option.getD_some, ne_eq, not_true_eq_false, List.tail_cons]
  rfl

theorem scan_or (dict : List Str) (r : Str) :
    scan dict (or :: or :: r) = .tok ⟨.BooleanType, Or⟩ r := by
  have h1 : or ≠ eof := by decide
  have h2 : or ≠ openPrecedence := by decide
  have h3 : or ≠ closePrecedence := by decide
  have h4 : or ≠ quoteLiteral := by decide
  simp only [scan, h1, h2, h3, h4, if_false, or_true, if_true, scanBoolean, List.head?_cons,
    Option.getD_some, ne_eq, not_true_eq_false, List.tail_cons]
  rfl

theorem notStop_of_clean (v : Str) (hv : cleanLit v = true) :
    ∀ a ∈ v, notStop [quoteLiteral] a = true := by
  intro a ha
  have := (List.all_eq_true.1 hv) a ha
  simp only [Bool.and_eq_true, bne_iff_ne, ne_eq] at this
  simp only [notStop, List.singleton_append, inRunes, Bool.not_eq_true']
  rw [if_neg (fun h => this.1 h.symm), if_neg (fun h => this.2 h.symm)]

theorem filter_clean (v : Str) (hv : cleanLit v = true) :
    v.filter (fun x => x != quoteLiteral) = v := by
  rw [List.filter_eq_self]
  intro a ha
  have := (List.all_eq_true.1 hv) a ha
  simp only [Bool.and_eq_true] at this
  exact this.1

theorem scan_literal (dict : List Str) (v r : Str) (hv : cleanLit v = true) :
    scan dict (quoteLiteral :: (v ++ quoteLiteral :: r)) = .tok ⟨.LiteralType, v⟩ r := by
  have h1 : quoteLiteral ≠ eof := by decide
  have h2 : quoteLiteral ≠ openPrecedence := by decide
  have h3 : quoteLiteral ≠ closePrecedence := by decide
  have hstop : notStop [quoteLiteral] quoteLiteral = false := by decide
  have hp := notStop_of_clean v hv
  simp only [scan, h1, h2, h3, if_false, if_true, scanLiteral]
  rw [List.dropWhile_append_of_pos hp, List.takeWhile_append_of_pos hp]
  simp only [List.dropWhile_cons, hstop, List.takeWhile_cons, Bool.false_eq_true, if_false,
    List.append_nil]
  simp [List.filter_cons, filter_clean v hv]

theorem scan_literal_unterminated (dict : List Str) (v : Str) (hv : cleanLit v = true) :
    scan dict (quoteLiteral :: v) = .tok ⟨.LiteralType, v⟩ [] := by
  have h1 : quoteLiteral ≠ eof := by decide
  have h2 : quoteLiteral ≠ openPrecedence := by decide
  have h3 : quoteLiteral ≠ closePrecedence := by decide
  have hp := notStop_of_clean v hv
  have hd : v.dropWhile (notStop [quoteLiteral]) = [] := List.dropWhile_eq_nil_iff.2 hp
  have ht : v.takeWhile (notStop [quoteLiteral]) = v := List.takeWhile_eq_self_iff.2 hp
  simp only [scan, h1, h2, h3, if_false, if_true, scanLiteral, hd, ht]
  simp [List.filter_cons, filter_clean v hv]

theorem scan_comp (dict : List Str) (c r : Str) (hc : c ∈ comparators)
    (hr : r.head?.getD eof ≠ chEq) : scan dict (c ++ r) = .tok ⟨.ComparatorType, c⟩ r := by
  simp only [comparators, List.mem_cons, List.mem_singleton, List.not_mem_nil, or_false] at hc
  have e1 : chLt ≠ eof := by decide
  have e2 : chLt ≠ openPrecedence := by decide
  have e3 : chLt ≠ closePrecedence := by decide
  have e4 : chLt ≠ quoteLiteral := by decide
  have e5 : ¬ (chLt = and ∨ chLt = or) := by decide
  have g1 : chGt ≠ eof := by decide
  have g2 : chGt ≠ openPrecedence := by decide
  have g3 : chGt ≠ closePrecedence := by decide
  have g4 : chGt ≠ quoteLiteral := by decide
  have g5 : ¬ (chGt = and ∨ chGt = or) := by decide
  have q1 : chEq ≠ eof := by decide
  have q2 : chEq ≠ openPrecedence := by decide
  have q3 : chEq ≠ closePrecedence := by decide
  have q4 : chEq ≠ quoteLiteral := by decide
  have q5 : ¬ (chEq = and ∨ chEq = or) := by decide
  have b1 : chBang ≠ eof := by decide
  have b2 : chBang ≠ openPrecedence := by decide
  have b3 : chBang ≠ closePrecedence := by decide
  have b4 : chBang ≠ quoteLiteral := by decide
  have b5 : ¬ (chBang = and ∨ chBang = or) := by decide
  rcases hc with rfl | rfl | rfl | rfl | rfl | rfl | rfl | rfl <;>
    simp [scan, scanComp, e1, e2, e3, e4, e5, g1, g2, g3, g4, g5, q1, q2, q3, q4, q5, b1, b2, b3,
      b4, b5, hr]

theorem scan_ident (dict : List Str) (f r : Str) (hf : isIdent f = true) (hd : f ∈ dict)
    (hr : endsIdent r = true) : scan dict (f ++ r) = .tok ⟨.FieldType, f⟩ r := by
  cases f with
  | nil => simp [isIdent] at hf
  | cons c cs =>
    simp only [isIdent, Bool.and_eq_true] at hf
    obtain ⟨hs, hall⟩ := hf
    simp only [isIdentStart, Bool.and_eq_true, bne_iff_ne, ne_eq] at hs
    obtain ⟨⟨⟨⟨⟨⟨⟨⟨⟨⟨s1, s2⟩, s3⟩, s4⟩, s5⟩, s6⟩, s7⟩, s8⟩, s9⟩, s10⟩, s11⟩ := hs
    have hp : ∀ a ∈ cs, (alphanumeric ++ [chDot]).contains a = true := List.all_eq_true.1 hall
    have ht : (cs ++ r).takeWhile (alphanumeric ++ [chDot]).contains = cs := by
      rw [List.takeWhile_append_of_pos hp]
      cases r with
      | nil => simp
      | cons d ds =>
        simp only [endsIdent, Bool.not_eq_true'] at hr
        simp only [List.takeWhile_cons, hr, Bool.false_eq_true, if_false, List.append_nil]
    have hdw : (cs ++ r).dropWhile (alphanumeric ++ [chDot]).contains = r := by
      rw [List.dropWhile_append_of_pos hp]
      cases r with
      | nil => simp
      | cons d ds =>
        simp only [endsIdent, Bool.not_eq_true'] at hr
        simp only [List.dropWhile_cons, hr, Bool.false_eq_true, if_false]
    have hmem : dict.contains (c :: cs) = true := by simpa using hd
    show scan dict (c :: (cs ++ r)) = _
    simp only [scan, s1, s2, s3, s4, s5, s6, s7, s8, s9, s10, s11, if_false,
      or_self, scanKeyDef, ht, hdw, hmem, if_true]

end lex

/-! ### Building from known input -/

theorem nextA_tok (dict : List Str) (r r1 : Str) (it : lex.Item)
    (h : lex.scan dict r = .tok it r1) :
    lex.nextItemA dict (some r) = some it ∧ lex.nextRestA dict (some r) = some r1 := by
  simp [lex.nextItemA, lex.nextRestA, h]

theorem nextA_space (dict : List Str) (r : Str) :
    lex.nextItemA dict (some (lex.space :: r)) = lex.nextItemA dict (some r) ∧
      lex.nextRestA dict (some (lex.space :: r)) = lex.nextRestA dict (some r) := by
  simp [lex.nextItemA, lex.nextRestA, lex.scan_space]

theorem buildA_space (dict : List Str) (n : Nat) (b : boolean) (r : Str) :
    buildA dict n b (some (lex.space :: r)) = buildA dict n b (some r) := by
  cases n with
  | zero => rfl
  | succ n => simp only [buildA, (nextA_space dict r).1, (nextA_space dict r).2]

theorem fieldBuildLoopA_space (dict : List Str) (k : Nat) (f : Funnel.field) (r : Str) :
    fieldBuildLoopA dict (k + 1) f (some (lex.space :: r)) =
      fieldBuildLoopA dict (k + 1) f (some r) := by
  simp only [fieldBuildLoopA, (nextA_space dict r).1, (nextA_space dict r).2]

theorem endsIdent_space (r : Str) : lex.endsIdent (lex.space :: r) = true := by
  simp only [lex.endsIdent]; decide

theorem endsIdent_close (r : Str) : lex.endsIdent (lex.closePrecedence :: r) = true := by
  simp only [lex.endsIdent]; decide

theorem head_space (r : Str) : (lex.space :: r).head?.getD lex.eof ≠ lex.chEq := by
  simp only [List.head?_cons, Option.getD_some]; decide

theorem buildA_pred (dict : List Str) (n : Nat) (b : boolean) (p : Pred) (r : Str)
    (hp : p.ok dict) (hr : lex.endsIdent r = true) :
    buildA dict (n + 1) b (some (p.text ++ r)) =
      buildA dict n { b with children := b.children ++ [sqler.ofField ⟨p.f, p.c, p.v⟩] }
        (some r) := by
  obtain ⟨f, c, v, lf⟩ := p
  obtain ⟨hf, hd, hc, hv⟩ := hp
  simp only at hf hd hc hv
  have hsp : " ".toList = [lex.space] := by decide
  cases lf with
  | false =>
    have htext : (Pred.mk f c v false).text ++ r =
        f ++ (lex.space :: (c ++ (lex.space :: (lex.quoteLiteral :: (v ++ lex.quoteLiteral :: r))))) := by
      simp only [Pred.text, hsp, List.append_assoc, List.cons_append, List.nil_append,
        Bool.false_eq_true, if_false, if_true]
    have s1 := nextA_tok dict _ _ _ (lex.scan_ident dict f
      (lex.space :: (c ++ (lex.space :: (lex.quoteLiteral :: (v ++ lex.quoteLiteral :: r))))) hf hd
      (endsIdent_space _))
    have s2 := nextA_tok dict _ _ _ (lex.scan_comp dict c
      (lex.space :: (lex.quoteLiteral :: (v ++ lex.quoteLiteral :: r))) hc (head_space _))
    have s3 := nextA_tok dict _ _ _ (lex.scan_literal dict v r hv)
    rw [htext]
    simp only [buildA, s1.1, s1.2, field.set, fieldBuildLoopA_space, fieldBuildLoopA, s2.1, s2.2,
      (nextA_space dict _).1, (nextA_space dict _).2, s3.1, s3.2]
  | true =>
    have htext : (Pred.mk f c v true).text ++ r =
        lex.quoteLiteral :: (v ++ lex.quoteLiteral :: (lex.space :: (c ++ (lex.space :: (f ++ r))))) := by
      simp only [Pred.text, hsp, List.append_assoc, List.cons_append, List.nil_append,
        Bool.false_eq_true, if_false, if_true]
    have s1 := nextA_tok dict _ _ _ (lex.scan_literal dict v
      (lex.space :: (c ++ (lex.space :: (f ++ r)))) hv)
    have s2 := nextA_tok dict _ _ _ (lex.scan_comp dict c (lex.space :: (f ++ r)) hc (head_space _))
    have s3 := nextA_tok dict _ _ _ (lex.scan_ident dict f r hf hd hr)
    rw [htext]
    simp only [buildA, s1.1, s1.2, field.set, fieldBuildLoopA_space, fieldBuildLoopA, s2.1, s2.2,
      (nextA_space dict _).1, (nextA_space dict _).2, s3.1, s3.2]

theorem buildA_and (dict : List Str) (n : Nat) (b : boolean) (r : Str) :
    buildA dict (n + 1) b (some (lex.and :: lex.and :: r)) =
      buildA dict n { b with operation := And } (some r) := by
  have s := nextA_tok dict _ _ _ (lex.scan_and dict r)
  have h1 : toBoolOp lex.And = And := by decide
  have h2 : And ≠ Invalid := by decide
  simp only [buildA, s.1, s.2, h1, h2, if_false]

theorem buildA_or (dict : List Str) (n : Nat) (b : boolean) (r : Str) :
    buildA dict (n + 1) b (some (lex.or :: lex.or :: r)) =
      buildA dict n { b with operation := Or } (some r) := by
  have s := nextA_tok dict _ _ _ (lex.scan_or dict r)
  have h1 : toBoolOp lex.Or = Or := by decide
  have h2 : Or ≠ Invalid := by decide
  simp only [buildA, s.1, s.2, h1, h2, if_false]

theorem buildA_close (dict : List Str) (n : Nat) (b : boolean) (r : Str) :
    buildA dict (n + 1) b (some (lex.closePrecedence :: r)) = .ok (b, some r) := by
  have s := nextA_tok dict _ _ _ (lex.scan_close dict r)
  simp only [buildA, s.1, s.2]

theorem buildA_end (dict : List Str) (n : Nat) (b : boolean) :
    buildA dict (n + 1) b (some []) = .ok (b, none) := by
  simp [buildA, lex.nextItemA, lex.nextRestA, lex.scan]

theorem buildA_open (dict : List Str) (n : Nat) (b : boolean) (r : Str) :
    buildA dict (n + 1) b (some (lex.openPrecedence :: r)) =
      match buildA dict n { operation := [], children := [] } (some r) with
      | .ok (newBool, a2) =>
        buildA dict n { b with children := b.children ++ [newBool.toSqler] } a2
      | .error e => .error e
      | .panic => .panic
      | .outOfFuel => .outOfFuel := by
  have s := nextA_tok dict _ _ _ (lex.scan_open dict r)
  simp only [buildA, s.1, s.2]

theorem comparators_length (c : Str) (h : c ∈ lex.comparators) : ¬ len c > 2 := by
  simp only [lex.comparators, List.mem_cons, List.mem_singleton, List.not_mem_nil, or_false] at h
  rcases h with rfl | rfl | rfl | rfl | rfl | rfl | rfl | rfl <;> decide

/-- The input `p1 && ( p2 || p3 )` compiles to `( t1 AND ( t2 OR t3 ) )`. -/
theorem ToSql_and_group_or (dict : List Str) (p1 p2 p3 : Pred) (h1 : p1.ok dict)
    (h2 : p2.ok dict) (h3 : p3.ok dict) :
    ToSql (p1.text ++ " && ( ".toList ++ p2.text ++ " || ".toList ++ p3.text ++ " )".toList) dict =
      .ok ("( ".toList ++ p1.sql ++ " AND ( ".toList ++ p2.sql ++ " OR ".toList ++ p3.sql ++
        " ) )".toList, [p1.v, p2.v, p3.v]) := by
  have e1 : " && ( ".toList =
      [lex.space, lex.and, lex.and, lex.space, lex.openPrecedence, lex.space] := by decide
  have e2 : " || ".toList = [lex.space, lex.or, lex.or, lex.space] := by decide
  have e3 : " )".toList = [lex.space, lex.closePrecedence] := by decide
  have hin : p1.text ++ " && ( ".toList ++ p2.text ++ " || ".toList ++ p3.text ++ " )".toList =
      p1.text ++ (lex.space :: lex.and :: lex.and :: lex.space :: lex.openPrecedence :: lex.space ::
        (p2.text ++ (lex.space :: lex.or :: lex.or :: lex.space ::
          (p3.text ++ (lex.space :: lex.closePrecedence :: []))))) := by
    simp only [e1, e2, e3, List.append_assoc, List.cons_append, List.nil_append]
  obtain ⟨m, hm⟩ : ∃ m, (p1.text ++ " && ( ".toList ++ p2.text ++ " || ".toList ++ p3.text ++
      " )".toList).length + 1 = m + 1 + 1 + 1 + 1 + 1 + 1 + 1 := by
    refine ⟨(p1.text ++ " && ( ".toList ++ p2.text ++ " || ".toList ++ p3.text ++
      " )".toList).length - 6, ?_⟩
    simp only [List.length_append, e1, e2, e3, List.length_cons, List.length_nil]
    omega
  rw [ToSql_eq_ToSqlA]
  unfold ToSqlA
  rw [hm, hin]
  rw [buildA_pred dict _ _ p1 _ h1 (endsIdent_space _), buildA_space, buildA_and, buildA_space,
    buildA_open, buildA_space, buildA_pred dict _ _ p2 _ h2 (endsIdent_space _), buildA_space,
    buildA_or, buildA_space, buildA_pred dict _ _ p3 _ h3 (endsIdent_space _), buildA_space,
    buildA_close]
  simp only [buildA_end]
  have l1 : ¬ len p1.c > 2 := comparators_length _ h1.2.2.1
  have l2 : ¬ len p2.c > 2 := comparators_length _ h2.2.2.1
  have l3 : ¬ len p3.c > 2 := comparators_length _ h3.2.2.1
  simp [boolean.toSqler, sqler.ToSql, sqler.childrenLoop, field.ToSql, l1, l2, l3, Pred.sql, And, Or]

/-- The input `(p)` compiles to `( ( t ) )`: the parentheses of the root around those of
the group. -/
theorem ToSql_single_group (dict : List Str) (p : Pred) (h : p.ok dict) :
    ToSql ("(".toList ++ p.text ++ ")".toList) dict =
      .ok ("( ( ".toList ++ p.sql ++ " ) )".toList, [p.v]) := by
  have e1 : "(".toList = [lex.openPrecedence] := by decide
  have e2 : ")".toList = [lex.closePrecedence] := by decide
  have hin : "(".toList ++ p.text ++ ")".toList =
      lex.openPrecedence :: (p.text ++ (lex.closePrecedence :: [])) := by
    simp only [e1, e2, List.append_assoc, List.cons_append, List.nil_append]
  obtain ⟨m, hm⟩ : ∃ m, ("(".toList ++ p.text ++ ")".toList).length + 1 = m + 1 + 1 + 1 := by
    refine ⟨("(".toList ++ p.text ++ ")".toList).length - 2, ?_⟩
    simp only [List.length_append, e1, e2, List.length_cons, List.length_nil]
    omega
  rw [ToSql_eq_ToSqlA]
  unfold ToSqlA
  rw [hm, hin]
  rw [buildA_open, buildA_pred dict _ _ p _ h (endsIdent_close _), buildA_close]
  simp only [buildA_end]
  have l1 : ¬ len p.c > 2 := comparators_length _ h.2.2.1
  simp [boolean.toSqler, sqler.ToSql, sqler.childrenLoop, field.ToSql, l1, Pred.sql]

theorem scan_spaces (dict : List Str) (r : Str) :
    ∀ k : Nat, lex.scan dict (List.replicate k lex.space ++ r) = lex.scan dict r
  | 0 => by simp
  | k + 1 => by
    rw [List.replicate_succ, List.cons_append, lex.scan_space]
    exact scan_spaces dict r k

theorem scan_quoted (dict : List Str) (k : Nat) (v : Str) (closing : Option Str)
    (hv : lex.cleanLit v = true) :
    lex.scan dict (List.replicate k lex.space ++ lex.quoteLiteral :: (v ++ literalTail closing)) =
      .tok ⟨.LiteralType, v⟩ (closing.getD []) := by
  rw [scan_spaces]
  cases closing with
  | none =>
    simp only [literalTail, List.append_nil, Option.getD_none]
    exact lex.scan_literal_unterminated dict v hv
  | some r =>
    simp only [literalTail, Option.getD_some]
    exact lex.scan_literal dict v r hv

/-! ### The fuel of the builder is sufficient -/

namespace lex

theorem length_dropWhile_le {α : Type} (p : α → Bool) :
    ∀ l : List α, (l.dropWhile p).length ≤ l.length
  | [] => by simp
  | x :: xs => by
    have ih := length_dropWhile_le p xs
    rw [List.dropWhile_cons]
    split
    · simp only [List.length_cons]; omega
    · exact Nat.le_refl _

theorem scan_shrinks (dict : List Str) :
    ∀ (rest : Str) (it : Item) (r : Str), scan dict rest = .tok it r → r.length < rest.length := by
  intro rest
  induction rest with
  | nil => intro it r h; simp [scan] at h
  | cons c cs ih =>
    intro it r h
    simp only [scan] at h
    simp only [List.length_cons]
    split at h
    · cases h
    · split at h
      · cases h; omega
      · split at h
        · cases h; omega
        · split at h
          · unfold scanLiteral at h
            split at h
            · cases h; simp
            · rename_i d r1 hdw
              cases h
              have := length_dropWhile_le (notStop [quoteLiteral]) cs
              rw [hdw, List.length_cons] at this
              omega
          · split at h
            · unfold scanBoolean at h
              split at h
              · cases h
              · cases h
                have := List.length_tail cs
                omega
            · split at h
              · unfold scanComp at h
                split at h
                · cases h
                  have := List.length_tail cs
                  omega
                · cases h; omega
              · split at h
                · have := ih it r h
                  omega
                · unfold scanKeyDef at h
                  split at h
                  · cases h
                    have := length_dropWhile_le (alphanumeric ++ [chDot]).contains cs
                    omega
                  · cases h

end lex

theorem nextRestA_le (dict : List Str) (a : Option Str) :
    fuelFor (lex.nextRestA dict a) ≤ fuelFor a := by
  cases a with
  | none => simp [lex.nextRestA]
  | some r =>
    simp only [lex.nextRestA]
    cases hs : lex.scan dict r with
    | done => simp [fuelFor]
    | fail it => simp [fuelFor]
    | tok it r1 =>
      have := lex.scan_shrinks dict r it r1 hs
      simp only [fuelFor]
      omega

theorem nextRestA_lt (dict : List Str) (a : Option Str) (it : lex.Item)
    (h : lex.nextItemA dict a = some it) (hne : it.Typ ≠ lex.ItemType.ErrorType) :
    fuelFor (lex.nextRestA dict a) < fuelFor a := by
  cases a with
  | none => simp [lex.nextItemA] at h
  | some r =>
    simp only [lex.nextItemA] at h
    simp only [lex.nextRestA]
    cases hs : lex.scan dict r with
    | done => rw [hs] at h; cases h
    | fail it1 =>
      rw [hs] at h
      cases h
      exact absurd (lex.scan_fail_error dict r _ hs) hne
    | tok it1 r1 =>
      have := lex.scan_shrinks dict r it1 r1 hs
      simp only [fuelFor]
      omega

theorem fieldBuildLoopA_le (dict : List Str) :
    ∀ (k : Nat) (f : Funnel.field) (a : Option Str) (f1 : Funnel.field) (a1 : Option Str),
    fieldBuildLoopA dict k f a = .ok (f1, a1) → fuelFor a1 ≤ fuelFor a := by
  intro k
  induction k with
  | zero =>
    intro f a f1 a1 h
    simp only [fieldBuildLoopA] at h
    cases h
    exact Nat.le_refl _
  | succ k ih =>
    intro f a f1 a1 h
    simp only [fieldBuildLoopA] at h
    cases hit : lex.nextItemA dict a with
    | none => rw [hit] at h; cases h
    | some item =>
      rw [hit] at h
      simp only at h
      cases hset : f.set item with
      | error e => rw [hset] at h; cases h
      | ok f2 =>
        rw [hset] at h
        exact Nat.le_trans (ih f2 _ f1 a1 h) (nextRestA_le dict a)

theorem fieldBuildLoopA_not_special (dict : List Str) :
    ∀ (k : Nat) (f : Funnel.field) (a : Option Str),
    fieldBuildLoopA dict k f a ≠ .outOfFuel ∧ fieldBuildLoopA dict k f a ≠ .panic := by
  intro k
  induction k with
  | zero => intro f a; simp [fieldBuildLoopA]
  | succ k ih =>
    intro f a
    simp only [fieldBuildLoopA]
    cases lex.nextItemA dict a with
    | none => simp
    | some item =>
      simp only
      cases f.set item with
      | error e => simp
      | ok f2 => exact ih f2 _

theorem buildA_le (dict : List Str) :
    ∀ (n : Nat) (b : boolean) (a : Option Str) (b1 : boolean) (a1 : Option Str),
    buildA dict n b a = .ok (b1, a1) → fuelFor a1 ≤ fuelFor a := by
  intro n
  induction n with
  | zero => intro b a b1 a1 h; cases h
  | succ n ih =>
    intro b a b1 a1 h
    simp only [buildA] at h
    have hle := nextRestA_le dict a
    cases hit : lex.nextItemA dict a with
    | none => rw [hit] at h; cases h; exact hle
    | some item =>
      rw [hit] at h
      obtain ⟨ty, v⟩ := item
      cases ty with
      | ErrorType => cases h
      | ComparatorType => cases h
      | ClosePrecedenceType => cases h; exact hle
      | BooleanType =>
        simp only at h
        split at h
        · cases h
        · exact Nat.le_trans (ih _ _ b1 a1 h) hle
      | OpenPrecedenceType =>
        simp only at h
        cases hn : buildA dict n { operation := [], children := [] } (lex.nextRestA dict a) with
        | error e => rw [hn] at h; cases h
        | panic => rw [hn] at h; cases h
        | outOfFuel => rw [hn] at h; cases h
        | ok res =>
          obtain ⟨nb, a2⟩ := res
          rw [hn] at h
          simp only at h
          exact Nat.le_trans (ih _ _ b1 a1 h) (Nat.le_trans (ih _ _ nb a2 hn) hle)
      | LiteralType =>
        simp only [field.set] at h
        cases hn : fieldBuildLoopA dict 2 { field := [], comp := [], val := v }
            (lex.nextRestA dict a) with
        | error e => rw [hn] at h; cases h
        | panic => rw [hn] at h; cases h
        | outOfFuel => rw [hn] at h; cases h
        | ok res =>
          obtain ⟨nf, a2⟩ := res
          rw [hn] at h
          simp only at h
          exact Nat.le_trans (ih _ _ b1 a1 h)
            (Nat.le_trans (fieldBuildLoopA_le dict 2 _ _ nf a2 hn) hle)
      | FieldType =>
        simp only [field.set] at h
        cases hn : fieldBuildLoopA dict 2 { field := v, comp := [], val := [] }
            (lex.nextRestA dict a) with
        | error e => rw [hn] at h; cases h
        | panic => rw [hn] at h; cases h
        | outOfFuel => rw [hn] at h; cases h
        | ok res =>
          obtain ⟨nf, a2⟩ := res
          rw [hn] at h
          simp only at h
          exact Nat.le_trans (ih _ _ b1 a1 h)
            (Nat.le_trans (fieldBuildLoopA_le dict 2 _ _ nf a2 hn) hle)

theorem fuelFor_pos (a : Option Str) : 0 < fuelFor a := by
  cases a <;> simp [fuelFor]

/-- With fuel for the remaining input, `buildA` returns a tree or an error. -/
theorem buildA_total (dict : List Str) :
    ∀ (n : Nat) (b : boolean) (a : Option Str), fuelFor a ≤ n →
      buildA dict n b a ≠ .outOfFuel ∧ buildA dict n b a ≠ .panic := by
  intro n
  induction n with
  | zero =>
    intro b a h
    have := fuelFor_pos a
    omega
  | succ n ih =>
    intro b a hfuel
    simp only [buildA]
    cases hit : lex.nextItemA dict a with
    | none => simp
    | some item =>
      obtain ⟨ty, v⟩ := item
      cases ty with
      | ErrorType => simp
      | ComparatorType => simp
      | ClosePrecedenceType => simp
      | BooleanType =>
        have hlt := nextRestA_lt dict a _ hit (by simp)
        simp only
        split
        · simp
        · exact ih _ _ (by omega)
      | OpenPrecedenceType =>
        have hlt := nextRestA_lt dict a _ hit (by simp)
        simp only
        have hn0 := ih { operation := [], children := [] } (lex.nextRestA dict a) (by omega)
        cases hn : buildA dict n { operation := [], children := [] } (lex.nextRestA dict a) with
        | error e => simp
        | panic => exact absurd hn hn0.2
        | outOfFuel => exact absurd hn hn0.1
        | ok res =>
          obtain ⟨nb, a2⟩ := res
          simp only
          have := buildA_le dict n _ _ nb a2 hn
          exact ih _ _ (by omega)
      | LiteralType =>
        have hlt := nextRestA_lt dict a _ hit (by simp)
        simp only [field.set]
        have hn0 := fieldBuildLoopA_not_special dict 2 { field := [], comp := [], val := v }
          (lex.nextRestA dict a)
        cases hn : fieldBuildLoopA dict 2 { field := [], comp := [], val := v }
            (lex.nextRestA dict a) with
        | error e => simp
        | panic => exact absurd hn hn0.2
        | outOfFuel => exact absurd hn hn0.1
        | ok res =>
          obtain ⟨nf, a2⟩ := res
          simp only
          have := fieldBuildLoopA_le dict 2 _ _ nf a2 hn
          exact ih _ _ (by omega)
      | FieldType =>
        have hlt := nextRestA_lt dict a _ hit (by simp)
        simp only [field.set]
        have hn0 := fieldBuildLoopA_not_special dict 2 { field := v, comp := [], val := [] }
          (lex.nextRestA dict a)
        cases hn : fieldBuildLoopA dict 2 { field := v, comp := [], val := [] }
            (lex.nextRestA dict a) with
        | error e => simp
        | panic => exact absurd hn hn0.2
        | outOfFuel => exact absurd hn hn0.1
        | ok res =>
          obtain ⟨nf, a2⟩ := res
          simp only
          have := fieldBuildLoopA_le dict 2 _ _ nf a2 hn
          exact ih _ _ (by omega)

/-- The fuel `len(input) + 1` that `buildTree` hands to `boolean.build` never runs out:
`ToSql` returns a result or an error for every input. -/
theorem ToSql_fuel_sufficient (input : Str) (dict : List Str) :
    ToSql input dict ≠ .outOfFuel := by
  rw [ToSql_eq_ToSqlA]
  unfold ToSqlA
  have h := buildA_total dict (input.length + 1) { operation := [], children := [] } (some input)
    (by simp [fuelFor])
  cases hn : buildA dict (input.length + 1) { operation := [], children := [] } (some input) with
  | error e => simp
  | panic => simp
  | outOfFuel => exact absurd hn h.1
  | ok res =>
    obtain ⟨b, a⟩ := res
    simp only
    cases b.toSqler.ToSql with
    | none => simp
    | some p => simp

/-! ### The loop of `NextItem` ends within two rounds -/

namespace lex

theorem lexTextLoop_emits_or_stops :
    ∀ (n : Nat) (l : Lexer), (lexTextLoop n l).1.items ≠ [] ∨ (lexTextLoop n l).2 = none := by
  intro n
  induction n with
  | zero => intro l; exact Or.inr rfl
  | succ n ih =>
    intro l
    simp only [lexTextLoop]
    split
    · exact Or.inr rfl
    · split
      · exact Or.inl (by simp [inOpenPrecedence, Lexer.emit])
      · split
        · exact Or.inl (by simp [inClosePrecedence, Lexer.emit])
        · split
          · exact Or.inl (by simp [inLiteral, Lexer.emit])
          · split
            · refine Or.inl ?_
              simp only [inBoolean]
              split <;> simp [Lexer.errorf, Lexer.emit]
            · split
              · exact Or.inl (by simp [inComp, Lexer.emit])
              · split
                · exact ih _
                · refine Or.inl ?_
                  simp only [inKeyDef]
                  split <;> simp [Lexer.errorf, Lexer.emit]

/-- More rounds than two change nothing: the loop of `NextItem` has returned by then. -/
theorem NextItemLoop_fuel (n : Nat) (l : Lexer) :
    Lexer.NextItemLoop (n + 2) l = Lexer.NextItemLoop 2 l := by
  simp only [Lexer.NextItemLoop]
  cases hi : l.items with
  | cons it rest => rfl
  | nil =>
    simp only
    cases hs : l.state with
    | none => rfl
    | some f =>
      simp only
      cases f
      simp only [stateFunc.run, lexText]
      rcases lexTextLoop_emits_or_stops (l.input.length + 1) l with h | h
      · cases hit : (lexTextLoop (l.input.length + 1) l).1.items with
        | nil => exact absurd hit h
        | cons it rest => cases n <;> simp [Lexer.NextItemLoop, hit]
      · cases n <;> simp [Lexer.NextItemLoop, h]

end lex

/-! ### Boolean operators on known input -/

theorem scan_boolean_start (dict : List Str) (k : Nat) (c : Char) (rest : Str)
    (hc : c = lex.and ∨ c = lex.or) :
    lex.scan dict (List.replicate k lex.space ++ c :: rest) = lex.scanBoolean c rest := by
  rw [scan_spaces]
  have a1 : lex.and ≠ lex.eof := by decide
  have a2 : lex.and ≠ lex.openPrecedence := by decide
  have a3 : lex.and ≠ lex.closePrecedence := by decide
  have a4 : lex.and ≠ lex.quoteLiteral := by decide
  have o1 : lex.or ≠ lex.eof := by decide
  have o2 : lex.or ≠ lex.openPrecedence := by decide
  have o3 : lex.or ≠ lex.closePrecedence := by decide
  have o4 : lex.or ≠ lex.quoteLiteral := by decide
  rcases hc with rfl | rfl
  · simp only [lex.scan, a1, a2, a3, a4, if_false, true_or, if_true]
  · simp only [lex.scan, o1, o2, o3, o4, if_false, or_true, if_true]

/-! ### The code generator does not panic on built trees -/

theorem field_ToSql_isSome (dict : List Str) (f : Funnel.field) (hf : f.Safe dict) :
    ∃ p, f.ToSql = some p := by
  have hlen : ¬ len f.comp > 2 := by
    rcases hf.2 with h | h
    · rw [h]; decide
    · exact comparators_length _ h
  rw [field.ToSql, if_neg hlen]
  exact ⟨_, rfl⟩

mutual
theorem sqler_ToSql_isSome (dict : List Str) : ∀ (t : sqler), t.Safe dict → ∃ p, t.ToSql = some p
  | .ofField f, hs => by
    simp only [sqler.Safe] at hs
    simpa only [sqler.ToSql] using field_ToSql_isSome dict f hs
  | .ofBoolean op cs, hs => by
    simp only [sqler.Safe] at hs
    obtain ⟨p, hp⟩ := childrenLoop_isSome dict op cs 0 "(".toList [] hs.2
    obtain ⟨s, a⟩ := p
    simp only [sqler.ToSql, hp]
    exact ⟨_, rfl⟩
theorem childrenLoop_isSome (dict : List Str) (op : BoolOp) :
    ∀ (cs : List sqler) (i : Nat) (sql : Str) (args : List Str),
    sqler.SafeList dict cs → ∃ p, sqler.childrenLoop op cs i sql args = some p
  | [], i, sql, args, _ => by
    simp only [sqler.childrenLoop]
    exact ⟨_, rfl⟩
  | c :: cs, i, sql, args, hs => by
    simp only [sqler.SafeList] at hs
    obtain ⟨p, hp⟩ := sqler_ToSql_isSome dict c hs.1
    obtain ⟨s, a⟩ := p
    obtain ⟨q, hq⟩ := childrenLoop_isSome dict op cs (i + 1)
      (if i > 0 then sql ++ " ".toList ++ op ++ " ".toList ++ s else sql ++ " ".toList ++ s)
      (args ++ a) hs.2
    simp only [sqler.childrenLoop, hp, hq]
    exact ⟨_, rfl⟩
end

theorem ToSql_no_panic (input : Str) (dict : List Str) : ToSql input dict ≠ .panic := by
  rw [ToSql_eq_ToSqlA]
  unfold ToSqlA
  have h := buildA_total dict (input.length + 1) { operation := [], children := [] } (some input)
    (by simp [fuelFor])
  cases hn : buildA dict (input.length + 1) { operation := [], children := [] } (some input) with
  | error e => simp
  | panic => exact absurd hn h.2
  | outOfFuel => simp
  | ok res =>
    obtain ⟨b, a⟩ := res
    have hsafe := buildA_safe dict _ _ _ b a
      (by simp [boolean.toSqler, sqler.Safe, sqler.SafeList]) hn
    obtain ⟨p, hp⟩ := sqler_ToSql_isSome dict _ hsafe
    obtain ⟨s, a⟩ := p
    simp only [hp]
    simp

/-! ### The sequence of items -/

theorem afterCalls_restAfter (input : Str) (dict : List Str) :
    ∀ k, lex.Rel ((lex.NewLexer input dict).afterCalls k) (restAfter dict (some input) k) ∧
      ((lex.NewLexer input dict).afterCalls k).dict = dict ∧
      ((lex.NewLexer input dict).afterCalls k).input = input := by
  intro k
  induction k with
  | zero => exact ⟨lex.NewLexer_Rel input dict, rfl, rfl⟩
  | succ k ih =>
    obtain ⟨ha, hd, hin⟩ := ih
    obtain ⟨_, h2, h3, h4⟩ := lex.NextItem_spec _ _ ha
    rw [hd] at h2
    exact ⟨h2, by rw [lex.Lexer.afterCalls, h4, hd], by rw [lex.Lexer.afterCalls, h3, hin]⟩

/-- The item returned by call `k + 1` of `NextItem`, on the remaining input. -/
theorem item_eq (input : Str) (dict : List Str) (k : Nat) :
    (((lex.NewLexer input dict).afterCalls k).NextItem).1 =
      lex.nextItemA dict (restAfter dict (some input) k) := by
  obtain ⟨ha, hd, _⟩ := afterCalls_restAfter input dict k
  obtain ⟨h1, _⟩ := lex.NextItem_spec _ _ ha
  rw [h1, hd]

theorem restAfter_shift (dict : List Str) (a : Option Str) :
    ∀ k, restAfter dict a (k + 1) = restAfter dict (lex.nextRestA dict a) k
  | 0 => rfl
  | k + 1 => by
    have ih := restAfter_shift dict a k
    simp only [restAfter] at ih ⊢
    rw [ih]

theorem restAfter_none (dict : List Str) : ∀ k, restAfter dict none k = none
  | 0 => rfl
  | k + 1 => by
    simp only [restAfter, restAfter_none dict k]
    rfl

theorem restAfter_add (dict : List Str) (a : Option Str) (j : Nat) :
    ∀ k, restAfter dict (restAfter dict a j) k = restAfter dict a (j + k)
  | 0 => rfl
  | k + 1 => by
    have ih := restAfter_add dict a j k
    show lex.nextRestA dict (restAfter dict (restAfter dict a j) k) =
      lex.nextRestA dict (restAfter dict a (j + k))
    rw [ih]

namespace lex

theorem scan_tok_not_error (dict : List Str) :
    ∀ (rest : Str) (it : Item) (r : Str), scan dict rest = .tok it r →
      it.Typ ≠ ItemType.ErrorType := by
  intro rest
  induction rest with
  | nil => intro it r h; simp [scan] at h
  | cons c cs ih =>
    intro it r h
    simp only [scan] at h
    split at h
    · cases h
    · split at h
      · cases h; simp
      · split at h
        · cases h; simp
        · split at h
          · unfold scanLiteral at h
            split at h <;> cases h <;> simp
          · split at h
            · unfold scanBoolean at h
              split at h
              · cases h
              · cases h; simp
            · split at h
              · unfold scanComp at h
                split at h <;> cases h <;> simp
              · split at h
                · exact ih it r h
                · unfold scanKeyDef at h
                  split at h
                  · cases h; simp
                  · cases h

end lex

theorem items_finite (dict : List Str) :
    ∀ (m : Nat) (a : Option Str), fuelFor a ≤ m + 1 →
      ∃ n, n + 1 ≤ fuelFor a ∧
        (∀ k, k < n → ∃ it, lex.nextItemA dict (restAfter dict a k) = some it ∧
          (it.Typ = lex.ItemType.ErrorType → k + 1 = n)) ∧
        (∀ k, n ≤ k → lex.nextItemA dict (restAfter dict a k) = none) := by
  intro m
  induction m with
  | zero =>
    intro a hm
    refine ⟨0, by have := fuelFor_pos a; omega, by intro k hk; omega, ?_⟩
    intro k _
    cases a with
    | none => rw [restAfter_none]; rfl
    | some r =>
      simp only [fuelFor] at hm
      have hr : r = [] := List.length_eq_zero.1 (by omega)
      subst hr
      cases k with
      | zero => simp [restAfter, lex.nextItemA, lex.scan]
      | succ k =>
        rw [restAfter_shift]
        simp only [lex.nextRestA, lex.scan, restAfter_none]
        rfl
  | succ m ih =>
    intro a hm
    cases a with
    | none =>
      refine ⟨0, by simp [fuelFor], by intro k hk; omega, ?_⟩
      intro k _
      rw [restAfter_none]; rfl
    | some r =>
      cases hs : lex.scan dict r with
      | done =>
        refine ⟨0, by simp [fuelFor], by intro k hk; omega, ?_⟩
        intro k _
        cases k with
        | zero => simp [restAfter, lex.nextItemA, hs]
        | succ k =>
          rw [restAfter_shift]
          simp only [lex.nextRestA, hs, restAfter_none]
          rfl
      | fail it =>
        have hne : r ≠ [] := by
          intro h
          rw [h] at hs
          simp [lex.scan] at hs
        have hpos : 0 < r.length := List.length_pos.2 hne
        refine ⟨1, by simp only [fuelFor]; omega, ?_, ?_⟩
        · intro k hk
          have hk0 : k = 0 := by omega
          subst hk0
          exact ⟨it, by simp [restAfter, lex.nextItemA, hs], fun _ => rfl⟩
        · intro k hk
          obtain ⟨j, rfl⟩ : ∃ j, k = j + 1 := ⟨k - 1, by omega⟩
          rw [restAfter_shift]
          simp only [lex.nextRestA, hs, restAfter_none]
          rfl
      | tok it r1 =>
        have hlt := lex.scan_shrinks dict r it r1 hs
        simp only [fuelFor] at hm
        obtain ⟨n1, hn1, hsome, hnone⟩ := ih (some r1) (by simp only [fuelFor]; omega)
        simp only [fuelFor] at hn1
        refine ⟨n1 + 1, by simp only [fuelFor]; omega, ?_, ?_⟩
        · intro k hk
          cases k with
          | zero =>
            exact ⟨it, by simp [restAfter, lex.nextItemA, hs],
              fun h => absurd h (lex.scan_tok_not_error dict r it r1 hs)⟩
          | succ k =>
            rw [restAfter_shift]
            simp only [lex.nextRestA, hs]
            obtain ⟨it1, h1, h2⟩ := hsome k (by omega)
            exact ⟨it1, h1, fun h => by have := h2 h; omega⟩
        · intro k hk
          obtain ⟨j, rfl⟩ : ∃ j, k = j + 1 := ⟨k - 1, by omega⟩
          rw [restAfter_shift]
          simp only [lex.nextRestA, hs]
          exact hnone j (by omega)

theorem length_le_len : ∀ s : Str, s.length ≤ len s
  | [] => Nat.le_refl _
  | c :: cs => by
    have ih := length_le_len cs
    have := Char.utf8Size_pos c
    simp only [len, List.map_cons, List.sum_cons, List.length_cons] at ih ⊢
    omega

/-! ### The placeholder rewriter -/

theorem replaceLoop_segments :
    ∀ (text : Str) (i : Nat), ∃ (segs : List Str) (last : Str),
      (∀ s ∈ segs, placeholder ∉ s) ∧ placeholder ∉ last ∧
      segs.length = text.count placeholder ∧ text = withPlaceholders segs last ∧
      squirrel.replaceLoop "$".toList i text = withDollars i segs last := by
  intro text
  induction text with
  | nil =>
    intro i
    exact ⟨[], [], by simp, by simp, by simp, by simp [withPlaceholders],
      by simp [squirrel.replaceLoop, withDollars]⟩
  | cons c cs ih =>
    intro i
    by_cases hc : c = placeholder
    · obtain ⟨segs, last, h1, h2, h3, h4, h5⟩ := ih (i + 1)
      refine ⟨[] :: segs, last, ?_, h2, ?_, ?_, ?_⟩
      · intro s hs
        rcases List.mem_cons.1 hs with rfl | hs
        · simp
        · exact h1 s hs
      · simp [hc, h3]
      · rw [hc, h4]
        simp [withPlaceholders]
      · simp only [squirrel.replaceLoop, hc, if_true, h5, withDollars, List.nil_append]
    · obtain ⟨segs, last, h1, h2, h3, h4, h5⟩ := ih i
      have hcount : (c :: cs).count placeholder = cs.count placeholder := by
        rw [List.count_cons]
        simp [hc]
      cases segs with
      | nil =>
        refine ⟨[], c :: last, by simp, ?_, by rw [hcount, ← h3], ?_, ?_⟩
        · intro hm
          rcases List.mem_cons.1 hm with h | h
          · exact hc h.symm
          · exact h2 h
        · rw [h4]; simp [withPlaceholders]
        · simp only [squirrel.replaceLoop, hc, if_false, h5, withDollars]
      | cons s ss =>
        refine ⟨(c :: s) :: ss, last, ?_, h2, by rw [hcount, ← h3]; simp, ?_, ?_⟩
        · intro t ht
          rcases List.mem_cons.1 ht with rfl | ht
          · intro hm
            rcases List.mem_cons.1 hm with h | h
            · exact hc h.symm
            · exact h1 s (List.mem_cons_self _ _) h
          · exact h1 t (List.mem_cons_of_mem _ ht)
        · rw [h4]; simp [withPlaceholders]
        · simp only [squirrel.replaceLoop, hc, if_false, h5, withDollars, List.cons_append]

/-! ### Mixed operators at one level -/

theorem ToSql_mixed (dict : List Str) (p1 p2 p3 : Pred) (h1 : p1.ok dict) (h2 : p2.ok dict)
    (h3 : p3.ok dict) (c1 c2 : Char) (op : BoolOp)
    (hb : ∀ (n : Nat) (b : boolean) (r : Str),
      buildA dict (n + 1) b (some (c2 :: c2 :: r)) = buildA dict n { b with operation := op } (some r))
    (ha : ∃ op1, ∀ (n : Nat) (b : boolean) (r : Str),
      buildA dict (n + 1) b (some (c1 :: c1 :: r)) =
        buildA dict n { b with operation := op1 } (some r)) :
    ToSql (p1.text ++ [lex.space, c1, c1, lex.space] ++ p2.text ++ [lex.space, c2, c2, lex.space] ++
        p3.text) dict =
      .ok ("( ".toList ++ p1.sql ++ " ".toList ++ op ++ " ".toList ++ p2.sql ++ " ".toList ++ op ++
        " ".toList ++ p3.sql ++ " )".toList, [p1.v, p2.v, p3.v]) := by
  have hin : p1.text ++ [lex.space, c1, c1, lex.space] ++ p2.text ++
      [lex.space, c2, c2, lex.space] ++ p3.text =
      p1.text ++ (lex.space :: c1 :: c1 :: lex.space ::
        (p2.text ++ (lex.space :: c2 :: c2 :: lex.space :: (p3.text ++ [])))) := by
    simp only [List.append_assoc, List.cons_append, List.nil_append, List.append_nil]
  obtain ⟨m, hm⟩ : ∃ m, (p1.text ++ [lex.space, c1, c1, lex.space] ++ p2.text ++
      [lex.space, c2, c2, lex.space] ++ p3.text).length + 1 = m + 1 + 1 + 1 + 1 + 1 + 1 := by
    refine ⟨(p1.text ++ [lex.space, c1, c1, lex.space] ++ p2.text ++
      [lex.space, c2, c2, lex.space] ++ p3.text).length - 5, ?_⟩
    simp only [List.length_append, List.length_cons, List.length_nil]
    omega
  rw [ToSql_eq_ToSqlA]
  unfold ToSqlA
  rw [hm, hin]
  obtain ⟨op1, hop1⟩ := ha
  rw [buildA_pred dict _ _ p1 _ h1 (endsIdent_space _), buildA_space]
  rw [hop1, buildA_space, buildA_pred dict _ _ p2 _ h2 (endsIdent_space _), buildA_space, hb,
    buildA_space, buildA_pred dict _ _ p3 _ h3 (by decide)]
  simp only [buildA_end]
  have l1 : ¬ len p1.c > 2 := comparators_length _ h1.2.2.1
  have l2 : ¬ len p2.c > 2 := comparators_length _ h2.2.2.1
  have l3 : ¬ len p3.c > 2 := comparators_length _ h3.2.2.1
  simp [boolean.toSqler, sqler.ToSql, sqler.childrenLoop, field.ToSql, l1, l2, l3, Pred.sql]

/-! ### The items a predicate node is built from -/

theorem field_set_ok (f f1 : Funnel.field) (it : lex.Item) (h : f.set it = .ok f1) :
    predKind it.Typ = true ∧ f1 = f.put it := by
  obtain ⟨ty, v⟩ := it
  cases ty <;> simp only [field.set] at h <;> cases h <;> exact ⟨rfl, rfl⟩

theorem field_set_bad (f : Funnel.field) (it : lex.Item) (h : predKind it.Typ = false) :
    ∃ e, f.set it = .error e := by
  obtain ⟨ty, v⟩ := it
  cases ty <;> first | exact ⟨_, rfl⟩ | (simp [predKind] at h)

theorem fieldBuildLoopA_rest (dict : List Str) :
    ∀ (k : Nat) (f : Funnel.field) (a : Option Str) (f1 : Funnel.field) (a1 : Option Str),
    fieldBuildLoopA dict k f a = .ok (f1, a1) → a1 = restAfter dict a k := by
  intro k
  induction k with
  | zero =>
    intro f a f1 a1 h
    simp only [fieldBuildLoopA] at h
    cases h
    rfl
  | succ k ih =>
    intro f a f1 a1 h
    simp only [fieldBuildLoopA] at h
    cases hit : lex.nextItemA dict a with
    | none => rw [hit] at h; cases h
    | some item =>
      rw [hit] at h
      simp only at h
      cases hset : f.set item with
      | error e => rw [hset] at h; cases h
      | ok f2 =>
        rw [hset] at h
        rw [restAfter_shift]
        exact ih f2 _ f1 a1 h

theorem fieldBuildLoopA_two (dict : List Str) (f f1 : Funnel.field) (a a1 : Option Str)
    (h : fieldBuildLoopA dict 2 f a = .ok (f1, a1)) :
    ∃ it2 it3, lex.nextItemA dict a = some it2 ∧
      lex.nextItemA dict (lex.nextRestA dict a) = some it3 ∧
      predKind it2.Typ = true ∧ predKind it3.Typ = true ∧ f1 = (f.put it2).put it3 ∧
      a1 = lex.nextRestA dict (lex.nextRestA dict a) := by
  simp only [fieldBuildLoopA] at h
  cases hit : lex.nextItemA dict a with
  | none => rw [hit] at h; cases h
  | some it2 =>
    rw [hit] at h
    simp only at h
    cases hset : f.set it2 with
    | error e => rw [hset] at h; cases h
    | ok f2 =>
      rw [hset] at h
      simp only at h
      obtain ⟨hk2, hf2⟩ := field_set_ok f f2 it2 hset
      cases hit3 : lex.nextItemA dict (lex.nextRestA dict a) with
      | none => rw [hit3] at h; cases h
      | some it3 =>
        rw [hit3] at h
        simp only at h
        cases hset3 : f2.set it3 with
        | error e => rw [hset3] at h; cases h
        | ok f3 =>
          rw [hset3] at h
          simp only at h
          obtain ⟨hk3, hf3⟩ := field_set_ok f2 f3 it3 hset3
          cases h
          exact ⟨it2, it3, rfl, rfl, hk2, hk3, by rw [hf3, hf2], rfl⟩

theorem buildA_rest (dict : List Str) :
    ∀ (n : Nat) (b : boolean) (a : Option Str) (b1 : boolean) (a1 : Option Str),
    buildA dict n b a = .ok (b1, a1) → ∃ j, a1 = restAfter dict a j := by
  intro n
  induction n with
  | zero => intro b a b1 a1 h; cases h
  | succ n ih =>
    intro b a b1 a1 h
    simp only [buildA] at h
    cases hit : lex.nextItemA dict a with
    | none => rw [hit] at h; cases h; exact ⟨1, rfl⟩
    | some item =>
      rw [hit] at h
      obtain ⟨ty, v⟩ := item
      cases ty with
      | ErrorType => cases h
      | ComparatorType => cases h
      | ClosePrecedenceType => cases h; exact ⟨1, rfl⟩
      | BooleanType =>
        simp only at h
        split at h
        · cases h
        · obtain ⟨j, hj⟩ := ih _ _ b1 a1 h
          exact ⟨1 + j, by rw [hj]; exact restAfter_add dict a 1 j⟩
      | OpenPrecedenceType =>
        simp only at h
        cases hn : buildA dict n { operation := [], children := [] } (lex.nextRestA dict a) with
        | error e => rw [hn] at h; cases h
        | panic => rw [hn] at h; cases h
        | outOfFuel => rw [hn] at h; cases h
        | ok res =>
          obtain ⟨nb, a2⟩ := res
          rw [hn] at h
          simp only at h
          obtain ⟨j2, hj2⟩ := ih _ _ nb a2 hn
          obtain ⟨j3, hj3⟩ := ih _ _ b1 a1 h
          refine ⟨1 + j2 + j3, ?_⟩
          rw [hj3, hj2]
          have e1 : restAfter dict (lex.nextRestA dict a) j2 = restAfter dict a (1 + j2) :=
            restAfter_add dict a 1 j2
          rw [e1]
          exact restAfter_add dict a (1 + j2) j3
      | LiteralType =>
        simp only [field.set] at h
        cases hn : fieldBuildLoopA dict 2 { field := [], comp := [], val := v }
            (lex.nextRestA dict a) with
        | error e => rw [hn] at h; cases h
        | panic => rw [hn] at h; cases h
        | outOfFuel => rw [hn] at h; cases h
        | ok res =>
          obtain ⟨nf, a2⟩ := res
          rw [hn] at h
          simp only at h
          have hj2 := fieldBuildLoopA_rest dict 2 _ _ nf a2 hn
          obtain ⟨j3, hj3⟩ := ih _ _ b1 a1 h
          refine ⟨1 + 2 + j3, ?_⟩
          rw [hj3, hj2]
          have e1 : restAfter dict (lex.nextRestA dict a) 2 = restAfter dict a (1 + 2) :=
            restAfter_add dict a 1 2
          rw [e1]
          exact restAfter_add dict a (1 + 2) j3
      | FieldType =>
        simp only [field.set] at h
        cases hn : fieldBuildLoopA dict 2 { field := v, comp := [], val := [] }
            (lex.nextRestA dict a) with
        | error e => rw [hn] at h; cases h
        | panic => rw [hn] at h; cases h
        | outOfFuel => rw [hn] at h; cases h
        | ok res =>
          obtain ⟨nf, a2⟩ := res
          rw [hn] at h
          simp only at h
          have hj2 := fieldBuildLoopA_rest dict 2 _ _ nf a2 hn
          obtain ⟨j3, hj3⟩ := ih _ _ b1 a1 h
          refine ⟨1 + 2 + j3, ?_⟩
          rw [hj3, hj2]
          have e1 : restAfter dict (lex.nextRestA dict a) 2 = restAfter dict a (1 + 2) :=
            restAfter_add dict a 1 2
          rw [e1]
          exact restAfter_add dict a (1 + 2) j3

theorem FromRunsList_append (input : Str) (dict : List Str) (c : sqler) :
    ∀ cs : List sqler, sqler.FromRunsList input dict cs → c.FromRuns input dict →
      sqler.FromRunsList input dict (cs ++ [c])
  | [], _, hc => by simp only [List.nil_append, sqler.FromRunsList]; exact ⟨hc, trivial⟩
  | d :: ds, hs, hc => by
    simp only [sqler.FromRunsList] at hs
    simp only [List.cons_append, sqler.FromRunsList]
    exact ⟨hs.1, FromRunsList_append input dict c ds hs.2 hc⟩

theorem itemAt_eq (input : Str) (dict : List Str) (k : Nat) :
    itemAt input dict k = lex.nextItemA dict (restAfter dict (some input) k) :=
  item_eq input dict k

theorem buildA_fromRuns (input : Str) (dict : List Str) :
    ∀ (n : Nat) (b : boolean) (j : Nat) (b1 : boolean) (a1 : Option Str),
    buildA dict n b (restAfter dict (some input) j) = .ok (b1, a1) →
    sqler.FromRunsList input dict b.children → sqler.FromRunsList input dict b1.children := by
  intro n
  induction n with
  | zero => intro b j b1 a1 h; cases h
  | succ n ih =>
    intro b j b1 a1 h hs
    simp only [buildA] at h
    cases hit : lex.nextItemA dict (restAfter dict (some input) j) with
    | none => rw [hit] at h; cases h; exact hs
    | some item =>
      rw [hit] at h
      obtain ⟨ty, v⟩ := item
      cases ty with
      | ErrorType => cases h
      | ComparatorType => cases h
      | ClosePrecedenceType => cases h; exact hs
      | BooleanType =>
        simp only at h
        split at h
        · cases h
        · exact ih _ (j + 1) b1 a1 h hs
      | OpenPrecedenceType =>
        simp only at h
        cases hn : buildA dict n { operation := [], children := [] }
            (lex.nextRestA dict (restAfter dict (some input) j)) with
        | error e => rw [hn] at h; cases h
        | panic => rw [hn] at h; cases h
        | outOfFuel => rw [hn] at h; cases h
        | ok res =>
          obtain ⟨nb, a2⟩ := res
          rw [hn] at h
          simp only at h
          have hnb := ih _ (j + 1) nb a2 hn (by simp only [sqler.FromRunsList])
          obtain ⟨j2, hj2⟩ := buildA_rest dict n _ _ nb a2 hn
          have e : a2 = restAfter dict (some input) (j + 1 + j2) := by
            rw [hj2]; exact restAfter_add dict (some input) (j + 1) j2
          rw [e] at h
          refine ih _ _ b1 a1 h ?_
          exact FromRunsList_append input dict _ _ hs
            (by simpa only [boolean.toSqler, sqler.FromRuns] using hnb)
      | LiteralType =>
        simp only [field.set] at h
        cases hn : fieldBuildLoopA dict 2 { field := [], comp := [], val := v }
            (lex.nextRestA dict (restAfter dict (some input) j)) with
        | error e => rw [hn] at h; cases h
        | panic => rw [hn] at h; cases h
        | outOfFuel => rw [hn] at h; cases h
        | ok res =>
          obtain ⟨nf, a2⟩ := res
          rw [hn] at h
          simp only at h
          obtain ⟨it2, it3, h2, h3, k2, k3, hf, ha2⟩ := fieldBuildLoopA_two dict _ nf _ a2 hn
          have e : a2 = restAfter dict (some input) (j + 3) := ha2
          rw [e] at h
          refine ih _ _ b1 a1 h ?_
          refine FromRunsList_append input dict _ _ hs ?_
          simp only [sqler.FromRuns]
          exact ⟨j, ⟨lex.ItemType.LiteralType, v⟩, it2, it3, by rw [itemAt_eq, hit],
            by rw [itemAt_eq]; exact h2, by rw [itemAt_eq]; exact h3, Or.inr rfl, k2, k3, hf⟩
      | FieldType =>
        simp only [field.set] at h
        cases hn : fieldBuildLoopA dict 2 { field := v, comp := [], val := [] }
            (lex.nextRestA dict (restAfter dict (some input) j)) with
        | error e => rw [hn] at h; cases h
        | panic => rw [hn] at h; cases h
        | outOfFuel => rw [hn] at h; cases h
        | ok res =>
          obtain ⟨nf, a2⟩ := res
          rw [hn] at h
          simp only at h
          obtain ⟨it2, it3, h2, h3, k2, k3, hf, ha2⟩ := fieldBuildLoopA_two dict _ nf _ a2 hn
          have e : a2 = restAfter dict (some input) (j + 3) := ha2
          rw [e] at h
          refine ih _ _ b1 a1 h ?_
          refine FromRunsList_append input dict _ _ hs ?_
          simp only [sqler.FromRuns]
          exact ⟨j, ⟨lex.ItemType.FieldType, v⟩, it2, it3, by rw [itemAt_eq, hit],
            by rw [itemAt_eq]; exact h2, by rw [itemAt_eq]; exact h3, Or.inl rfl, k2, k3, hf⟩

/-- The tree of a successful `buildTree` is the one built on the remaining input. -/
theorem buildTree_ok_buildA (input : Str) (dict : List Str) (r : root)
    (h : buildTree (lex.NewLexer input dict) = .ok r) :
    ∃ b a, buildA dict (input.length + 1) { operation := [], children := [] } (some input) =
      .ok (b, a) ∧ r.sqler = b.toSqler := by
  have href := build_refines (input.length + 1) { operation := [], children := [] }
    (lex.NewLexer input dict) (some input) (lex.NewLexer_Rel input dict)
  have hd : (lex.NewLexer input dict).dict = dict := rfl
  have hin : (lex.NewLexer input dict).input = input := rfl
  rw [hd, hin] at href
  unfold buildTree at h
  rw [hin] at h
  rcases href with ⟨b2, l2, a3, hx, hy, _, _, _⟩ | ⟨e, hx, _⟩ | ⟨hx, _⟩ | ⟨hx, _⟩
  · rw [hx] at h
    cases h
    exact ⟨b2, a3, hy, rfl⟩
  · rw [hx] at h; cases h
  · rw [hx] at h; cases h
  · rw [hx] at h; cases h

theorem build_pred_error (n : Nat) (b : boolean) (l : lex.Lexer) (it1 : lex.Item)
    (h1 : (l.NextItem).1 = some it1)
    (hk : it1.Typ = lex.ItemType.FieldType ∨ it1.Typ = lex.ItemType.LiteralType)
    (hbad : (badItem ((l.NextItem).2.NextItem).1 ||
      badItem (((l.NextItem).2.NextItem).2.NextItem).1) = true) :
    ∃ e, boolean.build (n + 1) b l = .error e := by
  obtain ⟨ty, v⟩ := it1
  simp only [boolean.build, h1]
  have key : ∀ f : Funnel.field, ∃ e, field.build f (l.NextItem).2 = .error e := by
    intro f
    simp only [field.build, field.buildLoop]
    cases h2 : ((l.NextItem).2.NextItem).1 with
    | none => exact ⟨_, rfl⟩
    | some it2 =>
      simp only
      cases hs2 : f.set it2 with
      | error e => exact ⟨_, rfl⟩
      | ok f2 =>
        simp only
        have hk2 := (field_set_ok f f2 it2 hs2).1
        cases h3 : (((l.NextItem).2.NextItem).2.NextItem).1 with
        | none => exact ⟨_, rfl⟩
        | some it3 =>
          simp only
          cases hs3 : f2.set it3 with
          | error e => exact ⟨_, rfl⟩
          | ok f3 =>
            have hk3 := (field_set_ok f2 f3 it3 hs3).1
            rw [h2, h3] at hbad
            simp [badItem, hk2, hk3] at hbad
  rcases hk with hk | hk
  · simp only at hk
    subst hk
    simp only [field.set]
    obtain ⟨e, he⟩ := key { field := v, comp := [], val := [] }
    rw [he]
    exact ⟨_, rfl⟩
  · simp only at hk
    subst hk
    simp only [field.set]
    obtain ⟨e, he⟩ := key { field := [], comp := [], val := v }
    rw [he]
    exact ⟨_, rfl⟩

/-! ### Boolean nodes without children -/

theorem NonEmptyList_append (c : sqler) :
    ∀ cs : List sqler, sqler.NonEmptyList cs → c.NonEmpty → sqler.NonEmptyList (cs ++ [c])
  | [], _, hc => by simp only [List.nil_append, sqler.NonEmptyList]; exact ⟨hc, trivial⟩
  | d :: ds, hs, hc => by
    simp only [sqler.NonEmptyList] at hs
    simp only [List.cons_append, sqler.NonEmptyList]
    exact ⟨hs.1, NonEmptyList_append c ds hs.2 hc⟩

theorem startsChildFrom_cases (input : Str) (dict : List Str) (m k : Nat)
    (h : startsChildFrom input dict m k = true) :
    opensChild (itemAt input dict k) = true ∨
      (isBooleanItem (itemAt input dict k) = true ∧
        ∃ m1, startsChildFrom input dict m1 (k + 1) = true) := by
  cases m with
  | zero => simp [startsChildFrom] at h
  | succ m =>
    simp only [startsChildFrom, Bool.or_eq_true, Bool.and_eq_true] at h
    rcases h with h | h
    · exact Or.inl h
    · exact Or.inr ⟨h.1, m, h.2⟩

theorem buildA_nonEmpty (input : Str) (dict : List Str)
    (H1 : ∀ k, isOpenItem (itemAt input dict k) = true →
      ∃ m, startsChildFrom input dict m (k + 1) = true) :
    ∀ (n : Nat) (b : boolean) (j : Nat) (b1 : boolean) (a1 : Option Str),
    buildA dict n b (restAfter dict (some input) j) = .ok (b1, a1) →
    (b.children ≠ [] ∨ ∃ m, startsChildFrom input dict m j = true) →
    sqler.NonEmptyList b.children →
    b1.children ≠ [] ∧ sqler.NonEmptyList b1.children := by
  intro n
  induction n with
  | zero => intro b j b1 a1 h; cases h
  | succ n ih =>
    intro b j b1 a1 h hstart hs
    simp only [buildA] at h
    have hitem := itemAt_eq input dict j
    cases hit : lex.nextItemA dict (restAfter dict (some input) j) with
    | none =>
      rw [hit] at h hitem
      cases h
      refine ⟨?_, hs⟩
      rcases hstart with hc | ⟨m, hm⟩
      · exact hc
      · rcases startsChildFrom_cases input dict m j hm with h1 | ⟨h1, _⟩
        · rw [hitem] at h1; simp [opensChild] at h1
        · rw [hitem] at h1; simp [isBooleanItem] at h1
    | some item =>
      rw [hit] at h hitem
      obtain ⟨ty, v⟩ := item
      cases ty with
      | ErrorType => cases h
      | ComparatorType => cases h
      | ClosePrecedenceType =>
        cases h
        refine ⟨?_, hs⟩
        rcases hstart with hc | ⟨m, hm⟩
        · exact hc
        · rcases startsChildFrom_cases input dict m j hm with h1 | ⟨h1, _⟩
          · rw [hitem] at h1; simp [opensChild] at h1
          · rw [hitem] at h1; simp [isBooleanItem] at h1
      | BooleanType =>
        simp only at h
        split at h
        · cases h
        · refine ih _ (j + 1) b1 a1 h ?_ hs
          rcases hstart with hc | ⟨m, hm⟩
          · exact Or.inl hc
          · rcases startsChildFrom_cases input dict m j hm with h1 | ⟨_, h2⟩
            · rw [hitem] at h1; simp [opensChild] at h1
            · exact Or.inr h2
      | OpenPrecedenceType =>
        simp only at h
        cases hn : buildA dict n { operation := [], children := [] }
            (lex.nextRestA dict (restAfter dict (some input) j)) with
        | error e => rw [hn] at h; cases h
        | panic => rw [hn] at h; cases h
        | outOfFuel => rw [hn] at h; cases h
        | ok res =>
          obtain ⟨nb, a2⟩ := res
          rw [hn] at h
          simp only at h
          have hopen : isOpenItem (itemAt input dict j) = true := by
            rw [hitem]; simp [isOpenItem]
          have hnb := ih _ (j + 1) nb a2 hn (Or.inr (H1 j hopen))
            (by simp only [sqler.NonEmptyList])
          obtain ⟨j2, hj2⟩ := buildA_rest dict n _ _ nb a2 hn
          have e : a2 = restAfter dict (some input) (j + 1 + j2) := by
            rw [hj2]; exact restAfter_add dict (some input) (j + 1) j2
          rw [e] at h
          refine ih _ _ b1 a1 h (Or.inl (by simp)) ?_
          exact NonEmptyList_append _ _ hs
            (by simpa only [boolean.toSqler, sqler.NonEmpty] using hnb)
      | LiteralType =>
        simp only [field.set] at h
        cases hn : fieldBuildLoopA dict 2 { field := [], comp := [], val := v }
            (lex.nextRestA dict (restAfter dict (some input) j)) with
        | error e => rw [hn] at h; cases h
        | panic => rw [hn] at h; cases h
        | outOfFuel => rw [hn] at h; cases h
        | ok res =>
          obtain ⟨nf, a2⟩ := res
          rw [hn] at h
          simp only at h
          have e : a2 = restAfter dict (some input) (j + 3) :=
            fieldBuildLoopA_rest dict 2 _ _ nf a2 hn
          rw [e] at h
          refine ih _ _ b1 a1 h (Or.inl (by simp)) ?_
          exact NonEmptyList_append _ _ hs (by simp only [sqler.NonEmpty])
      | FieldType =>
        simp only [field.set] at h
        cases hn : fieldBuildLoopA dict 2 { field := v, comp := [], val := [] }
            (lex.nextRestA dict (restAfter dict (some input) j)) with
        | error e => rw [hn] at h; cases h
        | panic => rw [hn] at h; cases h
        | outOfFuel => rw [hn] at h; cases h
        | ok res =>
          obtain ⟨nf, a2⟩ := res
          rw [hn] at h
          simp only at h
          have e : a2 = restAfter dict (some input) (j + 3) :=
            fieldBuildLoopA_rest dict 2 _ _ nf a2 hn
          rw [e] at h
          refine ih _ _ b1 a1 h (Or.inl (by simp)) ?_
          exact NonEmptyList_append _ _ hs (by simp only [sqler.NonEmpty])

theorem itemAt_some_lt (input : Str) (dict : List Str) (k : Nat) (it : lex.Item)
    (h : itemAt input dict k = some it) : k < input.length := by
  obtain ⟨n, hn, _, hnone⟩ := items_finite dict input.length (some input) (by simp [fuelFor])
  simp only [fuelFor] at hn
  by_contra hk
  have := hnone k (by omega)
  rw [itemAt_eq, this] at h
  cases h

/-! ### A closing parenthesis after the input -/

theorem litClosed_eq (l : lex.Lexer) (a : Option Str) (h : lex.Rel l a) :
    l.litClosed = litClosedA a := by
  cases a with
  | none =>
    have hs : l.state = none := h.2
    simp only [lex.Lexer.litClosed, hs, litClosedA]
  | some x =>
    have hs : l.state = some lex.stateFunc.lexText := h.2.1
    have hx : l.input.drop l.position = x := h.2.2.2
    simp only [lex.Lexer.litClosed, hs, hx, litClosedA]

theorem closedFrom_eq :
    ∀ (n d : Nat) (l : lex.Lexer) (a : Option Str), lex.Rel l a →
      l.closedFrom n d = closedA l.dict n d a := by
  intro n
  induction n with
  | zero => intro d l a _; rfl
  | succ n ih =>
    intro d l a h
    obtain ⟨h1, h2, _, h4⟩ := lex.NextItem_spec l a h
    have e1 := ih (d + 1) _ _ h2
    have e2 := ih (d - 1) _ _ h2
    have e3 := ih d _ _ h2
    rw [h4] at e1 e2 e3
    simp only [lex.Lexer.closedFrom, closedA, litClosed_eq l a h, h1, e1, e2, e3]

theorem takeWhile_append_blocked {α : Type} (q : α → Bool) (c0 : α) (r : List α)
    (hq : q c0 = false) :
    ∀ cs : List α, (cs ++ c0 :: r).takeWhile q = cs.takeWhile q ∧
      (cs ++ c0 :: r).dropWhile q = cs.dropWhile q ++ c0 :: r
  | [] => by simp [List.takeWhile_cons, List.dropWhile_cons, hq]
  | c :: cs => by
    have ih := takeWhile_append_blocked q c0 r hq cs
    simp only [List.cons_append, List.takeWhile_cons, List.dropWhile_cons]
    cases hc : q c with
    | true => simp only [if_true, ih.1, ih.2, and_self]
    | false => simp

theorem dropWhile_append_stop {α : Type} (q : α → Bool) (s : List α) :
    ∀ cs : List α, cs.any (fun d => !q d) = true →
      ∃ d r1, cs.dropWhile q = d :: r1 ∧ (cs ++ s).dropWhile q = d :: (r1 ++ s) ∧
        (cs ++ s).takeWhile q = cs.takeWhile q
  | [], h => by simp at h
  | c :: cs, h => by
    simp only [List.cons_append, List.takeWhile_cons, List.dropWhile_cons]
    cases hc : q c with
    | false => exact ⟨c, cs, by simp, by simp, by simp⟩
    | true =>
      have h' : cs.any (fun d => !q d) = true := by
        simpa [List.any_cons, hc] using h
      obtain ⟨d, r1, e1, e2, e3⟩ := dropWhile_append_stop q s cs h'
      exact ⟨d, r1, by simp [e1], by simp [e2], by simp [e3]⟩

theorem litClosed_space (x : Str) : litClosed (lex.space :: x) = litClosed x := by
  simp [litClosed, List.dropWhile_cons]

theorem litClosed_quote (cs : Str) (h : litClosed (lex.quoteLiteral :: cs) = true) :
    cs.any (fun d => !lex.notStop [lex.quoteLiteral] d) = true := by
  have hq : (lex.quoteLiteral == lex.space) = false := by decide
  simpa [litClosed, List.dropWhile_cons, hq] using h

theorem close_not_valid : (lex.alphanumeric ++ [lex.chDot]).contains lex.closePrecedence = false := by
  decide

theorem scan_append (dict : List Str) (r : Str) :
    ∀ x : Str, litClosed x = true → ScanAppend dict r x := by
  intro x
  induction x with
  | nil =>
    intro _
    simp only [ScanAppend, lex.scan, List.nil_append]
    exact Or.inr (lex.scan_close dict r)
  | cons c cs ih =>
    intro hcl
    have happ : (c :: cs) ++ lex.closePrecedence :: r = c :: (cs ++ lex.closePrecedence :: r) := rfl
    unfold ScanAppend
    rw [happ]
    simp only [lex.scan]
    by_cases c1 : c = lex.eof
    · simp only [c1, if_true]
      exact Or.inl trivial
    · simp only [c1, if_false]
      by_cases c2 : c = lex.openPrecedence
      · simp only [c2, if_true]
      · simp only [c2, if_false]
        by_cases c3 : c = lex.closePrecedence
        · simp only [c3, if_true]
        · simp only [c3, if_false]
          by_cases c4 : c = lex.quoteLiteral
          · simp only [c4, if_true]
            rw [c4] at hcl
            obtain ⟨d, r1, e1, e2, e3⟩ := dropWhile_append_stop (lex.notStop [lex.quoteLiteral])
              (lex.closePrecedence :: r) cs (litClosed_quote cs hcl)
            simp only [lex.scanLiteral, e1, e2, e3]
          · simp only [c4, if_false]
            by_cases c5 : c = lex.and ∨ c = lex.or
            · simp only [c5, if_true]
              have hcp : c ≠ lex.closePrecedence := c3
              cases cs with
              | nil =>
                simp only [lex.scanBoolean, List.head?_nil, Option.getD_none, ne_eq, c1,
                  not_false_eq_true, if_true, List.nil_append, List.head?_cons, Option.getD_some,
                  hcp]
                exact ⟨_, rfl⟩
              | cons d ds =>
                simp only [lex.scanBoolean, List.cons_append, List.head?_cons, Option.getD_some,
                  List.tail_cons]
                by_cases hd : c = d
                · simp only [hd, ne_eq, not_true_eq_false, if_false]
                · simp only [ne_eq, hd, not_false_eq_true, if_true]
                  exact ⟨_, rfl⟩
            · simp only [c5, if_false]
              by_cases c6 : c = lex.chLt ∨ c = lex.chGt ∨ c = lex.chEq ∨ c = lex.chBang
              · simp only [c6, if_true]
                have hne : lex.closePrecedence ≠ lex.chEq := by decide
                have hne2 : lex.eof ≠ lex.chEq := by decide
                cases cs with
                | nil =>
                  simp only [lex.scanComp, List.head?_nil, Option.getD_none, hne2, if_false,
                    List.nil_append, List.head?_cons, Option.getD_some, hne]
                | cons d ds =>
                  simp only [lex.scanComp, List.cons_append, List.head?_cons, Option.getD_some,
                    List.tail_cons]
                  by_cases hd : d = lex.chEq
                  · simp only [hd, if_true]
                  · simp only [hd, if_false, List.cons_append]
              · simp only [c6, if_false]
                by_cases c7 : c = lex.space
                · simp only [c7, if_true]
                  rw [c7, litClosed_space] at hcl
                  exact ih hcl
                · simp only [c7, if_false]
                  obtain ⟨t1, t2⟩ := takeWhile_append_blocked
                    (lex.alphanumeric ++ [lex.chDot]).contains lex.closePrecedence r
                    close_not_valid cs
                  simp only [lex.scanKeyDef, t1, t2]
                  by_cases hm : dict.contains
                      (c :: cs.takeWhile (lex.alphanumeric ++ [lex.chDot]).contains) = true
                  · simp only [hm, if_true]
                  · simp only [hm, if_false]
                    exact ⟨_, rfl⟩

theorem scan_append_tok (dict : List Str) (r x x1 : Str) (it : lex.Item)
    (hcl : litClosed x = true) (hs : lex.scan dict x = .tok it x1) :
    lex.scan dict (x ++ lex.closePrecedence :: r) = .tok it (x1 ++ lex.closePrecedence :: r) := by
  have h := scan_append dict r x hcl
  unfold ScanAppend at h
  rw [hs] at h
  exact h

theorem scan_append_done (dict : List Str) (r x : Str)
    (hcl : litClosed x = true) (hs : lex.scan dict x = .done) :
    lex.scan dict (x ++ lex.closePrecedence :: r) = .done ∨
      lex.scan dict (x ++ lex.closePrecedence :: r) =
        .tok ⟨.ClosePrecedenceType, [lex.closePrecedence]⟩ r := by
  have h := scan_append dict r x hcl
  unfold ScanAppend at h
  rw [hs] at h
  exact h

theorem closedA_head (dict : List Str) (m d : Nat) (x : Str)
    (h : closedA dict m d (some x) = true) : litClosed x = true := by
  cases m with
  | zero => simp [closedA] at h
  | succ m =>
    simp only [closedA, Bool.and_eq_true, litClosedA] at h
    exact h.1

theorem closedA_done (dict : List Str) (m d : Nat) (x : Str)
    (h : closedA dict m d (some x) = true) (hs : lex.scan dict x = .done) : d = 0 := by
  cases m with
  | zero => simp [closedA] at h
  | succ m =>
    simp only [closedA, Bool.and_eq_true, lex.nextItemA, hs] at h
    simpa using h.2

theorem closedA_other (dict : List Str) (m d : Nat) (x x1 : Str) (it : lex.Item)
    (h : closedA dict m d (some x) = true) (hs : lex.scan dict x = .tok it x1)
    (h1 : it.Typ ≠ lex.ItemType.OpenPrecedenceType)
    (h2 : it.Typ ≠ lex.ItemType.ClosePrecedenceType) :
    ∃ m1, closedA dict m1 d (some x1) = true := by
  cases m with
  | zero => simp [closedA] at h
  | succ m =>
    simp only [closedA, Bool.and_eq_true, lex.nextItemA, lex.nextRestA, hs] at h
    obtain ⟨ty, v⟩ := it
    cases ty <;> exact ⟨m, h.2⟩

theorem closedA_open (dict : List Str) (m d : Nat) (x x1 : Str) (v : Str)
    (h : closedA dict m d (some x) = true)
    (hs : lex.scan dict x = .tok ⟨.OpenPrecedenceType, v⟩ x1) :
    ∃ m1, closedA dict m1 (d + 1) (some x1) = true := by
  cases m with
  | zero => simp [closedA] at h
  | succ m =>
    simp only [closedA, Bool.and_eq_true, lex.nextItemA, lex.nextRestA, hs] at h
    exact ⟨m, h.2⟩

theorem closedA_close (dict : List Str) (m d : Nat) (x x1 : Str) (v : Str)
    (h : closedA dict m d (some x) = true)
    (hs : lex.scan dict x = .tok ⟨.ClosePrecedenceType, v⟩ x1) :
    0 < d ∧ ∃ m1, closedA dict m1 (d - 1) (some x1) = true := by
  cases m with
  | zero => simp [closedA] at h
  | succ m =>
    simp only [closedA, Bool.and_eq_true, lex.nextItemA, lex.nextRestA, hs, bne_iff_ne] at h
    exact ⟨Nat.pos_of_ne_zero h.2.1, m, h.2.2⟩

theorem predKind_not_paren (t : lex.ItemType) (h : predKind t = true) :
    t ≠ lex.ItemType.OpenPrecedenceType ∧ t ≠ lex.ItemType.ClosePrecedenceType := by
  cases t <;> simp [predKind] at h ⊢

theorem fieldBuildLoopA_append (dict : List Str) (r : Str) :
    ∀ (k m : Nat) (f : Funnel.field) (x : Str) (d : Nat) (f1 : Funnel.field) (a1 : Option Str),
    fieldBuildLoopA dict k f (some x) = .ok (f1, a1) → closedA dict m d (some x) = true →
    ∃ x1 m1, a1 = some x1 ∧
      fieldBuildLoopA dict k f (some (x ++ lex.closePrecedence :: r)) =
        .ok (f1, some (x1 ++ lex.closePrecedence :: r)) ∧
      closedA dict m1 d (some x1) = true := by
  intro k
  induction k with
  | zero =>
    intro m f x d f1 a1 h hc
    simp only [fieldBuildLoopA] at h
    cases h
    exact ⟨x, m, rfl, rfl, hc⟩
  | succ k ih =>
    intro m f x d f1 a1 h hc
    simp only [fieldBuildLoopA, lex.nextItemA, lex.nextRestA] at h
    have hcl := closedA_head dict m d x hc
    cases hs : lex.scan dict x with
    | done => rw [hs] at h; cases h
    | fail it =>
      rw [hs] at h
      simp only at h
      obtain ⟨e, he⟩ := field_set_bad f it (by rw [lex.scan_fail_error dict x it hs]; rfl)
      rw [he] at h
      cases h
    | tok it x1 =>
      rw [hs] at h
      simp only at h
      cases hset : f.set it with
      | error e => rw [hset] at h; cases h
      | ok f2 =>
        rw [hset] at h
        simp only at h
        have hk := (field_set_ok f f2 it hset).1
        obtain ⟨m1, hm1⟩ := closedA_other dict m d x x1 it hc hs (predKind_not_paren _ hk).1
          (predKind_not_paren _ hk).2
        obtain ⟨x2, m2, e1, e2, e3⟩ := ih m1 f2 x1 d f1 a1 h hm1
        refine ⟨x2, m2, e1, ?_, e3⟩
        simp only [fieldBuildLoopA, lex.nextItemA, lex.nextRestA,
          scan_append_tok dict r x x1 it hcl hs, hset]
        exact e2

theorem buildA_append (dict : List Str) (r : Str) :
    ∀ (n m : Nat) (b : boolean) (x : Str) (d : Nat) (b1 : boolean) (a1 : Option Str),
    buildA dict n b (some x) = .ok (b1, a1) → closedA dict m d (some x) = true →
    ∃ a2, buildA dict n b (some (x ++ lex.closePrecedence :: r)) = .ok (b1, a2) ∧
      (0 < d → ∃ x1 m1, a1 = some x1 ∧ a2 = some (x1 ++ lex.closePrecedence :: r) ∧
        closedA dict m1 (d - 1) (some x1) = true) := by
  intro n
  induction n with
  | zero => intro m b x d b1 a1 h; cases h
  | succ n ih =>
    intro m b x d b1 a1 h hc
    have hcl := closedA_head dict m d x hc
    simp only [buildA, lex.nextItemA, lex.nextRestA] at h ⊢
    cases hs : lex.scan dict x with
    | done =>
      rw [hs] at h
      simp only at h
      cases h
      have hd := closedA_done dict m d x hc hs
      rcases scan_append_done dict r x hcl hs with e | e
      · rw [e]
        exact ⟨none, rfl, fun hp => by omega⟩
      · rw [e]
        exact ⟨some r, rfl, fun hp => by omega⟩
    | fail it =>
      rw [hs] at h
      have hty := lex.scan_fail_error dict x it hs
      obtain ⟨ty, v⟩ := it
      simp only at hty
      subst hty
      cases h
    | tok it x1 =>
      rw [hs] at h
      rw [scan_append_tok dict r x x1 it hcl hs]
      obtain ⟨ty, v⟩ := it
      cases ty with
      | ErrorType => cases h
      | ComparatorType => cases h
      | ClosePrecedenceType =>
        simp only at h ⊢
        cases h
        obtain ⟨_, m1, hm1⟩ := closedA_close dict m d x x1 v hc hs
        exact ⟨_, rfl, fun _ => ⟨x1, m1, rfl, rfl, hm1⟩⟩
      | BooleanType =>
        simp only at h ⊢
        obtain ⟨m1, hm1⟩ := closedA_other dict m d x x1 _ hc hs (by simp) (by simp)
        split at h
        · cases h
        · rename_i hne
          rw [if_neg hne]
          exact ih m1 _ x1 d b1 a1 h hm1
      | OpenPrecedenceType =>
        simp only at h ⊢
        obtain ⟨m1, hm1⟩ := closedA_open dict m d x x1 v hc hs
        cases hn : buildA dict n { operation := [], children := [] } (some x1) with
        | error e => rw [hn] at h; cases h
        | panic => rw [hn] at h; cases h
        | outOfFuel => rw [hn] at h; cases h
        | ok res =>
          obtain ⟨nb, a2⟩ := res
          rw [hn] at h
          simp only at h
          obtain ⟨a3, e3, h3⟩ := ih m1 _ x1 (d + 1) nb a2 hn hm1
          obtain ⟨x2, m2, e4, e5, hm2⟩ := h3 (Nat.succ_pos d)
          subst e4
          subst e5
          rw [e3]
          simp only
          exact ih m2 _ x2 d b1 a1 h hm2
      | LiteralType =>
        simp only [field.set] at h ⊢
        obtain ⟨m1, hm1⟩ := closedA_other dict m d x x1 _ hc hs (by simp) (by simp)
        cases hn : fieldBuildLoopA dict 2 { field := [], comp := [], val := v } (some x1) with
        | error e => rw [hn] at h; cases h
        | panic => rw [hn] at h; cases h
        | outOfFuel => rw [hn] at h; cases h
        | ok res =>
          obtain ⟨nf, a2⟩ := res
          rw [hn] at h
          simp only at h
          obtain ⟨x2, m2, e4, e5, hm2⟩ := fieldBuildLoopA_append dict r 2 m1 _ x1 d nf a2 hn hm1
          subst e4
          rw [e5]
          simp only
          exact ih m2 _ x2 d b1 a1 h hm2
      | FieldType =>
        simp only [field.set] at h ⊢
        obtain ⟨m1, hm1⟩ := closedA_other dict m d x x1 _ hc hs (by simp) (by simp)
        cases hn : fieldBuildLoopA dict 2 { field := v, comp := [], val := [] } (some x1) with
        | error e => rw [hn] at h; cases h
        | panic => rw [hn] at h; cases h
        | outOfFuel => rw [hn] at h; cases h
        | ok res =>
          obtain ⟨nf, a2⟩ := res
          rw [hn] at h
          simp only at h
          obtain ⟨x2, m2, e4, e5, hm2⟩ := fieldBuildLoopA_append dict r 2 m1 _ x1 d nf a2 hn hm1
          subst e4
          rw [e5]
          simp only
          exact ih m2 _ x2 d b1 a1 h hm2

theorem buildA_succ (dict : List Str) :
    ∀ (n : Nat) (b : boolean) (a : Option Str) (res : boolean × Option Str),
    buildA dict n b a = .ok res → buildA dict (n + 1) b a = .ok res := by
  intro n
  induction n with
  | zero => intro b a res h; cases h
  | succ n ih =>
    intro b a res h
    rw [buildA] at h
    rw [buildA]
    cases hit : lex.nextItemA dict a with
    | none => rw [hit] at h; exact h
    | some item =>
      rw [hit] at h
      obtain ⟨ty, v⟩ := item
      cases ty with
      | ErrorType => cases h
      | ComparatorType => cases h
      | ClosePrecedenceType => exact h
      | BooleanType =>
        simp only at h ⊢
        split at h
        · cases h
        · rename_i hne
          rw [if_neg hne]
          exact ih _ _ _ h
      | OpenPrecedenceType =>
        simp only at h ⊢
        cases hn : buildA dict n { operation := [], children := [] } (lex.nextRestA dict a) with
        | error e => rw [hn] at h; cases h
        | panic => rw [hn] at h; cases h
        | outOfFuel => rw [hn] at h; cases h
        | ok res1 =>
          obtain ⟨nb, a2⟩ := res1
          rw [hn] at h
          simp only at h
          rw [ih _ _ _ hn]
          simp only
          exact ih _ _ _ h
      | LiteralType =>
        simp only [field.set] at h ⊢
        cases hn : fieldBuildLoopA dict 2 { field := [], comp := [], val := v }
            (lex.nextRestA dict a) with
        | error e => rw [hn] at h; cases h
        | panic => rw [hn] at h; cases h
        | outOfFuel => rw [hn] at h; cases h
        | ok res1 =>
          obtain ⟨nf, a2⟩ := res1
          rw [hn] at h
          simp only at h ⊢
          exact ih _ _ _ h
      | FieldType =>
        simp only [field.set] at h ⊢
        cases hn : fieldBuildLoopA dict 2 { field := v, comp := [], val := [] }
            (lex.nextRestA dict a) with
        | error e => rw [hn] at h; cases h
        | panic => rw [hn] at h; cases h
        | outOfFuel => rw [hn] at h; cases h
        | ok res1 =>
          obtain ⟨nf, a2⟩ := res1
          rw [hn] at h
          simp only at h ⊢
          exact ih _ _ _ h

theorem buildA_mono (dict : List Str) (n : Nat) (b : boolean) (a : Option Str)
    (res : boolean × Option Str) (h : buildA dict n b a = .ok res) :
    ∀ k, buildA dict (n + k) b a = .ok res := by
  intro k
  induction k with
  | zero => exact h
  | succ k ih => exact buildA_succ dict (n + k) b a res ih

namespace parse

theorem build_itemsList : (es : List Elem) → ∀ (n : Nat) (b : BooleanNode) (rest res : Chan),
    (rest = [] ∧ res = [] ∨ ∃ v, rest = ⟨.ClosePrecedenceType, v⟩ :: res) →
    (Elem.itemsList es).length < n →
    BooleanNode.build n b (Elem.itemsList es ++ rest) =
      .ok (⟨lastOp b.Operation es, b.Children ++ Elem.nodesList es⟩, res)
  | [], n, b, rest, res, ht, hn => by
    cases n with
    | zero => omega
    | succ n =>
      rcases ht with ⟨h1, h2⟩ | ⟨v, h1⟩
      · subst h1; subst h2
        simp [Elem.itemsList, BooleanNode.build, lastOp, Elem.nodesList]
      · subst h1
        simp [Elem.itemsList, BooleanNode.build, lastOp, Elem.nodesList]
  | .op v :: es, n, b, rest, res, ht, hn => by
    have ih := build_itemsList es
    cases n with
    | zero => omega
    | succ n =>
      simp only [Elem.itemsList, Elem.items, List.cons_append, List.nil_append,
        List.length_cons] at hn ⊢
      simp only [BooleanNode.build]
      rw [ih n _ rest res ht (by omega)]
      simp [lastOp, Elem.nodesList, Elem.nodes]
  | .pred f c v lf :: es, n, b, rest, res, ht, hn => by
    have ih := build_itemsList es
    cases n with
    | zero => omega
    | succ n =>
      cases lf
      · simp only [Elem.itemsList, Elem.items, List.cons_append, List.nil_append,
          List.length_cons, if_false, Bool.false_eq_true] at hn ⊢
        simp only [BooleanNode.build, FieldNode.set, FieldNode.build, FieldNode.buildLoop, recv]
        rw [ih n _ rest res ht (by omega)]
        simp [lastOp, Elem.nodesList, Elem.nodes]
      · simp only [Elem.itemsList, Elem.items, List.cons_append, List.nil_append,
          List.length_cons, if_true] at hn ⊢
        simp only [BooleanNode.build, FieldNode.set, FieldNode.build, FieldNode.buildLoop, recv]
        rw [ih n _ rest res ht (by omega)]
        simp [lastOp, Elem.nodesList, Elem.nodes]
  | .group gs :: es, n, b, rest, res, ht, hn => by
    have ih1 := build_itemsList gs
    have ih2 := build_itemsList es
    cases n with
    | zero => omega
    | succ n =>
      simp only [Elem.itemsList, Elem.items, List.cons_append, List.nil_append,
        List.length_cons, List.append_assoc, List.length_append, List.length_nil] at hn ⊢
      simp only [BooleanNode.build]
      rw [ih1 n _ (⟨.ClosePrecedenceType, ")".toList⟩ :: (Elem.itemsList es ++ rest))
        (Elem.itemsList es ++ rest) (Or.inr ⟨_, rfl⟩) (by omega)]
      simp only [BooleanNode.toCriteria]
      rw [ih2 n _ rest res ht (by omega)]
      simp [lastOp, Elem.nodesList, Elem.nodes]

theorem recv_le (items : Chan) : (recv items).2.length ≤ items.length := by
  cases items with
  | nil => simp [recv]
  | cons i is => simp [recv]

theorem buildLoop_le : ∀ (k : Nat) (f : FieldNode) (items : Chan) (f1 : FieldNode) (r : Chan),
    FieldNode.buildLoop k f items = .ok (f1, r) → r.length ≤ items.length := by
  intro k
  induction k with
  | zero => intro f items f1 r h; simp only [FieldNode.buildLoop] at h; cases h; exact Nat.le_refl _
  | succ k ih =>
    intro f items f1 r h
    simp only [FieldNode.buildLoop] at h
    cases hs : f.set (recv items).1 with
    | error e => rw [hs] at h; cases h
    | panic => rw [hs] at h; cases h
    | outOfFuel => rw [hs] at h; cases h
    | ok f2 =>
      rw [hs] at h
      exact Nat.le_trans (ih _ _ _ _ h) (recv_le items)

theorem set_total (f : FieldNode) (item : lex.Item) :
    f.set item ≠ .outOfFuel ∧ f.set item ≠ .panic := by
  obtain ⟨ty, v⟩ := item
  cases ty <;> simp [FieldNode.set]

theorem buildLoop_total : ∀ (k : Nat) (f : FieldNode) (items : Chan),
    FieldNode.buildLoop k f items ≠ .outOfFuel ∧ FieldNode.buildLoop k f items ≠ .panic := by
  intro k
  induction k with
  | zero => intro f items; simp [FieldNode.buildLoop]
  | succ k ih =>
    intro f items
    simp only [FieldNode.buildLoop]
    have hs := set_total f (recv items).1
    cases hset : f.set (recv items).1 with
    | error e => simp
    | panic => exact absurd hset hs.2
    | outOfFuel => exact absurd hset hs.1
    | ok f2 => exact ih _ _

theorem build_total : ∀ (n : Nat) (b : BooleanNode) (items : Chan), items.length < n →
    BooleanNode.build n b items ≠ .outOfFuel ∧ BooleanNode.build n b items ≠ .panic ∧
    ∀ b1 r, BooleanNode.build n b items = .ok (b1, r) → r.length ≤ items.length := by
  intro n
  induction n with
  | zero => intro b items h; omega
  | succ n ih =>
    intro b items hlen
    cases items with
    | nil =>
      simp only [BooleanNode.build]
      refine ⟨by simp, by simp, ?_⟩
      intro b1 r h
      cases h
      exact Nat.le_refl _
    | cons item items =>
      simp only [List.length_cons] at hlen
      have hl : items.length < n := by omega
      obtain ⟨ty, v⟩ := item
      cases ty with
      | ErrorType => simp [BooleanNode.build]
      | ComparatorType => simp [BooleanNode.build]
      | ClosePrecedenceType =>
        simp only [BooleanNode.build]
        refine ⟨by simp, by simp, ?_⟩
        intro b1 r h
        cases h
        simp
      | BooleanType =>
        simp only [BooleanNode.build]
        obtain ⟨h1, h2, h3⟩ := ih { b with Operation := v } items hl
        refine ⟨h1, h2, ?_⟩
        intro b1 r h
        have := h3 b1 r h
        simp only [List.length_cons]
        omega
      | OpenPrecedenceType =>
        simp only [BooleanNode.build]
        obtain ⟨h1, h2, h3⟩ := ih { Operation := [], Children := [] } items hl
        cases hn : BooleanNode.build n { Operation := [], Children := [] } items with
        | error e => simp
        | panic => exact absurd hn h2
        | outOfFuel => exact absurd hn h1
        | ok res =>
          obtain ⟨nb, items2⟩ := res
          simp only
          have hle := h3 nb items2 hn
          obtain ⟨g1, g2, g3⟩ := ih { b with Children := b.Children ++ [nb.toCriteria] } items2
            (by omega)
          refine ⟨g1, g2, ?_⟩
          intro b1 r h
          have := g3 b1 r h
          simp only [List.length_cons]
          omega
      | LiteralType =>
        simp only [BooleanNode.build, FieldNode.set, FieldNode.build]
        have ht := buildLoop_total 2 (⟨[], [], v.filter (fun c => c != lex.quoteLiteral)⟩ : FieldNode) items
        cases hn : FieldNode.buildLoop 2 (⟨[], [], v.filter (fun c => c != lex.quoteLiteral)⟩ : FieldNode) items with
        | error e => simp
        | panic => exact absurd hn ht.2
        | outOfFuel => exact absurd hn ht.1
        | ok res =>
          obtain ⟨nf, items2⟩ := res
          simp only
          have hle := buildLoop_le _ _ _ _ _ hn
          obtain ⟨g1, g2, g3⟩ := ih { b with Children := b.Children ++ [Criteria.ofField nf] }
            items2 (by omega)
          refine ⟨g1, g2, ?_⟩
          intro b1 r h
          have := g3 b1 r h
          simp only [List.length_cons]
          omega
      | FieldType =>
        simp only [BooleanNode.build, FieldNode.set, FieldNode.build]
        have ht := buildLoop_total 2 (⟨v, [], []⟩ : FieldNode) items
        cases hn : FieldNode.buildLoop 2 (⟨v, [], []⟩ : FieldNode) items with
        | error e => simp
        | panic => exact absurd hn ht.2
        | outOfFuel => exact absurd hn ht.1
        | ok res =>
          obtain ⟨nf, items2⟩ := res
          simp only
          have hle := buildLoop_le _ _ _ _ _ hn
          obtain ⟨g1, g2, g3⟩ := ih { b with Children := b.Children ++ [Criteria.ofField nf] }
            items2 (by omega)
          refine ⟨g1, g2, ?_⟩
          intro b1 r h
          have := g3 b1 r h
          simp only [List.length_cons]
          omega

theorem Parse_total (items : Chan) : Parse items ≠ .outOfFuel ∧ Parse items ≠ .panic := by
  obtain ⟨h1, h2, _⟩ := build_total (items.length + 1) { Operation := "&&".toList, Children := [] }
    items (Nat.lt_succ_self _)
  unfold Parse
  cases hn : BooleanNode.build (items.length + 1) { Operation := "&&".toList, Children := [] }
      items with
  | error e => simp
  | panic => exact absurd hn h2
  | outOfFuel => exact absurd hn h1
  | ok res => simp

end parse

/-! ## The claims -/


/-- C1: every item of kind Field that `NextItem` returns, at any point of the scan of
any input under any allow-list, has a value that is a member of the allow-list. -/
theorem C1_field_items_allow_listed (input : Str) (dict : List Str) (k : Nat) (item : lex.Item)
    (h : (((lex.NewLexer input dict).afterCalls k).NextItem).1 = some item)
    (hf : item.Typ = lex.ItemType.FieldType) : item.Value ∈ dict := by
  obtain ⟨a, ha, hd, _⟩ := lex.afterCalls_Rel input dict k
  obtain ⟨h1, _⟩ := lex.NextItem_spec _ a ha
  rw [h1, hd] at h
  have := lex.nextItemA_good dict a item h
  simpa [lex.GoodItem, hf] using this

/-- Witness of C1: the second item of `(Key = "Value")` is the Field `Key`. -/
theorem C1_field_items_allow_listed_witness :
    (((lex.NewLexer "(Key = \"Value\")".toList ["Key".toList]).afterCalls 1).NextItem).1 =
        some ⟨lex.ItemType.FieldType, "Key".toList⟩ ∧
      "Key".toList ∈ ["Key".toList] :=
  ⟨by decide, C1_field_items_allow_listed "(Key = \"Value\")".toList ["Key".toList] 1
    ⟨lex.ItemType.FieldType, "Key".toList⟩ (by decide) rfl⟩

/-- C2: when `ToSql` returns no error, the condition text is a concatenation of
parentheses, single spaces, the words AND and OR, the placeholder `?`, comparators
(one of `<`, `>`, `=`, `!`, optionally followed by `=`) and allow-listed field names;
and the literal values are not part of it: replacing every literal value `v` of the
built tree by any `g v` leaves the text unchanged and maps the argument list by `g`. -/
theorem C2_condition_text_safe (input : Str) (dict : List Str) (sql : Str) (args : List Str)
    (h : ToSql input dict = .ok (sql, args)) :
    SafeText dict sql ∧
      ∃ r : root, buildTree (lex.NewLexer input dict) = .ok r ∧ r.ToSql = some (sql, args) ∧
        ∀ g : Str → Str, (r.sqler.mapVal g).ToSql = some (sql, args.map g) := by
  obtain ⟨r, hb, hr, hs⟩ := ToSql_ok_tree input dict sql args h
  exact ⟨sqler_ToSql_safe dict r.sqler sql args hs hr, r, hb, hr,
    fun g => sqler_ToSql_mapVal g r.sqler sql args hr⟩

/-- Witness of C2: the input of `TestToSql`. -/
theorem C2_condition_text_safe_witness :
    ToSql "Hello <= \"123\" && ( Goodbye = \"Farewell\" || Aloha > \"Hello\" )".toList
        ["Hello".toList, "Goodbye".toList, "Aloha".toList] =
      .ok ("( Hello <= ? AND ( Goodbye = ? OR Aloha > ? ) )".toList,
        ["123".toList, "Farewell".toList, "Hello".toList]) ∧
    (SafeText ["Hello".toList, "Goodbye".toList, "Aloha".toList]
        "( Hello <= ? AND ( Goodbye = ? OR Aloha > ? ) )".toList ∧
      ∃ r : root,
        buildTree (lex.NewLexer
          "Hello <= \"123\" && ( Goodbye = \"Farewell\" || Aloha > \"Hello\" )".toList
          ["Hello".toList, "Goodbye".toList, "Aloha".toList]) = .ok r ∧
        r.ToSql = some ("( Hello <= ? AND ( Goodbye = ? OR Aloha > ? ) )".toList,
          ["123".toList, "Farewell".toList, "Hello".toList]) ∧
        ∀ g : Str → Str, (r.sqler.mapVal g).ToSql =
          some ("( Hello <= ? AND ( Goodbye = ? OR Aloha > ? ) )".toList,
            ["123".toList, "Farewell".toList, "Hello".toList].map g)) :=
  ⟨by decide, C2_condition_text_safe _ _ _ _ (by decide)⟩

/-- C3 (as stated, refuted): with the field name `?` in the allow-list, `ToSql` returns
a text with two placeholders and a single argument. -/
theorem C3_counterexample :
    ToSql "? = \"1\"".toList ["?".toList] = .ok ("( ? = ? )".toList, ["1".toList]) ∧
      "( ? = ? )".toList.count placeholder ≠ ["1".toList].length := by
  exact ⟨by decide, by decide⟩

/-- C3 (amended): when no allow-listed field name contains `?` and `ToSql` returns no
error, the number of `?` in the condition text equals the length of the argument list. -/
theorem C3_placeholders_match_args (input : Str) (dict : List Str) (sql : Str) (args : List Str)
    (hd : ∀ x ∈ dict, placeholder ∉ x) (h : ToSql input dict = .ok (sql, args)) :
    sql.count placeholder = args.length := by
  obtain ⟨r, _, hr, hs⟩ := ToSql_ok_tree input dict sql args h
  exact sqler_ToSql_count dict hd r.sqler sql args hs hr

/-- Witness of C3: the input of `TestToSql`, three placeholders and three arguments. -/
theorem C3_placeholders_match_args_witness :
    (∀ x ∈ ["Hello".toList, "Goodbye".toList, "Aloha".toList], placeholder ∉ x) ∧
    ToSql "Hello <= \"123\" && ( Goodbye = \"Farewell\" || Aloha > \"Hello\" )".toList
        ["Hello".toList, "Goodbye".toList, "Aloha".toList] =
      .ok ("( Hello <= ? AND ( Goodbye = ? OR Aloha > ? ) )".toList,
        ["123".toList, "Farewell".toList, "Hello".toList]) ∧
    "( Hello <= ? AND ( Goodbye = ? OR Aloha > ? ) )".toList.count placeholder =
      ["123".toList, "Farewell".toList, "Hello".toList].length :=
  ⟨by decide, by decide,
    C3_placeholders_match_args
      "Hello <= \"123\" && ( Goodbye = \"Farewell\" || Aloha > \"Hello\" )".toList
      ["Hello".toList, "Goodbye".toList, "Aloha".toList]
      "( Hello <= ? AND ( Goodbye = ? OR Aloha > ? ) )".toList
      ["123".toList, "Farewell".toList, "Hello".toList] (by decide) (by decide)⟩

/-- C4: on every tree whose comparators have at most two characters (as `len` counts
them) and whose boolean nodes have at least one child, the code generator returns the reference rendering:
`f c ?` with `[v]` for a predicate node; `( t1 op t2 ... op tn )` with the children's
arguments concatenated in child order for a boolean node, a single child included. -/
theorem C4_generator_matches_reference (t : sqler) (h : t.WellFormed) :
    t.ToSql = some (refToSql t) :=
  sqler_ToSql_ref t h

/-- Witness of C4: the nested tree of `TestBoolean_ToSql`. -/
theorem C4_generator_matches_reference_witness :
    (sqler.ofBoolean And
        [sqler.ofBoolean Or [sqler.ofField ⟨"Hello".toList, "<".toList, "123".toList⟩,
            sqler.ofField ⟨"Goodbye".toList, "=".toList, "World".toList⟩],
          sqler.ofField ⟨"Aloha".toList, ">=".toList, "Hello".toList⟩]).WellFormed ∧
    (sqler.ofBoolean And
        [sqler.ofBoolean Or [sqler.ofField ⟨"Hello".toList, "<".toList, "123".toList⟩,
            sqler.ofField ⟨"Goodbye".toList, "=".toList, "World".toList⟩],
          sqler.ofField ⟨"Aloha".toList, ">=".toList, "Hello".toList⟩]).ToSql =
      some (refToSql (sqler.ofBoolean And
        [sqler.ofBoolean Or [sqler.ofField ⟨"Hello".toList, "<".toList, "123".toList⟩,
            sqler.ofField ⟨"Goodbye".toList, "=".toList, "World".toList⟩],
          sqler.ofField ⟨"Aloha".toList, ">=".toList, "Hello".toList⟩])) :=
  ⟨by simp [sqler.WellFormed, sqler.WellFormedList]; decide,
    C4_generator_matches_reference _ (by simp [sqler.WellFormed, sqler.WellFormedList]; decide)⟩

/-- C5 (as stated, refuted): two inputs of the shape `p1 && ( p2 || p3 )` over
allow-listed fields on which `ToSql` returns an error: one whose field name `user_id`
has a rune outside the identifier alphabet, one whose literal contains U+FFFD, the
rune the lexer takes for the end of the input. -/
theorem C5_counterexample :
    ToSql "user_id = \"1\" && ( A = \"2\" || B = \"3\" )".toList
        ["user_id".toList, "A".toList, "B".toList] = .error "invalid syntax".toList ∧
    ToSql ("A = \"x".toList ++ [lex.eof] ++ "y\" && ( A = \"2\" || A = \"3\" )".toList)
        ["A".toList] = .error "invalid syntax".toList := by
  exact ⟨by decide, by decide⟩

/-- C5 (amended): `toBoolOp` maps `&&` and `AND` to AND, `||` and `OR` to OR, and for all
predicates `p1`, `p2`, `p3`, in either operand order, whose field names are allow-listed
and read by the lexer as one identifier and whose literals are valid UTF-8 texts that
contain neither `"` nor U+FFFD, `ToSql` on `p1 && ( p2 || p3 )` returns
`( t1 AND ( t2 OR t3 ) )` and the three literal values in input order. -/
theorem C5_and_group_or (dict : List Str) (p1 p2 p3 : Pred) (h1 : p1.ok dict)
    (h2 : p2.ok dict) (h3 : p3.ok dict) :
    (toBoolOp "&&".toList = And ∧ toBoolOp "AND".toList = And ∧ toBoolOp "||".toList = Or ∧
      toBoolOp "OR".toList = Or) ∧
    ToSql (p1.text ++ " && ( ".toList ++ p2.text ++ " || ".toList ++ p3.text ++ " )".toList) dict =
      .ok ("( ".toList ++ p1.sql ++ " AND ( ".toList ++ p2.sql ++ " OR ".toList ++ p3.sql ++
        " ) )".toList, [p1.v, p2.v, p3.v]) :=
  ⟨⟨by decide, by decide, by decide, by decide⟩, ToSql_and_group_or dict p1 p2 p3 h1 h2 h3⟩

/-- Witness of C5: the input of `TestToSql`. -/
theorem C5_and_group_or_witness :
    ((⟨"Hello".toList, "<=".toList, "123".toList, false⟩ : Pred).ok
        ["Hello".toList, "Goodbye".toList, "Aloha".toList] ∧
      (⟨"Goodbye".toList, "=".toList, "Farewell".toList, false⟩ : Pred).ok
        ["Hello".toList, "Goodbye".toList, "Aloha".toList] ∧
      (⟨"Aloha".toList, ">".toList, "Hello".toList, false⟩ : Pred).ok
        ["Hello".toList, "Goodbye".toList, "Aloha".toList]) ∧
    ToSql "Hello <= \"123\" && ( Goodbye = \"Farewell\" || Aloha > \"Hello\" )".toList
        ["Hello".toList, "Goodbye".toList, "Aloha".toList] =
      .ok ("( Hello <= ? AND ( Goodbye = ? OR Aloha > ? ) )".toList,
        ["123".toList, "Farewell".toList, "Hello".toList]) :=
  ⟨⟨by simp only [Pred.ok]; decide, by simp only [Pred.ok]; decide,
      by simp only [Pred.ok]; decide⟩,
    (C5_and_group_or ["Hello".toList, "Goodbye".toList, "Aloha".toList]
      ⟨"Hello".toList, "<=".toList, "123".toList, false⟩
      ⟨"Goodbye".toList, "=".toList, "Farewell".toList, false⟩
      ⟨"Aloha".toList, ">".toList, "Hello".toList, false⟩
      (by simp only [Pred.ok]; decide) (by simp only [Pred.ok]; decide)
      (by simp only [Pred.ok]; decide)).2⟩

/-- C6 (as stated, refuted): on `(Key = "Value")` with allow-list {Key} `ToSql` returns
`( ( Key = ? ) )`, not `( Key = ? )`; and it returns an error for the allow-listed name
`user_id` and for a literal that contains U+FFFD. -/
theorem C6_counterexample :
    ToSql "(Key = \"Value\")".toList ["Key".toList] =
        .ok ("( ( Key = ? ) )".toList, ["Value".toList]) ∧
    ToSql "(Key = \"Value\")".toList ["Key".toList] ≠
        .ok ("( Key = ? )".toList, ["Value".toList]) ∧
    ToSql "(\"Value\" <= Key)".toList ["Key".toList] =
        .ok ("( ( Key <= ? ) )".toList, ["Value".toList]) ∧
    ToSql "(user_id = \"1\")".toList ["user_id".toList] = .error "invalid syntax".toList ∧
    ToSql ("(Key = \"x".toList ++ [lex.eof] ++ "\")".toList) ["Key".toList] =
        .error "unexpected eof".toList := by
  exact ⟨by decide, by decide, by decide, by decide, by decide⟩

/-- C6 (amended): for every allow-listed field name `f` that the lexer reads as one
identifier, every comparator `c` and every literal text `v` that is valid UTF-8 and has
neither `"` nor U+FFFD, `ToSql` on `(f c "v")` and on `("v" c f)` returns
`( ( f c ? ) )`, the parentheses of the implicit root around those of the group and the
field written first, with the argument list `[v]`. -/
theorem C6_single_group (dict : List Str) (f c v : Str) (hf : lex.isIdent f = true)
    (hd : f ∈ dict) (hc : c ∈ lex.comparators) (hv : lex.cleanLit v = true) :
    ToSql ("(".toList ++ f ++ " ".toList ++ c ++ " \"".toList ++ v ++ "\")".toList) dict =
        .ok ("( ( ".toList ++ f ++ " ".toList ++ c ++ " ? ) )".toList, [v]) ∧
    ToSql ("(\"".toList ++ v ++ "\" ".toList ++ c ++ " ".toList ++ f ++ ")".toList) dict =
        .ok ("( ( ".toList ++ f ++ " ".toList ++ c ++ " ? ) )".toList, [v]) := by
  have a1 := ToSql_single_group dict ⟨f, c, v, false⟩ ⟨hf, hd, hc, hv⟩
  have a2 := ToSql_single_group dict ⟨f, c, v, true⟩ ⟨hf, hd, hc, hv⟩
  have e1 : " \"".toList = " ".toList ++ [lex.quoteLiteral] := by decide
  have e2 : "\")".toList = [lex.quoteLiteral] ++ ")".toList := by decide
  have e3 : "(\"".toList = "(".toList ++ [lex.quoteLiteral] := by decide
  have e4 : "\" ".toList = [lex.quoteLiteral] ++ " ".toList := by decide
  have e5 : " ? ) )".toList = " ?".toList ++ " ) )".toList := by decide
  simp only [Pred.text, Pred.sql, Bool.false_eq_true, if_false, if_true] at a1 a2
  refine ⟨?_, ?_⟩
  · rw [e1, e2, e5]
    simpa only [List.append_assoc] using a1
  · rw [e3, e4, e5]
    simpa only [List.append_assoc] using a2

/-- Witness of C6: the field `Key`, the comparator `<=` and the literal `Value`. -/
theorem C6_single_group_witness :
    (lex.isIdent "Key".toList = true ∧ "Key".toList ∈ ["Key".toList] ∧
      "<=".toList ∈ lex.comparators ∧ lex.cleanLit "Value".toList = true) ∧
    (ToSql "(Key <= \"Value\")".toList ["Key".toList] =
        .ok ("( ( Key <= ? ) )".toList, ["Value".toList]) ∧
      ToSql "(\"Value\" <= Key)".toList ["Key".toList] =
        .ok ("( ( Key <= ? ) )".toList, ["Value".toList])) :=
  ⟨⟨by decide, by decide, by decide, by decide⟩,
    C6_single_group ["Key".toList] "Key".toList "<=".toList "Value".toList (by decide)
      (by decide) (by decide) (by decide)⟩

/-- C7 (code evaluated at the failing input): on `A = "1" B = "2"` with allow-list
{A, B} `ToSql` joins the two predicates with the empty operator of the root
`boolean{}`, not with AND. -/
theorem C7_root_operator_empty :
    ToSql "A = \"1\" B = \"2\"".toList ["A".toList, "B".toList] =
        .ok ("( A = ?  B = ? )".toList, ["1".toList, "2".toList]) ∧
    ToSql "A = \"1\" B = \"2\"".toList ["A".toList, "B".toList] ≠
        .ok ("( A = ? AND B = ? )".toList, ["1".toList, "2".toList]) := by
  exact ⟨by decide, by decide⟩

/-- C8 (code evaluated at the failing inputs): the lexer's Error items name `U` (of
`Unknown`) and `&|`, and `ToSql` returns the error `invalid syntax` for both inputs. -/
theorem C8_error_message_generic :
    ((lex.NewLexer "Unknown = \"1\"".toList ["Known".toList]).NextItem).1 =
        some ⟨lex.ItemType.ErrorType, "\"U\" isn't a valid field".toList⟩ ∧
    ToSql "Unknown = \"1\"".toList ["Known".toList] = .error "invalid syntax".toList ∧
    (((lex.NewLexer "A = \"1\" &| B = \"2\"".toList ["A".toList, "B".toList]).afterCalls 3).NextItem).1 =
        some ⟨lex.ItemType.ErrorType, "invalid boolean expression, &|".toList⟩ ∧
    ToSql "A = \"1\" &| B = \"2\"".toList ["A".toList, "B".toList] =
        .error "invalid syntax".toList := by
  exact ⟨by decide, by decide, by decide, by decide⟩

/-- C9 (code evaluated at the failing input): on the input `Count` with allow-list
{Count} the lexer stops the identifier at `n`, which `loweralpha` lacks, and returns an
Error item for `Cou` instead of the Field `Count`. -/
theorem C9_identifier_stops_at_n :
    ((lex.NewLexer "Count".toList ["Count".toList]).NextItem).1 =
        some ⟨lex.ItemType.ErrorType, "\"Cou\" isn't a valid field".toList⟩ ∧
    lex.loweralpha.contains (Char.ofNat 110) = false := by
  exact ⟨by decide, by decide⟩

/-- C10 (as stated, refuted): on the input `"a?b"` whose `?` stands for the rune U+FFFD,
the Literal item has the value `a?`: the scan of the literal stops at U+FFFD, which is
kept, and `b` is not part of the value. -/
theorem C10_counterexample :
    ((lex.NewLexer [lex.quoteLiteral, Char.ofNat 97, lex.eof, Char.ofNat 98, lex.quoteLiteral]
        []).NextItem).1 = some ⟨lex.ItemType.LiteralType, [Char.ofNat 97, lex.eof]⟩ ∧
    [Char.ofNat 97, lex.eof] ≠ [Char.ofNat 97, lex.eof, Char.ofNat 98] := by
  exact ⟨by decide, by decide⟩

/-- C10 (amended): a lexer on a valid UTF-8 input, between two tokens (state `lexText`,
nothing queued, `start = position`), whose remaining input is `k` spaces, a `"`, a text
`v` without `"` and U+FFFD, and then either a closing `"` followed by `r` or the end of
the input,
returns exactly one Literal item of value `v`, quotes stripped and every rune kept;
after a closing quote it goes on at `r`, and after an unterminated literal the next
call returns nil, so that no Error item is produced. -/
theorem C10_literal_value (l : lex.Lexer) (k : Nat) (v : Str) (closing : Option Str)
    (hs : l.state = some lex.stateFunc.lexText) (hi : l.items = [])
    (hst : l.start = l.position) (hv : lex.cleanLit v = true)
    (hin : l.input.drop l.position =
      List.replicate k lex.space ++ lex.quoteLiteral :: (v ++ literalTail closing)) :
    (l.NextItem).1 = some ⟨lex.ItemType.LiteralType, v⟩ ∧ (l.NextItem).2.items = [] ∧
      match closing with
      | some r => (l.NextItem).2.state = some lex.stateFunc.lexText ∧
          (l.NextItem).2.start = (l.NextItem).2.position ∧
          (l.NextItem).2.input.drop (l.NextItem).2.position = r
      | none => ((l.NextItem).2.NextItem).1 = none := by
  have hrel : lex.Rel l (some (List.replicate k lex.space ++
      lex.quoteLiteral :: (v ++ literalTail closing))) := ⟨hi, hs, hst, hin⟩
  obtain ⟨h1, h2, _, h4⟩ := lex.NextItem_spec l _ hrel
  have hscan := scan_quoted l.dict k v closing hv
  simp only [lex.nextItemA, lex.nextRestA, hscan] at h1 h2
  refine ⟨h1, h2.1, ?_⟩
  cases closing with
  | some r => exact h2.2
  | none =>
    obtain ⟨g1, _⟩ := lex.NextItem_spec _ _ h2
    rw [g1]
    simp [lex.nextItemA, lex.scan]

/-- Witness of C10: the unterminated literal of the input ` "Value`. -/
theorem C10_literal_value_witness :
    ((lex.NewLexer " \"Value".toList []).state = some lex.stateFunc.lexText ∧
      (lex.NewLexer " \"Value".toList []).items = [] ∧
      (lex.NewLexer " \"Value".toList []).start = (lex.NewLexer " \"Value".toList []).position ∧
      lex.cleanLit "Value".toList = true ∧
      (lex.NewLexer " \"Value".toList []).input.drop (lex.NewLexer " \"Value".toList []).position =
        List.replicate 1 lex.space ++ lex.quoteLiteral :: ("Value".toList ++ literalTail none)) ∧
    (((lex.NewLexer " \"Value".toList []).NextItem).1 =
        some ⟨lex.ItemType.LiteralType, "Value".toList⟩ ∧
      ((lex.NewLexer " \"Value".toList []).NextItem).2.items = [] ∧
      (((lex.NewLexer " \"Value".toList []).NextItem).2.NextItem).1 = none) :=
  ⟨⟨rfl, rfl, rfl, by decide, by decide⟩,
    C10_literal_value (lex.NewLexer " \"Value".toList []) 1 "Value".toList none rfl rfl rfl
      (by decide) (by decide)⟩

/-- C11 (code evaluated at the failing input): on `(Key = "Value")` with allow-list
{Key} the lexer returns Open `(`, Field `Key`, Comparator `=`, Literal `Value`, Close
`)`, and on `Hello < "123"` it returns Field `Hello`, Comparator `<`, Literal `123`: the
value of the Literal item has lost its double quotes. -/
theorem C11_literal_quotes_stripped :
    lex.Lexer.itemsUpTo 16 (lex.NewLexer "(Key = \"Value\")".toList ["Key".toList]) =
      [⟨lex.ItemType.OpenPrecedenceType, "(".toList⟩, ⟨lex.ItemType.FieldType, "Key".toList⟩,
        ⟨lex.ItemType.ComparatorType, "=".toList⟩, ⟨lex.ItemType.LiteralType, "Value".toList⟩,
        ⟨lex.ItemType.ClosePrecedenceType, ")".toList⟩] ∧
    lex.Lexer.itemsUpTo 16 (lex.NewLexer "Hello < \"123\"".toList ["Hello".toList]) =
      [⟨lex.ItemType.FieldType, "Hello".toList⟩, ⟨lex.ItemType.ComparatorType, "<".toList⟩,
        ⟨lex.ItemType.LiteralType, "123".toList⟩] ∧
    "Value".toList ≠ "\"Value\"".toList := by
  exact ⟨by decide, by decide, by decide⟩

/-- C12: a lexer between two tokens whose remaining input is `k` spaces, then `c`, one
of `&` and `|`, then `rest`: when `rest` starts with the same rune it returns the
Boolean item `cc` and goes on after it; otherwise, `rest` starting with another rune or
being empty, it returns the Error item `invalid boolean expression, ` followed by `c`
and the rune read after it (U+FFFD at the end of the input), no Boolean item, and has no
state function left. -/
theorem C12_boolean_operator (l : lex.Lexer) (k : Nat) (c : Char) (rest : Str)
    (hs : l.state = some lex.stateFunc.lexText) (hi : l.items = [])
    (hst : l.start = l.position) (hc : c = lex.and ∨ c = lex.or)
    (hin : l.input.drop l.position = List.replicate k lex.space ++ c :: rest) :
    if rest.head?.getD lex.eof = c then
      (l.NextItem).1 = some ⟨lex.ItemType.BooleanType, [c, c]⟩ ∧ (l.NextItem).2.items = [] ∧
        (l.NextItem).2.state = some lex.stateFunc.lexText ∧
        (l.NextItem).2.input.drop (l.NextItem).2.position = rest.tail
    else
      (l.NextItem).1 = some ⟨lex.ItemType.ErrorType,
          "invalid boolean expression, ".toList ++ [c, rest.head?.getD lex.eof]⟩ ∧
        (l.NextItem).2.items = [] ∧ (l.NextItem).2.state = none ∧
        ((l.NextItem).2.NextItem).1 = none := by
  have hrel : lex.Rel l (some (List.replicate k lex.space ++ c :: rest)) := ⟨hi, hs, hst, hin⟩
  obtain ⟨h1, h2, _, _⟩ := lex.NextItem_spec l _ hrel
  have hscan := scan_boolean_start l.dict k c rest hc
  simp only [lex.nextItemA, lex.nextRestA, hscan, lex.scanBoolean] at h1 h2
  by_cases heq : rest.head?.getD lex.eof = c
  · have hne : ¬ (c ≠ rest.head?.getD lex.eof) := by simp [heq]
    rw [if_pos heq]
    rw [if_neg hne] at h1 h2
    rw [heq] at h1
    exact ⟨h1, h2.1, h2.2.1, h2.2.2.2⟩
  · have hne : c ≠ rest.head?.getD lex.eof := fun h => heq h.symm
    rw [if_neg heq]
    rw [if_pos hne] at h1 h2
    obtain ⟨g1, _⟩ := lex.NextItem_spec _ _ h2
    refine ⟨h1, h2.1, h2.2, ?_⟩
    rw [g1]
    rfl

/-- Witness of C12: the input `&|` gives the Error item naming `&|`. -/
theorem C12_boolean_operator_witness :
    ((lex.NewLexer "&|".toList []).state = some lex.stateFunc.lexText ∧
      (lex.NewLexer "&|".toList []).items = [] ∧
      (lex.NewLexer "&|".toList []).start = (lex.NewLexer "&|".toList []).position ∧
      (lex.and = lex.and ∨ lex.and = lex.or) ∧
      (lex.NewLexer "&|".toList []).input.drop (lex.NewLexer "&|".toList []).position =
        List.replicate 0 lex.space ++ lex.and :: [lex.or]) ∧
    (if [lex.or].head?.getD lex.eof = lex.and then
      ((lex.NewLexer "&|".toList []).NextItem).1 =
          some ⟨lex.ItemType.BooleanType, [lex.and, lex.and]⟩ ∧
        ((lex.NewLexer "&|".toList []).NextItem).2.items = [] ∧
        ((lex.NewLexer "&|".toList []).NextItem).2.state = some lex.stateFunc.lexText ∧
        ((lex.NewLexer "&|".toList []).NextItem).2.input.drop
          ((lex.NewLexer "&|".toList []).NextItem).2.position = [lex.or].tail
    else
      ((lex.NewLexer "&|".toList []).NextItem).1 = some ⟨lex.ItemType.ErrorType,
          "invalid boolean expression, ".toList ++ [lex.and, [lex.or].head?.getD lex.eof]⟩ ∧
        ((lex.NewLexer "&|".toList []).NextItem).2.items = [] ∧
        ((lex.NewLexer "&|".toList []).NextItem).2.state = none ∧
        (((lex.NewLexer "&|".toList []).NextItem).2.NextItem).1 = none) :=
  ⟨⟨rfl, rfl, rfl, Or.inl rfl, by decide⟩,
    C12_boolean_operator (lex.NewLexer "&|".toList []) 0 lex.and [lex.or] rfl rfl rfl
      (Or.inl rfl) (by decide)⟩

/-- C13: every Comparator item that `NextItem` returns, at any point of the scan of any
input under any allow-list, is one of `<`, `>`, `=`, `!`, alone or followed by one `=`,
so that its `len` is at most two; and `ToSql` never panics. -/
theorem C13_comparators_short (input : Str) (dict : List Str) (k : Nat) (item : lex.Item)
    (h : (((lex.NewLexer input dict).afterCalls k).NextItem).1 = some item)
    (hc : item.Typ = lex.ItemType.ComparatorType) :
    item.Value ∈ lex.comparators ∧ len item.Value ≤ 2 ∧ item.Value.length ≤ 2 ∧
      ToSql input dict ≠ .panic := by
  obtain ⟨a, ha, hd, _⟩ := lex.afterCalls_Rel input dict k
  obtain ⟨h1, _⟩ := lex.NextItem_spec _ a ha
  rw [h1, hd] at h
  have hg := lex.nextItemA_good dict a item h
  have hmem : item.Value ∈ lex.comparators := by simpa [lex.GoodItem, hc] using hg
  have hlen := comparators_length _ hmem
  refine ⟨hmem, by omega, ?_, ToSql_no_panic input dict⟩
  simp only [lex.comparators, List.mem_cons, List.mem_singleton, List.not_mem_nil, or_false] at hmem
  rcases hmem with h | h | h | h | h | h | h | h <;> rw [h] <;> decide

/-- Witness of C13: the third item of `(Key <= "Value")` is the Comparator `<=`. -/
theorem C13_comparators_short_witness :
    ((((lex.NewLexer "(Key <= \"Value\")".toList ["Key".toList]).afterCalls 2).NextItem).1 =
        some ⟨lex.ItemType.ComparatorType, "<=".toList⟩) ∧
    ("<=".toList ∈ lex.comparators ∧ len "<=".toList ≤ 2 ∧ "<=".toList.length ≤ 2 ∧
      ToSql "(Key <= \"Value\")".toList ["Key".toList] ≠ .panic) :=
  ⟨by decide, C13_comparators_short "(Key <= \"Value\")".toList ["Key".toList] 2
    ⟨lex.ItemType.ComparatorType, "<=".toList⟩ (by decide) rfl⟩

/-- C14: for every input and allow-list there is a number `n` of items, at most the
number of runes and so at most the number of bytes of the input, such that the first
`n` calls of `NextItem` return an item and every later call returns nil; an Error item
can only be the last of the `n`, so that there is at most one. -/
theorem C14_scanning_terminates (input : Str) (dict : List Str) :
    ∃ n, n ≤ input.length ∧ n ≤ len input ∧
      (∀ k, k < n → ∃ it, (((lex.NewLexer input dict).afterCalls k).NextItem).1 = some it ∧
        (it.Typ = lex.ItemType.ErrorType → k + 1 = n)) ∧
      (∀ k, n ≤ k → (((lex.NewLexer input dict).afterCalls k).NextItem).1 = none) := by
  obtain ⟨n, hn, hsome, hnone⟩ := items_finite dict input.length (some input)
    (by simp [fuelFor])
  simp only [fuelFor] at hn
  have hlen := length_le_len input
  refine ⟨n, by omega, by omega, ?_, ?_⟩
  · intro k hk
    rw [item_eq]
    exact hsome k hk
  · intro k hk
    rw [item_eq]
    exact hnone k hk

/-- C18: every text is made of `k` segments without `?`, each followed by a `?`, and of
a last segment without `?`, where `k` is the number of `?` in the text; `Replace` with
`Dollar` returns no error and the same segments with the `?` of index `i` replaced by
`$i`, counted from 1. So `Hello = ? AND Goodbye = ?` becomes
`Hello = $1 AND Goodbye = $2`, and three placeholders become `$1`, `$2`, `$3`. -/
theorem C18_replace_dollar :
    (∀ text : Str, ∃ (segs : List Str) (last : Str),
      (∀ s ∈ segs, placeholder ∉ s) ∧ placeholder ∉ last ∧
      segs.length = text.count placeholder ∧ text = withPlaceholders segs last ∧
      Replace text Dollar = .ok (withDollars 0 segs last)) ∧
    Replace "Hello = ?".toList Dollar = .ok "Hello = $1".toList ∧
    Replace "Hello = ? AND Goodbye = ?".toList Dollar = .ok "Hello = $1 AND Goodbye = $2".toList ∧
    Replace "A = ? AND B = ? AND C = ?".toList Dollar =
      .ok "A = $1 AND B = $2 AND C = $3".toList := by
  refine ⟨?_, by decide, by decide, by decide⟩
  intro text
  obtain ⟨segs, last, h1, h2, h3, h4, h5⟩ := replaceLoop_segments text 0
  refine ⟨segs, last, h1, h2, h3, h4, ?_⟩
  simp only [Replace, squirrel.Dollar.ReplacePlaceholders, h5, if_true]

/-- C19 (as stated, refuted): two inputs of the shape `p1 && p2 || p3` on which `ToSql`
returns an error: one whose field name `user_id` has a rune outside the identifier
alphabet, one whose literal contains U+FFFD. -/
theorem C19_counterexample :
    ToSql "user_id = \"1\" && A = \"2\" || B = \"3\"".toList
        ["user_id".toList, "A".toList, "B".toList] = .error "invalid syntax".toList ∧
    ToSql ("A = \"x".toList ++ [lex.eof] ++ "y\" && A = \"2\" || A = \"3\"".toList)
        ["A".toList] = .error "invalid syntax".toList := by
  exact ⟨by decide, by decide⟩

/-- C19 (amended): for all predicates `p1`, `p2`, `p3`, in either operand order, whose
field names are allow-listed and read by the lexer as one identifier and whose literals
are valid UTF-8 texts that contain neither `"` nor U+FFFD, `p1 && p2 || p3` compiles to
`( t1 OR t2 OR t3 )` and
`p1 || p2 && p3` to `( t1 AND t2 AND t3 )`, with the three literal values in input
order: the last operator token of the level is written between every two children. -/
theorem C19_last_operator_wins (dict : List Str) (p1 p2 p3 : Pred) (h1 : p1.ok dict)
    (h2 : p2.ok dict) (h3 : p3.ok dict) :
    ToSql (p1.text ++ " && ".toList ++ p2.text ++ " || ".toList ++ p3.text) dict =
      .ok ("( ".toList ++ p1.sql ++ " OR ".toList ++ p2.sql ++ " OR ".toList ++ p3.sql ++
        " )".toList, [p1.v, p2.v, p3.v]) ∧
    ToSql (p1.text ++ " || ".toList ++ p2.text ++ " && ".toList ++ p3.text) dict =
      .ok ("( ".toList ++ p1.sql ++ " AND ".toList ++ p2.sql ++ " AND ".toList ++ p3.sql ++
        " )".toList, [p1.v, p2.v, p3.v]) := by
  have e1 : " && ".toList = [lex.space, lex.and, lex.and, lex.space] := by decide
  have e2 : " || ".toList = [lex.space, lex.or, lex.or, lex.space] := by decide
  have e3 : " OR ".toList = " ".toList ++ Or ++ " ".toList := by decide
  have e4 : " AND ".toList = " ".toList ++ And ++ " ".toList := by decide
  have a1 := ToSql_mixed dict p1 p2 p3 h1 h2 h3 lex.and lex.or Or
    (fun n b r => buildA_or dict n b r) ⟨And, fun n b r => buildA_and dict n b r⟩
  have a2 := ToSql_mixed dict p1 p2 p3 h1 h2 h3 lex.or lex.and And
    (fun n b r => buildA_and dict n b r) ⟨Or, fun n b r => buildA_or dict n b r⟩
  refine ⟨?_, ?_⟩
  · rw [e1, e2, e3]
    simpa only [List.append_assoc] using a1
  · rw [e1, e2, e4]
    simpa only [List.append_assoc] using a2

/-- Witness of C19: `A = "1" && B = "2" || C = "3"` and its mirror image. -/
theorem C19_last_operator_wins_witness :
    ((⟨"A".toList, "=".toList, "1".toList, false⟩ : Pred).ok ["A".toList, "B".toList, "C".toList] ∧
      (⟨"B".toList, "=".toList, "2".toList, false⟩ : Pred).ok ["A".toList, "B".toList, "C".toList] ∧
      (⟨"C".toList, "=".toList, "3".toList, false⟩ : Pred).ok
        ["A".toList, "B".toList, "C".toList]) ∧
    (ToSql "A = \"1\" && B = \"2\" || C = \"3\"".toList ["A".toList, "B".toList, "C".toList] =
        .ok ("( A = ? OR B = ? OR C = ? )".toList, ["1".toList, "2".toList, "3".toList]) ∧
      ToSql "A = \"1\" || B = \"2\" && C = \"3\"".toList ["A".toList, "B".toList, "C".toList] =
        .ok ("( A = ? AND B = ? AND C = ? )".toList, ["1".toList, "2".toList, "3".toList])) :=
  ⟨⟨by simp only [Pred.ok]; decide, by simp only [Pred.ok]; decide,
      by simp only [Pred.ok]; decide⟩,
    C19_last_operator_wins ["A".toList, "B".toList, "C".toList]
      ⟨"A".toList, "=".toList, "1".toList, false⟩ ⟨"B".toList, "=".toList, "2".toList, false⟩
      ⟨"C".toList, "=".toList, "3".toList, false⟩
      (by simp only [Pred.ok]; decide) (by simp only [Pred.ok]; decide)
      (by simp only [Pred.ok]; decide)⟩

/-- C16 (code evaluated at the failing inputs): with allow-list {Key} the runs
`Key Key Key` and `Key = =` make `ToSql` return no error but the texts `( Key  ? )` and
`( Key = ? )` with one empty argument; the node built from the first run has the field
`Key` and an empty comparator and value. -/
theorem C16_repeated_kind_accepted :
    ToSql "Key Key Key".toList ["Key".toList] = .ok ("( Key  ? )".toList, [[]]) ∧
    ToSql "Key = =".toList ["Key".toList] = .ok ("( Key = ? )".toList, [[]]) ∧
    buildTree (lex.NewLexer "Key Key Key".toList ["Key".toList]) =
      .ok ⟨sqler.ofBoolean [] [sqler.ofField ⟨"Key".toList, [], []⟩]⟩ := by
  exact ⟨by decide, by decide, rfl⟩

/-- C15 (code evaluated at the failing inputs): tree construction succeeds on the empty
input with a root that has no child, and on `()` with a group that has no child; `ToSql`
returns no error but the texts `( )` and `( ( ) )`. -/
theorem C15_empty_group_accepted :
    buildTree (lex.NewLexer [] []) = .ok ⟨sqler.ofBoolean [] []⟩ ∧
    buildTree (lex.NewLexer "()".toList []) = .ok ⟨sqler.ofBoolean [] [sqler.ofBoolean [] []]⟩ ∧
    ¬ (sqler.ofBoolean [] []).NonEmpty ∧ ¬ (sqler.ofBoolean [] [sqler.ofBoolean [] []]).NonEmpty ∧
    ToSql [] [] = .ok ("( )".toList, []) ∧ ToSql "()".toList [] = .ok ("( ( ) )".toList, []) := by
  refine ⟨rfl, rfl, ?_, ?_, by decide, by decide⟩
  · simp [sqler.NonEmpty]
  · simp [sqler.NonEmpty, sqler.NonEmptyList]

/-- C20 (as stated, refuted): the input `A = "` + U+FFFD + ` A = "1` has no parenthesis
and two quote characters, the second closing the first, and `ToSql` succeeds on it with
the arguments U+FFFD and `1`; with `)x` appended the last argument is `1)x`. -/
theorem C20_counterexample :
    ("A = \"".toList ++ [lex.eof] ++ " A = \"1".toList).count lex.openPrecedence = 0 ∧
    ("A = \"".toList ++ [lex.eof] ++ " A = \"1".toList).count lex.closePrecedence = 0 ∧
    ("A = \"".toList ++ [lex.eof] ++ " A = \"1".toList).count lex.quoteLiteral = 2 ∧
    ToSql ("A = \"".toList ++ [lex.eof] ++ " A = \"1".toList) ["A".toList] =
      .ok ("( A = ?  A = ? )".toList, [[lex.eof], "1".toList]) ∧
    ToSql ("A = \"".toList ++ [lex.eof] ++ " A = \"1".toList ++ ")".toList ++ "x".toList)
        ["A".toList] =
      .ok ("( A = ?  A = ? )".toList, [[lex.eof], "1)x".toList]) := by
  refine ⟨by decide, by decide, by decide, by decide, by decide⟩

/-- C20 (amended): when, reading the items of `p` in order, every Close item follows an
unmatched Open item, no Open item is left unmatched at the end, and each item starting
with a quote has its literal stopped inside `p`, and `ToSql` succeeds on `p`, then for
every suffix `r` it succeeds on `p` + `)` + `r` with the same text and arguments. -/
theorem C20_close_ends_compilation (p r : Str) (dict : List Str) (sql : Str) (args : List Str)
    (hc : wellClosed p dict = true) (h : ToSql p dict = .ok (sql, args)) :
    ToSql (p ++ ")".toList ++ r) dict = .ok (sql, args) := by
  rw [ToSql_eq_ToSqlA] at h ⊢
  have hcA : closedA dict (p.length + 1) 0 (some p) = true := by
    have := closedFrom_eq (p.length + 1) 0 (lex.NewLexer p dict) (some p) (lex.NewLexer_Rel p dict)
    have hd : (lex.NewLexer p dict).dict = dict := rfl
    rw [hd] at this
    rw [← this]
    exact hc
  have happ : p ++ ")".toList ++ r = p ++ lex.closePrecedence :: r := by
    simp [lex.closePrecedence]
  rw [happ]
  unfold ToSqlA at h ⊢
  cases hn : buildA dict (p.length + 1) { operation := [], children := [] } (some p) with
  | error e => rw [hn] at h; cases h
  | panic => rw [hn] at h; cases h
  | outOfFuel => rw [hn] at h; cases h
  | ok res =>
    obtain ⟨b, a⟩ := res
    rw [hn] at h
    obtain ⟨a2, e2, _⟩ := buildA_append dict r _ _ _ p 0 b a hn hcA
    have e3 := buildA_mono dict _ _ _ _ e2 (r.length + 1)
    have hlen : (p ++ lex.closePrecedence :: r).length + 1 = p.length + 1 + (r.length + 1) := by
      simp only [List.length_append, List.length_cons]
      omega
    rw [hlen, e3]
    exact h

/-- Witness of C20: the input `A = "1"` followed by `)` and the suffix ` Unknown &| (((`,
which names a field outside the allow-list and a malformed operator. -/
theorem C20_close_ends_compilation_witness :
    (wellClosed "A = \"1\"".toList ["A".toList] = true ∧
      ToSql "A = \"1\"".toList ["A".toList] = .ok ("( A = ? )".toList, ["1".toList])) ∧
    ToSql ("A = \"1\"".toList ++ ")".toList ++ " Unknown &| (((".toList) ["A".toList] =
      .ok ("( A = ? )".toList, ["1".toList]) :=
  ⟨⟨by decide, by decide⟩,
    C20_close_ends_compilation "A = \"1\"".toList " Unknown &| (((".toList ["A".toList]
      "( A = ? )".toList ["1".toList] (by decide) (by decide)⟩

/-- C17 (as stated, refuted): on the items of `A = "1" || B = "2"` the function `Parse`
returns a root whose operation is `||`, on the single item `=` it returns the error
`invalid syntax`, and on the single item `Key` the error `invalid type for field node`. -/
theorem C17_counterexample :
    parse.Parse [⟨.FieldType, "A".toList⟩, ⟨.ComparatorType, "=".toList⟩,
        ⟨.LiteralType, "\"1\"".toList⟩, ⟨.BooleanType, "||".toList⟩, ⟨.FieldType, "B".toList⟩,
        ⟨.ComparatorType, "=".toList⟩, ⟨.LiteralType, "\"2\"".toList⟩] =
      .ok (.ofBoolean "||".toList [.ofField ⟨"A".toList, "=".toList, "1".toList⟩,
        .ofField ⟨"B".toList, "=".toList, "2".toList⟩]) ∧
    parse.Parse [⟨.ComparatorType, "=".toList⟩] = .error "invalid syntax".toList ∧
    parse.Parse [⟨.FieldType, "Key".toList⟩] = .error "invalid type for field node".toList :=
  ⟨rfl, rfl, rfl⟩

/-- C17 (amended): on the items of a sequence of Boolean items, predicates in
field-first or literal-first order and parenthesized groups of such elements, `Parse`
returns a root whose operation is the value of the last Boolean item at the top level,
`&&` when there is none, and whose children are the nodes of the elements in order: a
group gives one nested node with the value of the last Boolean item directly inside it,
a predicate gives the same node in either order, with the quotes removed from its value.
On the items of `( Key <= "12" && "15" <= Key2 )` the root is `&&` with the single child
`&&`[ {Key, <=, 12}, {Key2, <=, 15} ]. On no item sequence does `Parse` run out of fuel
or panic. -/
theorem C17_parse_builds_tree (es : List parse.Elem) :
    parse.Parse (parse.Elem.itemsList es) =
      .ok (.ofBoolean (parse.lastOp "&&".toList es) (parse.Elem.nodesList es)) ∧
    parse.Parse [⟨.OpenPrecedenceType, "(".toList⟩, ⟨.FieldType, "Key".toList⟩,
        ⟨.ComparatorType, "<=".toList⟩, ⟨.LiteralType, "\"12\"".toList⟩,
        ⟨.BooleanType, "&&".toList⟩, ⟨.LiteralType, "\"15\"".toList⟩,
        ⟨.ComparatorType, "<=".toList⟩, ⟨.FieldType, "Key2".toList⟩,
        ⟨.ClosePrecedenceType, ")".toList⟩] =
      .ok (.ofBoolean "&&".toList [.ofBoolean "&&".toList
        [.ofField ⟨"Key".toList, "<=".toList, "12".toList⟩,
          .ofField ⟨"Key2".toList, "<=".toList, "15".toList⟩]]) ∧
    ∀ items, parse.Parse items ≠ .outOfFuel ∧ parse.Parse items ≠ .panic := by
  refine ⟨?_, rfl, parse.Parse_total⟩
  have h := parse.build_itemsList es ((parse.Elem.itemsList es).length + 1)
    { Operation := "&&".toList, Children := [] } [] [] (Or.inl ⟨rfl, rfl⟩) (Nat.lt_succ_self _)
  rw [List.append_nil] at h
  unfold parse.Parse
  rw [h]
  simp [parse.BooleanNode.toCriteria]

end Funnel
